import Mathlib

/-!
# kubecfg `diff`: field masking, per-resource comparison and report aggregation

A shallow embedding of `pkg/kubecfg/diff.go`.

* Go's dynamically typed `interface{}` values are the inductive type `Value`, one constructor per
  dynamic type the code switches on, plus `other` for every remaining dynamic type.
* A Go `map[string]interface{}` is an association list; a Go map has each key once, which is the
  predicate `Value.wf` / `mapWF` (it is a hypothesis wherever a statement depends on it).
* A slice or a map held in an `interface{}` is either nil or allocated, and the two are different
  values (`reflect.DeepEqual` tells them apart, the JSON encoder prints `null` for the one and
  `[]` or `{}` for the other): `Value.nilList`, `Value.nilStrList` and `Value.nilMap` are the nil
  ones, `Value.list`, `Value.strList` and `Value.map` the allocated ones.
* A Go `panic` is the result `none`.
* Texts are `String`s; the two regular expressions of the renderer are functions on the list of
  characters of a text.
* The collaborators outside the file (the remote client, the JSON encoder, the line diff, the
  sort) are the fields of `World`; the statements hold for every world, and the examples use the
  concrete `exampleWorld`.
-/

namespace Kubecfg

/-! ## Values -/

/-- A Go `interface{}` value as `isEmptyValue` and `removeFields` see it. `float64` carries the
IEEE-754 binary64 bit pattern. `list`, `strList` and `map` are the allocated (non-nil) values of
the dynamic types `[]interface{}`, `[]string` and `map[string]interface{}`, with any number of
elements, zero included; `nilList`, `nilStrList` and `nilMap` are the nil values of the same three
dynamic types, which have length zero and are not equal to the allocated values of length zero.
`other` stands for a value of any dynamic type that the type switch of `isEmptyValue` does not list
(the string names the type, as `%T` would print it). Two values are equal when they have the same
dynamic type, the same nil-ness and the same content, a `float64` by its bit pattern. -/
inductive Value where
  | null : Value
  | bool (b : Bool) : Value
  | float64 (bits : Nat) : Value
  | int64 (i : Int) : Value
  | str (s : String) : Value
  | list (xs : List Value) : Value
  | strList (xs : List String) : Value
  | map (m : List (String × Value)) : Value
  | nilList : Value
  | nilStrList : Value
  | nilMap : Value
  | other (typeName : String) : Value

/-- The entries of a Go `map[string]interface{}`. A map that a function of the file takes as an
argument is given by its entries: a nil map has none, and reading it or ranging over it is reading
or ranging over the map without entries. A map that a function returns is the allocated map it
built (`result := map[string]interface{}{}`), given by its entries. -/
abbrev GoMap := List (String × Value)

/-- The comparison `v == 0` on a `float64` given by its bit pattern: true exactly for `+0` and `-0`,
the two patterns whose 63 low bits (exponent and fraction) are all zero. -/
def float64IsZero (bits : Nat) : Bool := bits % 2 ^ 63 == 0

/-- The map assignment `m[k] = v`: replaces the value of `k` when present, adds the key otherwise. -/
def mapSet : GoMap → String → Value → GoMap
  | [], k, v => [(k, v)]
  | (k', v') :: rest, k, v =>
    if k' == k then (k', v) :: rest else (k', v') :: mapSet rest k v

/-- The keys of a map -/
def mapKeys (m : GoMap) : List String := m.map Prod.fst

/-- Go `isEmptyValue`: the type switch; `none` is the `panic` of the `default` branch. -/
def isEmptyValue : Value → Option Bool
  | .list v => some (v.length == 0)
  | .nilList => some true
  | .strList v => some (v.length == 0)
  | .nilStrList => some true
  | .map v => some (v.length == 0)
  | .nilMap => some true
  | .bool v => some (!v)
  | .float64 v => some (float64IsZero v)
  | .int64 v => some (v == 0)
  | .str v => some (v == "")
  | .null => some true
  | .other _ => none

mutual
/-- Go `removeFields`: dispatch on the dynamic type of `config`, falling through to `return live`.
A nil map or slice has the dynamic type of an allocated one and takes the same branch: a nil `live`
is read as the one without entries or elements; for a nil `config` the loop of `removeMapFields`
runs no iteration and returns the map it allocated, and the loop of `removeListFields` appends
every element of `live` to the slice it allocated. -/
def removeFields : Value → Value → Option Value
  | .map c, .map live => (removeMapFieldsRange c live []).map Value.map
  | .map c, .nilMap => (removeMapFieldsRange c [] []).map Value.map
  | .nilMap, .map _ => some (.map [])
  | .nilMap, .nilMap => some (.map [])
  | .list c, .list live => (removeListFields c live).map Value.list
  | .list c, .nilList => (removeListFields c []).map Value.list
  | .nilList, .list live => some (.list live)
  | .nilList, .nilList => some (.list [])
  | _, live => some live
termination_by structural c => c
/-- The loop `for k, v1 := range config` of Go `removeMapFields`; the local variable `result` is
the third argument, and the value returned is `result` after the last iteration. -/
def removeMapFieldsRange : GoMap → GoMap → GoMap → Option GoMap
  | [], _, result => some result
  | (k, v1) :: rest, live, result =>
    match live.lookup k with
    | none =>
      match isEmptyValue v1 with
      | none => none
      | some true => removeMapFieldsRange rest live (mapSet result k v1)
      | some false => removeMapFieldsRange rest live result
    | some v2 =>
      match removeFields v1 v2 with
      | none => none
      | some r => removeMapFieldsRange rest live (mapSet result k r)
termination_by structural c => c
/-- Go `removeListFields`: the loop over `live` walks `config` in step, `config[i]` being the head
of what is left of `config`; once `config` is exhausted (`len(config) > i` is false) the remaining
elements of `live` are appended as they are. The slice returned is the allocated
`make([]interface{}, 0, len(live))` with what the loop appended, given by its elements. -/
def removeListFields : List Value → List Value → Option (List Value)
  | _, [] => some []
  | [], v2 :: live => some (v2 :: live)
  | c :: config, v2 :: live =>
    match removeFields c v2 with
    | none => none
    | some r => (removeListFields config live).map (r :: ·)
termination_by structural c => c
end

/-- Go `removeMapFields`: `result := map[string]interface{}{}`, then the loop, then
`return result`. -/
def removeMapFields (config live : GoMap) : Option GoMap :=
  removeMapFieldsRange config live []

/-! ## Predicates on values -/

mutual
/-- Every mapping inside the value has each of its keys once, as every Go map has. -/
def Value.wf : Value → Bool
  | .list xs => listWF xs
  | .map m => mapWF m
  | _ => true
termination_by structural v => v
/-- Every element of the sequence satisfies `Value.wf`. -/
def listWF : List Value → Bool
  | [] => true
  | x :: xs => x.wf && listWF xs
termination_by structural xs => xs
/-- The keys of the mapping are pairwise distinct and every value in it satisfies `Value.wf`. -/
def mapWF : GoMap → Bool
  | [] => true
  | (k, v) :: rest => !(mapKeys rest).contains k && v.wf && mapWF rest
termination_by structural m => m
end

mutual
/-- The value is built from the dynamic types the type switch of `isEmptyValue` lists: no `other`
occurs in it. -/
def Value.recognized : Value → Bool
  | .list xs => listRecognized xs
  | .map m => mapRecognized m
  | .other _ => false
  | _ => true
termination_by structural v => v
/-- Every element of the sequence satisfies `Value.recognized`. -/
def listRecognized : List Value → Bool
  | [] => true
  | x :: xs => x.recognized && listRecognized xs
termination_by structural xs => xs
/-- Every value of the mapping satisfies `Value.recognized`. -/
def mapRecognized : GoMap → Bool
  | [] => true
  | (_, v) :: rest => v.recognized && mapRecognized rest
termination_by structural m => m
end

mutual
/-- No nil `[]interface{}` and no nil `map[string]interface{}` occurs in the value: every sequence
and mapping in it is allocated, as in a value decoded from JSON text. -/
def Value.noNil : Value → Bool
  | .list xs => listNoNil xs
  | .map m => mapNoNil m
  | .nilList => false
  | .nilMap => false
  | _ => true
termination_by structural v => v
/-- Every element of the sequence satisfies `Value.noNil`. -/
def listNoNil : List Value → Bool
  | [] => true
  | x :: xs => x.noNil && listNoNil xs
termination_by structural xs => xs
/-- Every value of the mapping satisfies `Value.noNil`. -/
def mapNoNil : GoMap → Bool
  | [] => true
  | (_, v) :: rest => v.noNil && mapNoNil rest
termination_by structural m => m
end

/-- The value is a mapping: its dynamic type is `map[string]interface{}`, nil or allocated. -/
def Value.isMap : Value → Bool
  | .map _ => true
  | .nilMap => true
  | _ => false

/-- The value is a sequence: its dynamic type is `[]interface{}`, nil or allocated. -/
def Value.isList : Value → Bool
  | .list _ => true
  | .nilList => true
  | _ => false

/-- The entries one pass of the loop of `removeMapFields` writes, in iteration order: for a key of
`config` absent from `live`, the declared entry when its value is empty and nothing otherwise; for
a key present in both, the key with `removeFields` of the two values. -/
def maskEntries (live : GoMap) : GoMap → Option GoMap
  | [] => some []
  | (k, v1) :: rest =>
    match live.lookup k with
    | none =>
      match isEmptyValue v1 with
      | none => none
      | some true => (maskEntries live rest).map ((k, v1) :: ·)
      | some false => maskEntries live rest
    | some v2 =>
      match removeFields v1 v2 with
      | none => none
      | some r => (maskEntries live rest).map ((k, r) :: ·)

/-- The empty values as the specification lists them: the empty sequence (of either sequence
type, nil or allocated), the empty mapping (nil or allocated), the empty string, `false`, numeric
zero (an `int64` zero, a `float64` zero of either sign) and null. -/
def Value.isEmpty : Value → Bool
  | .list [] => true
  | .nilList => true
  | .strList [] => true
  | .nilStrList => true
  | .map [] => true
  | .nilMap => true
  | .str s => s == ""
  | .bool b => b == false
  | .int64 i => i == 0
  | .float64 bits => float64IsZero bits
  | .null => true
  | _ => false

mutual
/-- The live value agrees with the declared one up to server defaulting, in the words of the
specification: two mappings agree when every declared key is either present live with agreeing
values or omitted live with an empty declared value (keys only the live mapping has are free); two
sequences agree when they have the same length and agree element by element; any other declared
value agrees only with itself. A nil mapping is a mapping without keys and a nil sequence a
sequence of length zero. -/
def Value.Agrees : Value → Value → Prop
  | .map d, .map l => mapAgrees d l
  | .map d, .nilMap => mapAgrees d []
  | .map _, _ => False
  | .nilMap, l => l.isMap = true
  | .list d, .list l => listAgrees d l
  | .list d, .nilList => listAgrees d []
  | .list _, _ => False
  | .nilList, l => l = .nilList ∨ l = .list []
  | d, l => d = l
termination_by structural d => d
/-- Every declared entry is present live with agreeing values, or omitted live and empty. -/
def mapAgrees : GoMap → GoMap → Prop
  | [], _ => True
  | (k, v) :: rest, l =>
    (match l.lookup k with
      | some v2 => v.Agrees v2
      | none => v.isEmpty = true) ∧ mapAgrees rest l
termination_by structural d => d
/-- Same length, and agreeing element by element. -/
def listAgrees : List Value → List Value → Prop
  | [], [] => True
  | d :: ds, l :: ls => d.Agrees l ∧ listAgrees ds ls
  | _, _ => False
termination_by structural d => d
end

/-- One step into a value: the value of a mapping at a key, or the element of a sequence at an
index. -/
inductive Step where
  | key (k : String) : Step
  | index (i : Nat) : Step

/-- The value at a nested position, when the steps of the path exist. -/
def Value.get? : Value → List Step → Option Value
  | v, [] => some v
  | .map m, .key k :: path =>
    match m.lookup k with
    | some v => v.get? path
    | none => none
  | .list xs, .index i :: path =>
    match xs[i]? with
    | some v => v.get? path
    | none => none
  | _, _ :: _ => none

/-! ## Resources, errors and comparison results -/

/-- A Go `error` value: its message (what `%v` prints) and whether `errors.IsNotFound` holds
of it. -/
structure GoError where
  msg : String
  isNotFound : Bool
deriving DecidableEq

/-- Go `ErrDiffFound = fmt.Errorf("Differences found.")` -/
def ErrDiffFound : GoError := ⟨"Differences found.", false⟩

/-- The `unstructured.Unstructured` of apimachinery: the field `Object`. -/
structure Unstructured where
  Object : GoMap

/-- The value under a path of keys, when every step goes through a mapping that has the key
(apimachinery `NestedFieldNoCopy`). -/
def nestedField : Value → List String → Option Value
  | v, [] => some v
  | .map m, f :: fields =>
    match m.lookup f with
    | some v => nestedField v fields
    | none => none
  | _, _ :: _ => none

/-- The string under a path of keys, the empty string when there is none (apimachinery
`getNestedString`). -/
def getNestedString (obj : GoMap) (fields : List String) : String :=
  match nestedField (.map obj) fields with
  | some (.str s) => s
  | _ => ""

/-- The accessor `GetName` of apimachinery: `metadata.name` -/
def Unstructured.GetName (u : Unstructured) : String :=
  getNestedString u.Object ["metadata", "name"]

/-- The accessor `GetNamespace` of apimachinery: `metadata.namespace` -/
def Unstructured.GetNamespace (u : Unstructured) : String :=
  getNestedString u.Object ["metadata", "namespace"]

/-- The accessor `GetKind` of apimachinery: `kind` -/
def Unstructured.GetKind (u : Unstructured) : String :=
  getNestedString u.Object ["kind"]

/-- Go `difference`: the possible states of a comparison between a local and a remote object. -/
inductive difference where
  | differenceNone : difference
  | differenceError : difference
  | differenceOnlyLocal : difference
  | differenceDifferent : difference
deriving DecidableEq

/-- Go `diffRes`: the result of a comparison of a local and a remote object; `err` is `none` for
Go's `nil`. -/
structure diffRes where
  desc : String
  diff : difference
  details : String
  err : Option GoError
deriving DecidableEq

/-- The operation of a `diffmatchpatch.Diff` -/
inductive Operation where
  | DiffDelete : Operation
  | DiffInsert : Operation
  | DiffEqual : Operation
deriving DecidableEq

/-- A segment `diffmatchpatch.Diff`; the field `Typ` is Go's `Type`. -/
structure Diff where
  Typ : Operation
  Text : String
deriving DecidableEq

/-- The resource client `ClientForResource` returns: what its `Get(name, GetOptions)` answers,
the live object (`none` for `nil`) and the error (`none` for `nil`). -/
structure ResourceClient where
  Get : String → Option Unstructured × Option GoError

/-- The collaborators of `diff.go` that are not part of the file, each as the function it is
called as: `utils.ResourceNameFor(c.Mapper, obj)`, `utils.FqName(obj)`,
`utils.ClientForResource(c.Client, c.Mapper, obj, c.DefaultNamespace)`,
`json.MarshalIndent(v, "", "  ")` (the text; its error is dropped by the caller), the line diff
(`DiffLinesToChars`, `DiffMain`, `DiffCharsToLines` in sequence), `isatty.IsTerminal` of standard
output, and `sort.Sort` on a slice with a given `Less`. -/
structure World where
  resourceNameFor : Unstructured → String
  fqName : Unstructured → String
  clientForResource : Unstructured → String → Except GoError ResourceClient
  marshalIndent : GoMap → String
  diffLines : String → String → List Diff
  stdoutIsTerminal : Bool
  sort : (Unstructured → Unstructured → Bool) → List Unstructured → List Unstructured

/-- Go `DiffCmd`: the fields that are plain data; `Client` and `Mapper` are arguments of the
collaborators in `World`. -/
structure DiffCmd where
  DefaultNamespace : String
  OmitSecrets : Bool
  OmitSame : Bool
  DiffStrategy : String

/-- Go's `<` on strings, on the characters of the two: the first character that differs decides,
by its code point, and a proper prefix is less. -/
def charsLess : List Char → List Char → Bool
  | _, [] => false
  | [], _ :: _ => true
  | x :: xs, y :: ys =>
    if x.toNat < y.toNat then true
    else if y.toNat < x.toNat then false
    else charsLess xs ys

/-- Go's `a < b` on strings -/
def stringLess (a b : String) : Bool := charsLess a.data b.data

/-- Modelled from the spec: `utils.AlphabeticalOrder`, the `Less` of the order `Run` sorts by, is
not in the sources at hand; the specification sorts "alphabetically by a deterministic key
(kind+namespace+name)", that is by kind, then namespace, then name. -/
def alphabeticalLess (a b : Unstructured) : Bool :=
  if a.GetKind ≠ b.GetKind then stringLess a.GetKind b.GetKind
  else if a.GetNamespace ≠ b.GetNamespace then stringLess a.GetNamespace b.GetNamespace
  else stringLess a.GetName b.GetName

/-- The key `alphabeticalLess` compares: kind, namespace, name. -/
def sortKey (a : Unstructured) : String × String × String :=
  (a.GetKind, a.GetNamespace, a.GetName)

/-! ## The renderer -/

/-- `DiffLineStart.ReplaceAllString(text, "$1" ++ marker ++ "$2")` for the expression
`(^|\n)(.)`: a match is one character other than a newline (`.`), standing at the start of the
text (`^`) or right after a newline, which the match then includes; the replacement puts the
marker before that character. `pending` says that the position is the start of the text or
follows a newline. -/
def lineStartReplace (marker : List Char) : Bool → List Char → List Char
  | _, [] => []
  | pending, ch :: rest =>
    if ch = '\n' then ch :: lineStartReplace marker true rest
    else if pending then marker ++ ch :: lineStartReplace marker false rest
    else ch :: lineStartReplace marker false rest

/-- The class `[-._a-zA-Z0-9]` -/
def isKeyChar (ch : Char) : Bool :=
  ch = '-' || ch = '.' || ch = '_' || ch.isAlphanum

/-- The class `[[:alnum:]=+]` -/
def isValueChar (ch : Char) : Bool :=
  ch.isAlphanum || ch = '=' || ch = '+'

/-- The class `\s`: tab, newline, form feed, carriage return, space -/
def isSpaceChar (ch : Char) : Bool :=
  ch = '\t' || ch = '\n' || ch = Char.ofNat 12 || ch = '\r' || ch = ' '

/-- The double quote -/
def dquote : Char := Char.ofNat 34

/-- A match of `DiffKeyValue` at the head of the text: a quote, the longest run of key characters
(at least one), a quote, a colon, one space character, a quote, the longest run of value characters
(at least one), a quote and a comma if one follows. Returns the key (`$1`) and the number of
characters matched. Neither class holds the quote, so the longest runs are the only ones a match
can use. -/
def matchKeyValue (text : List Char) : Option (List Char × Nat) :=
  match text with
  | q1 :: t1 =>
    let key := t1.takeWhile isKeyChar
    match t1.dropWhile isKeyChar with
    | q2 :: colon :: sp :: q3 :: t2 =>
      let value := t2.takeWhile isValueChar
      match t2.dropWhile isValueChar with
      | q4 :: t3 =>
        if q1 = dquote ∧ key ≠ [] ∧ q2 = dquote ∧ colon = ':' ∧ isSpaceChar sp = true ∧
            q3 = dquote ∧ value ≠ [] ∧ q4 = dquote then
          some (key, key.length + value.length + 6 + (if t3.head? = some ',' then 1 else 0))
        else none
      | [] => none
    | _ => none
  | [] => none

/-- `DiffKeyValue.ReplaceAllString(text, "$1: <omitted>")`: the text is scanned from the left;
where a match starts it is replaced and the scan goes on after it (`skip` counts the characters of
the match still to pass), elsewhere the character is copied. -/
def keyValueReplace : Nat → List Char → List Char
  | _, [] => []
  | skip + 1, _ :: rest => keyValueReplace skip rest
  | 0, ch :: rest =>
    match matchKeyValue (ch :: rest) with
    | some (key, n) => key ++ ": <omitted>".data ++ keyValueReplace (n - 1) rest
    | none => ch :: keyValueReplace 0 rest

/-- Go `formatDiff`: the segments rendered one after the other into the buffer. -/
def formatDiff (diffs : List Diff) (color : Bool) (omitchanges : Bool) : String :=
  diffs.foldl (fun buff diff =>
    let text := if omitchanges then String.mk (keyValueReplace 0 diff.Text.data) else diff.Text
    match diff.Typ with
    | .DiffInsert =>
      let buff := if color then buff ++ "\x1b[32m" else buff
      let buff := buff ++ String.mk (lineStartReplace "+ ".data true text.data)
      if color then buff ++ "\x1b[0m" else buff
    | .DiffDelete =>
      let buff := if color then buff ++ "\x1b[31m" else buff
      let buff := buff ++ String.mk (lineStartReplace "- ".data true text.data)
      if color then buff ++ "\x1b[0m" else buff
    | .DiffEqual =>
      if !omitchanges then buff ++ String.mk (lineStartReplace "  ".data true text.data)
      else buff) ""

/-! ## The comparator and the orchestrator -/

/-- Go `diffOne`: the comparison of a local object with the object on the remote; `none` is a
`panic` (of `removeMapFields`). -/
def diffOne (w : World) (c : DiffCmd) (obj : Unstructured) : Option diffRes :=
  let desc := w.resourceNameFor obj ++ " " ++ w.fqName obj
  let fatal : GoError → diffRes := fun err => ⟨desc, .differenceError, "", some err⟩
  let result : difference → String → diffRes := fun diff details => ⟨desc, diff, details, none⟩
  match w.clientForResource obj c.DefaultNamespace with
  | .error err => some (fatal err)
  | .ok client =>
    if obj.GetName = "" then
      some (fatal ⟨"Error fetching one of the " ++ w.resourceNameFor obj ++
        ": it does not have a name set", false⟩)
    else
      match client.Get obj.GetName with
      | (_, some err) =>
        if err.isNotFound then some (result .differenceOnlyLocal "")
        else some (fatal ⟨"Error fetching " ++ desc ++ ": " ++ err.msg, false⟩)
      | (none, none) => some (result .differenceOnlyLocal "")
      | (some liveObj, none) =>
        let masked : Option GoMap :=
          if c.DiffStrategy = "subset" then removeMapFields obj.Object liveObj.Object
          else some liveObj.Object
        match masked with
        | none => none
        | some liveObjObject =>
          let liveObjText := w.marshalIndent liveObjObject
          let objText := w.marshalIndent obj.Object
          let diff := w.diffLines liveObjText objText
          match diff with
          | [⟨.DiffEqual, _⟩] => some (result .differenceNone "")
          | _ =>
            some (result .differenceDifferent
              (formatDiff diff w.stdoutIsTerminal (c.OmitSecrets && obj.GetKind = "Secret")))

/-- The closure `printObjectHeader` of Go `Run`, on the text written so far. -/
def printObjectHeader (out : String) (o : diffRes) : String :=
  out ++ "---\n" ++ ("- live " ++ o.desc ++ "\n+ config " ++ o.desc ++ "\n")

/-- What `%v` prints for an `error`: its message, `<nil>` for `nil`. -/
def errorText : Option GoError → String
  | some e => e.msg
  | none => "<nil>"

/-- The `switch o.diff` of Go `Run`, on the text written so far and the flag `diffFound`. -/
def runSwitch (omitSame : Bool) (o : diffRes) (st : String × Bool) : String × Bool :=
  match o.diff with
  | .differenceNone => if !omitSame then (printObjectHeader st.1 o, st.2) else st
  | .differenceError => (st.1 ++ (errorText o.err ++ "\n"), st.2)
  | .differenceOnlyLocal =>
    (printObjectHeader st.1 o ++ (o.desc ++ " doesn't exist on server\n"), true)
  | .differenceDifferent => (printObjectHeader st.1 o ++ (o.details ++ "\n"), true)

/-- The loop `for _, obj := range apiObjects` of Go `Run`, `compare` being `c.diffOne`; `none`
when a comparison panics. -/
def runLoop (omitSame : Bool) (compare : Unstructured → Option diffRes) :
    List Unstructured → String × Bool → Option (String × Bool)
  | [], st => some st
  | obj :: rest, st =>
    match compare obj with
    | none => none
    | some o => runLoop omitSame compare rest (runSwitch omitSame o st)

/-- Go `Run`: sort, loop, and return `ErrDiffFound` or `nil`; the result is the text of the
writer `out` after the call, with the error returned. -/
def Run (w : World) (c : DiffCmd) (apiObjects : List Unstructured) (out : String) :
    Option (String × Option GoError) :=
  match runLoop c.OmitSame (diffOne w c) (w.sort alphabeticalLess apiObjects) (out, false) with
  | none => none
  | some (out, diffFound) => some (out, if diffFound then some ErrDiffFound else none)

/-- The contract of `sort.Sort` on one slice, for a given `Less`: `sorted` is a rearrangement
of `xs` in which no element is `Less` than one before it. -/
def IsSortOf (less : Unstructured → Unstructured → Bool) (xs sorted : List Unstructured) : Prop :=
  sorted.Perm xs ∧ sorted.Pairwise (fun a b => less b a = false)

/-- The header of a resource: the line `---`, then `- live <label>` and `+ config <label>`. -/
def objectHeader (o : diffRes) : String :=
  "---\n" ++ ("- live " ++ o.desc ++ "\n+ config " ++ o.desc ++ "\n")

/-- The text one resource adds to the report, by classification. -/
def resourceBlock (omitSame : Bool) (o : diffRes) : String :=
  match o.diff with
  | .differenceNone => if omitSame then "" else objectHeader o
  | .differenceError => errorText o.err ++ "\n"
  | .differenceOnlyLocal => objectHeader o ++ (o.desc ++ " doesn't exist on server\n")
  | .differenceDifferent => objectHeader o ++ (o.details ++ "\n")

/-- The resource counts as a difference: it is only local, or different. -/
def isDifference (o : diffRes) : Bool :=
  o.diff = .differenceOnlyLocal || o.diff = .differenceDifferent

/-- The texts one after the other. -/
def concatTexts : List String → String
  | [] => ""
  | t :: ts => t ++ concatTexts ts

/-- Go `insertionSort`, which `sort.Sort` runs on a slice of at most six elements: the elements
are taken from the left, and each moves left past the elements before it for as long as it is
`Less` than the one it passes. -/
def insertionSort (less : Unstructured → Unstructured → Bool) (data : List Unstructured) :
    List Unstructured :=
  data.foldl (fun sorted x =>
    (sorted.reverse.dropWhile (fun e => less x e)).reverse ++
      x :: (sorted.reverse.takeWhile (fun e => less x e)).reverse) []

/-- The text the Delete and Equal segments concatenate to: the first text given to the line
diff (the live text). -/
def liveSide : List Diff → String
  | [] => ""
  | d :: ds => if d.Typ = .DiffInsert then liveSide ds else d.Text ++ liveSide ds

/-- The text the Insert and Equal segments concatenate to: the second text given to the line
diff (the declared text). -/
def configSide : List Diff → String
  | [] => ""
  | d :: ds => if d.Typ = .DiffDelete then configSide ds else d.Text ++ configSide ds

/-! ## A concrete world for the examples -/

mutual
/-- The text `json.MarshalIndent(v, indent, "  ")` prints for a value built from null, booleans,
integers, strings that need no escaping, sequences, and mappings whose keys are given in ascending
order (the order the encoder writes them in); a nil sequence and a nil mapping print as `null`.
Values of the other kinds are outside of what the examples use and print as `null`. -/
def exampleMarshal (indent : String) : Value → String
  | .null => "null"
  | .bool b => if b then "true" else "false"
  | .int64 i => toString i
  | .str s => "\"" ++ s ++ "\""
  | .list xs =>
    if xs.isEmpty then "[]"
    else "[\n" ++ exampleMarshalList (indent ++ "  ") xs ++ "\n" ++ indent ++ "]"
  | .map m =>
    if m.isEmpty then "\x7b\x7d"
    else "\x7b\n" ++ exampleMarshalMap (indent ++ "  ") m ++ "\n" ++ indent ++ "\x7d"
  | _ => "null"
termination_by structural v => v
/-- The elements of a sequence, one a line, separated by commas. -/
def exampleMarshalList (indent : String) : List Value → String
  | [] => ""
  | x :: xs =>
    indent ++ exampleMarshal indent x ++
      (if xs.isEmpty then "" else ",\n" ++ exampleMarshalList indent xs)
termination_by structural xs => xs
/-- The entries of a mapping, one a line, separated by commas. -/
def exampleMarshalMap (indent : String) : GoMap → String
  | [] => ""
  | (k, v) :: rest =>
    indent ++ "\"" ++ k ++ "\": " ++ exampleMarshal indent v ++
      (if rest.isEmpty then "" else ",\n" ++ exampleMarshalMap indent rest)
termination_by structural m => m
end

/-- The `float64` of the bit pattern is a number: its exponent bits are not all ones, so it is
neither a NaN nor an infinity. -/
def float64IsFinite (bits : Nat) : Bool := (bits / 2 ^ 52) % 2 ^ 11 != 2047

mutual
/-- The JSON encoder has a text for the value: it holds no `float64` that is a NaN or an infinity,
on which `json.MarshalIndent` returns an `UnsupportedValueError` and no text. -/
def Value.encodable : Value → Bool
  | .float64 bits => float64IsFinite bits
  | .list xs => listEncodable xs
  | .map m => mapEncodable m
  | _ => true
termination_by structural v => v
/-- Every element of the sequence satisfies `Value.encodable`. -/
def listEncodable : List Value → Bool
  | [] => true
  | x :: xs => x.encodable && listEncodable xs
termination_by structural xs => xs
/-- Every value of the mapping satisfies `Value.encodable`. -/
def mapEncodable : GoMap → Bool
  | [] => true
  | (_, v) :: rest => v.encodable && mapEncodable rest
termination_by structural m => m
end

/-- The text `diffOne` gets from `json.MarshalIndent(m, "", "  ")`, whose error it drops: the
text of `exampleMarshal`, and the empty text when the encoder fails. -/
def exampleMarshalIndent (m : GoMap) : String :=
  if mapEncodable m then exampleMarshal "" (.map m) else ""

/-- The lines of a text, each with the newline that ends it; the last line has none when the
text does not end with a newline. -/
def linesOf : List Char → List (List Char)
  | [] => []
  | ch :: rest =>
    if ch = '\n' then [ch] :: linesOf rest
    else
      match linesOf rest with
      | [] => [[ch]]
      | line :: lines => (ch :: line) :: lines

/-- The longest common prefix of two lists of lines. -/
def commonPrefix : List (List Char) → List (List Char) → List (List Char)
  | x :: xs, y :: ys => if x = y then x :: commonPrefix xs ys else []
  | _, _ => []

/-- A line diff for the examples: the common leading lines, then the remaining live lines as one
Delete and the remaining declared lines as one Insert, then the common trailing lines; segments
with no text are left out. This is what the line diff returns when the remaining lines of one side
are none or the two sides have no remaining line in common; for two equal texts it is the one
Equal segment with the text, and no segment when the text is empty. -/
def exampleDiffLines (live config : String) : List Diff :=
  let a := linesOf live.data
  let b := linesOf config.data
  let pre := commonPrefix a b
  let a1 := a.drop pre.length
  let b1 := b.drop pre.length
  let suf := (commonPrefix a1.reverse b1.reverse).reverse
  let del := a1.take (a1.length - suf.length)
  let ins := b1.take (b1.length - suf.length)
  ([⟨.DiffEqual, String.mk pre.flatten⟩, ⟨.DiffDelete, String.mk del.flatten⟩,
    ⟨.DiffInsert, String.mk ins.flatten⟩, ⟨.DiffEqual, String.mk suf.flatten⟩] : List Diff).filter
    (fun d => d.Text ≠ "")

/-- Go `utils.FqName` as the examples use it: the name, qualified by the namespace when there is
one. -/
def exampleFqName (obj : Unstructured) : String :=
  if obj.GetNamespace = "" then obj.GetName else obj.GetNamespace ++ "." ++ obj.GetName

/-- A world for the examples: the server holds the objects of `server` by name and answers
not-found for any other name (or the failure `failure`, when one is given); the resource name is
the kind; standard output is no terminal; the sort is Go's `insertionSort`. -/
def exampleWorld (server : List (String × GoMap)) (failure : Option GoError) : World where
  resourceNameFor := fun obj => obj.GetKind
  fqName := exampleFqName
  clientForResource := fun _ _ => .ok ⟨fun name =>
    match failure with
    | some err => (none, some err)
    | none =>
      match server.lookup name with
      | some live => (some ⟨live⟩, none)
      | none => (none, some ⟨name ++ " not found", true⟩)⟩
  marshalIndent := exampleMarshalIndent
  diffLines := exampleDiffLines
  stdoutIsTerminal := false
  sort := insertionSort

/-! ## Reading the rendered text -/

/-- The text with the two-character marker of every line left out: of each line the first two
characters are dropped (a line with no character has none to drop). `n` is the number of
characters of the current line still to drop. -/
def stripMarkers : Nat → List Char → List Char
  | _, [] => []
  | n, ch :: rest =>
    if ch = '\n' then ch :: stripMarkers 2 rest
    else
      match n with
      | 0 => ch :: stripMarkers 0 rest
      | k + 1 => stripMarkers k rest

/-- One side of a rendering read back by its lines: the lines that start with `mark` (`+` for the
declared side, `-` for the live side) or with a blank (the marker of an Equal segment), each
without its first two characters (the marker), one after the other. -/
def readSide (mark : Char) (out : List Char) : List Char :=
  (((linesOf out).filter (fun line => line.head? = some mark || line.head? = some ' ')).map
    (List.drop 2)).flatten

/-- The text ends where a line ends: it has no character, or its last character is a newline. -/
def endsLine : List Char → Bool
  | [] => true
  | ch :: rest =>
    match rest with
    | [] => ch = '\n'
    | _ :: _ => endsLine rest

/-- The segments are made of whole lines: the text of every segment that has a segment after it
ends where a line ends. -/
def wholeLines : List Diff → Bool
  | [] => true
  | d :: rest =>
    match rest with
    | [] => true
    | _ :: _ => endsLine d.Text.data && wholeLines rest

/-- No line of the text is without a character: none is the newline alone. -/
def noEmptyLine (t : List Char) : Bool :=
  (linesOf t).all (fun line => line != ['\n'])

/-- Some substring of the text matches `DiffKeyValue`: a match starts at some position. -/
def hasKeyValueMatch : List Char → Bool
  | [] => false
  | ch :: rest => (matchKeyValue (ch :: rest)).isSome || hasKeyValueMatch rest

/-- The lines of a text: the pieces between its newlines (after a final newline comes a last
piece with no character). -/
def splitNL : List Char → List (List Char)
  | [] => [[]]
  | ch :: rest =>
    if ch = '\n' then [] :: splitNL rest
    else
      match splitNL rest with
      | line :: lines => (ch :: line) :: lines
      | [] => [[ch]]

/-- The lines put together again, a newline between two. -/
def joinNL : List (List Char) → List Char
  | [] => []
  | line :: lines =>
    match lines with
    | [] => line
    | _ :: _ => line ++ '\n' :: joinNL lines

/-- A line with the marker before it when the line has a character; a line with no character is
left as it is. -/
def markLine (marker line : List Char) : List Char :=
  if line.isEmpty then [] else marker ++ line

/-- The rendering by the words of the specification: the marker at the start of the text and
after every newline, so that every line, a line with no character too, has it. -/
def markEveryLine (marker text : List Char) : List Char :=
  joinNL ((splitNL text).map (marker ++ ·))

/-- The text of the form of `DiffKeyValue` without the comma: quote, key, quote, colon, one
space character, quote, value, quote. -/
def keyValueCore (key : List Char) (sp : Char) (value : List Char) : List Char :=
  dquote :: (key ++ dquote :: ':' :: sp :: dquote :: (value ++ [dquote]))

/-- The key, the space character and the value are as `DiffKeyValue` asks: at least one key
character, all from `[-._a-zA-Z0-9]`; a character of `\s`; at least one value character, all from
`[[:alnum:]=+]`. -/
def IsKeyValue (key : List Char) (sp : Char) (value : List Char) : Prop :=
  key ≠ [] ∧ (∀ ch ∈ key, isKeyChar ch = true) ∧ isSpaceChar sp = true ∧
    value ≠ [] ∧ (∀ ch ∈ value, isValueChar ch = true)

/-- The escape character, with which the color codes start -/
def escChar : Char := Char.ofNat 27

/-- Two neighbouring characters as they can stand inside a match of `DiffKeyValue`: the first is
not the escape character; after a space character comes the quote; after a `+` or a `-` comes no
blank. -/
def okPair (x y : Char) : Bool :=
  !(x = escChar) && (!isSpaceChar x || y = dquote) && (!(x = '+' || x = '-') || !(y = ' '))

/-- A text that can be the rest of a match of `DiffKeyValue`: neighbours are as `okPair` asks and
the last character is the quote. The empty text counts. -/
def unbroken : List Char → Bool
  | [] => true
  | x :: rest =>
    match rest with
    | [] => x = dquote
    | y :: _ => okPair x y && unbroken rest

/-- No text that can be the rest of a match of `DiffKeyValue` starts the text, other than the
empty one: a match that has begun before the text cannot go on into it. -/
def Blocks (text : List Char) : Prop :=
  ∀ (rest : List Char), unbroken rest = true → rest <+: text → rest = []

/-! ## Lemmas on values and maps -/

/-- Structural induction on values, the induction hypothesis holding for every element of a
sequence and every value of a mapping. -/
theorem Value.induct {P : Value → Prop}
    (null : P .null) (bool : ∀ b, P (.bool b)) (float64 : ∀ b, P (.float64 b))
    (int64 : ∀ i, P (.int64 i)) (str : ∀ s, P (.str s))
    (list : ∀ xs, (∀ x ∈ xs, P x) → P (.list xs))
    (strList : ∀ xs, P (.strList xs))
    (map : ∀ m, (∀ kv ∈ m, P kv.2) → P (.map m))
    (nilList : P .nilList) (nilStrList : P .nilStrList) (nilMap : P .nilMap)
    (other : ∀ t, P (.other t)) (v : Value) : P v :=
  Value.rec (motive_1 := P) (motive_2 := fun xs => ∀ x ∈ xs, P x)
    (motive_3 := fun m => ∀ kv ∈ m, P kv.2) (motive_4 := fun kv => P kv.2)
    null bool float64 int64 str (fun xs ih => list xs ih) strList (fun m ih => map m ih)
    nilList nilStrList nilMap other
    (fun _ h => by cases h)
    (fun _ _ ih1 ih2 x hx => by
      rcases List.mem_cons.1 hx with h | h
      · exact h ▸ ih1
      · exact ih2 x h)
    (fun _ h => by cases h)
    (fun _ _ ih1 ih2 x hx => by
      rcases List.mem_cons.1 hx with h | h
      · exact h ▸ ih1
      · exact ih2 x h)
    (fun _ _ ih => ih) v

theorem mapKeys_cons (k : String) (v : Value) (m : GoMap) :
    mapKeys ((k, v) :: m) = k :: mapKeys m := rfl

theorem mapWF_cons {k : String} {v : Value} {m : GoMap} :
    mapWF ((k, v) :: m) = true ↔ k ∉ mapKeys m ∧ v.wf = true ∧ mapWF m = true := by
  simp [mapWF, and_assoc]

theorem listWF_cons {x : Value} {xs : List Value} :
    listWF (x :: xs) = true ↔ x.wf = true ∧ listWF xs = true := by
  simp [listWF]

theorem mapRecognized_cons {k : String} {v : Value} {m : GoMap} :
    mapRecognized ((k, v) :: m) = true ↔ v.recognized = true ∧ mapRecognized m = true := by
  simp [mapRecognized]

theorem listRecognized_cons {x : Value} {xs : List Value} :
    listRecognized (x :: xs) = true ↔ x.recognized = true ∧ listRecognized xs = true := by
  simp [listRecognized]

theorem lookup_eq_none_iff_not_mem_keys {k : String} {m : GoMap} :
    m.lookup k = none ↔ k ∉ mapKeys m := by
  induction m with
  | nil => simp [mapKeys]
  | cons kv m ih =>
    obtain ⟨k', v'⟩ := kv
    by_cases h : k = k'
    · subst h; simp [List.lookup, mapKeys]
    · have h' : (k == k') = false := by simpa using h
      simp [List.lookup, h', mapKeys_cons, h, ih]

theorem mapSet_of_not_mem {k : String} {m : GoMap} (v : Value) (h : k ∉ mapKeys m) :
    mapSet m k v = m ++ [(k, v)] := by
  induction m with
  | nil => rfl
  | cons kv m ih =>
    obtain ⟨k', v'⟩ := kv
    simp only [mapKeys_cons, List.mem_cons, not_or] at h
    have h' : (k' == k) = false := by simpa using fun e => h.1 e.symm
    simp [mapSet, h', ih h.2]

/-- On a mapping with pairwise distinct keys, none of them in `result` yet, the loop appends the
entries of `maskEntries` to `result`. -/
theorem removeMapFieldsRange_eq (live : GoMap) :
    ∀ (config result : GoMap), (mapKeys config).Nodup →
      (∀ k ∈ mapKeys config, k ∉ mapKeys result) →
      removeMapFieldsRange config live result = (maskEntries live config).map (result ++ ·) := by
  intro config
  induction config with
  | nil => intro result _ _; simp [removeMapFieldsRange, maskEntries]
  | cons kv rest ih =>
    obtain ⟨k, v1⟩ := kv
    intro result hnd hdisj
    rw [mapKeys_cons, List.nodup_cons] at hnd
    have hk : k ∉ mapKeys result := hdisj k (by simp [mapKeys_cons])
    have hrest : ∀ k' ∈ mapKeys rest, k' ∉ mapKeys result :=
      fun k' hk' => hdisj k' (by simp [mapKeys_cons, hk'])
    have hrest' : ∀ (r : Value), ∀ k' ∈ mapKeys rest, k' ∉ mapKeys (result ++ [(k, r)]) := by
      intro r k' hk' hmem
      simp only [mapKeys, List.map_append, List.mem_append, List.map_cons, List.map_nil,
        List.mem_singleton] at hmem
      rcases hmem with h | h
      · exact hrest k' hk' h
      · exact hnd.1 (h ▸ hk')
    cases hl : live.lookup k with
    | none =>
      cases he : isEmptyValue v1 with
      | none => simp [removeMapFieldsRange, maskEntries, hl, he]
      | some b =>
        cases b with
        | true =>
          simp only [removeMapFieldsRange, maskEntries, hl, he, mapSet_of_not_mem v1 hk]
          rw [ih _ hnd.2 (hrest' v1)]
          cases maskEntries live rest <;> simp
        | false =>
          simp only [removeMapFieldsRange, maskEntries, hl, he]
          exact ih _ hnd.2 hrest
    | some v2 =>
      cases hr : removeFields v1 v2 with
      | none => simp [removeMapFieldsRange, maskEntries, hl, hr]
      | some r =>
        simp only [removeMapFieldsRange, maskEntries, hl, hr, mapSet_of_not_mem r hk]
        rw [ih _ hnd.2 (hrest' r)]
        cases maskEntries live rest <;> simp

theorem mapWF_nodup {m : GoMap} (h : mapWF m = true) : (mapKeys m).Nodup := by
  induction m with
  | nil => simp [mapKeys]
  | cons kv m ih =>
    obtain ⟨k, v⟩ := kv
    rw [mapWF_cons] at h
    rw [mapKeys_cons, List.nodup_cons]
    exact ⟨h.1, ih h.2.2⟩

/-- On a well-formed declared mapping `removeMapFields` returns the entries of `maskEntries`. -/
theorem removeMapFields_eq_maskEntries {config : GoMap} (live : GoMap)
    (h : mapWF config = true) : removeMapFields config live = maskEntries live config := by
  unfold removeMapFields
  rw [removeMapFieldsRange_eq live config [] (mapWF_nodup h) (fun _ _ => by simp [mapKeys])]
  cases maskEntries live config <;> simp

theorem maskEntries_keys_subset (live : GoMap) :
    ∀ (config out : GoMap), maskEntries live config = some out →
      ∀ k ∈ mapKeys out, k ∈ mapKeys config := by
  intro config
  induction config with
  | nil =>
    intro out h k hk
    simp only [maskEntries, Option.some.injEq] at h
    subst h
    simp [mapKeys] at hk
  | cons kv rest ih =>
    obtain ⟨k0, v1⟩ := kv
    intro out h k hk
    rw [mapKeys_cons, List.mem_cons]
    cases hl : live.lookup k0 with
    | none =>
      cases he : isEmptyValue v1 with
      | none => simp [maskEntries, hl, he] at h
      | some b =>
        cases b with
        | true =>
          simp only [maskEntries, hl, he, Option.map_eq_some'] at h
          obtain ⟨out', h', rfl⟩ := h
          rw [mapKeys_cons, List.mem_cons] at hk
          exact hk.imp id (ih out' h' k)
        | false =>
          simp only [maskEntries, hl, he] at h
          exact Or.inr (ih out h k hk)
    | some v2 =>
      cases hr : removeFields v1 v2 with
      | none => simp [maskEntries, hl, hr] at h
      | some r =>
        simp only [maskEntries, hl, hr, Option.map_eq_some'] at h
        obtain ⟨out', h', rfl⟩ := h
        rw [mapKeys_cons, List.mem_cons] at hk
        exact hk.imp id (ih out' h' k)

theorem mapNoNil_cons {k : String} {v : Value} {m : GoMap} :
    mapNoNil ((k, v) :: m) = true ↔ v.noNil = true ∧ mapNoNil m = true := by
  simp [mapNoNil]

theorem listNoNil_cons {x : Value} {xs : List Value} :
    listNoNil (x :: xs) = true ↔ x.noNil = true ∧ listNoNil xs = true := by
  simp [listNoNil]

theorem isEmptyValue_isSome {v : Value} (h : v.recognized = true) :
    ∃ b, isEmptyValue v = some b := by
  cases v <;> simp [isEmptyValue, Value.recognized] at h ⊢

/-- An empty value other than a nil sequence or a nil mapping is returned as it is when masked
against itself. -/
theorem removeFields_self_of_empty {v : Value} (h : isEmptyValue v = some true)
    (hn : v.noNil = true) : removeFields v v = some v := by
  cases v with
  | list xs =>
    cases xs with
    | nil => simp [removeFields, removeListFields]
    | cons x xs => simp [isEmptyValue] at h
  | map m =>
    cases m with
    | nil => simp [removeFields, removeMapFieldsRange]
    | cons x xs => simp [isEmptyValue] at h
  | nilList => simp [Value.noNil] at hn
  | nilMap => simp [Value.noNil] at hn
  | _ => simp [removeFields]

theorem lookup_cons_ne {k k' : String} (v : Value) (m : GoMap) (h : k ≠ k') :
    List.lookup k ((k', v) :: m) = List.lookup k m := by
  have h' : (k == k') = false := by simpa using h
  simp [List.lookup, h']

theorem lookup_cons_self (k : String) (v : Value) (m : GoMap) :
    List.lookup k ((k, v) :: m) = some v := by
  simp [List.lookup]

/-- Masking the output of `maskEntries` again, or any mapping that has the same values at the
declared keys, returns that output, provided `removeFields` is idempotent on the declared
values. -/
theorem maskEntries_stable (live : GoMap) :
    ∀ (config : GoMap),
      (∀ kv ∈ config, kv.2.wf = true → kv.2.noNil = true →
        ∀ l r, removeFields kv.2 l = some r → removeFields kv.2 r = some r) →
      mapWF config = true → mapNoNil config = true →
      ∀ out, maskEntries live config = some out →
      ∀ live', (∀ k ∈ mapKeys config, List.lookup k live' = List.lookup k out) →
      maskEntries live' config = some out := by
  intro config
  induction config with
  | nil => intro _ _ _ out h _ _; simpa [maskEntries] using h
  | cons kv rest ih =>
    obtain ⟨k, v1⟩ := kv
    intro hP hwf hnn out h live' hlook
    rw [mapWF_cons] at hwf
    rw [mapNoNil_cons] at hnn
    have hPrest : ∀ kv ∈ rest, kv.2.wf = true → kv.2.noNil = true →
        ∀ l r, removeFields kv.2 l = some r → removeFields kv.2 r = some r :=
      fun kv hkv => hP kv (List.mem_cons_of_mem _ hkv)
    have hk := hlook k (by simp [mapKeys_cons])
    have hne : ∀ k' ∈ mapKeys rest, k' ≠ k := fun k' hk' e => hwf.1 (e ▸ hk')
    cases hl : live.lookup k with
    | none =>
      cases he : isEmptyValue v1 with
      | none => simp [maskEntries, hl, he] at h
      | some b =>
        cases b with
        | true =>
          simp only [maskEntries, hl, he, Option.map_eq_some'] at h
          obtain ⟨out', h', rfl⟩ := h
          rw [lookup_cons_self] at hk
          have hrest := ih hPrest hwf.2.2 hnn.2 out' h' live' (fun k' hk' => by
            rw [hlook k' (by simp [mapKeys_cons, hk']), lookup_cons_ne _ _ (hne k' hk')])
          simp [maskEntries, hk, removeFields_self_of_empty he hnn.1, hrest]
        | false =>
          simp only [maskEntries, hl, he] at h
          have hnone : List.lookup k out = none :=
            lookup_eq_none_iff_not_mem_keys.2
              (fun hmem => hwf.1 (maskEntries_keys_subset live rest out h k hmem))
          rw [hnone] at hk
          have hrest := ih hPrest hwf.2.2 hnn.2 out h live' (fun k' hk' =>
            hlook k' (by simp [mapKeys_cons, hk']))
          simp [maskEntries, hk, he, hrest]
    | some v2 =>
      cases hr : removeFields v1 v2 with
      | none => simp [maskEntries, hl, hr] at h
      | some r =>
        simp only [maskEntries, hl, hr, Option.map_eq_some'] at h
        obtain ⟨out', h', rfl⟩ := h
        rw [lookup_cons_self] at hk
        have hrest := ih hPrest hwf.2.2 hnn.2 out' h' live' (fun k' hk' => by
          rw [hlook k' (by simp [mapKeys_cons, hk']), lookup_cons_ne _ _ (hne k' hk')])
        have hidem := hP (k, v1) (List.mem_cons_self _ _) hwf.2.1 hnn.1 v2 r hr
        simp only [] at hidem
        simp [maskEntries, hk, hidem, hrest]

theorem removeListFields_stable :
    ∀ (config : List Value),
      (∀ c ∈ config, c.wf = true → c.noNil = true →
        ∀ l r, removeFields c l = some r → removeFields c r = some r) →
      listWF config = true → listNoNil config = true →
      ∀ live out, removeListFields config live = some out →
      removeListFields config out = some out := by
  intro config
  induction config with
  | nil =>
    intro _ _ _ live out h
    cases live with
    | nil => simp only [removeListFields, Option.some.injEq] at h; subst h; rfl
    | cons v2 live =>
      simp only [removeListFields, Option.some.injEq] at h; subst h; rfl
  | cons c config ih =>
    intro hP hwf hnn live out h
    rw [listWF_cons] at hwf
    rw [listNoNil_cons] at hnn
    cases live with
    | nil => simp only [removeListFields, Option.some.injEq] at h; subst h; rfl
    | cons v2 live =>
      cases hr : removeFields c v2 with
      | none => simp [removeListFields, hr] at h
      | some r =>
        simp only [removeListFields, hr, Option.map_eq_some'] at h
        obtain ⟨out', h', rfl⟩ := h
        have h1 := hP c (List.mem_cons_self _ _) hwf.1 hnn.1 v2 r hr
        have h2 := ih (fun c hc => hP c (List.mem_cons_of_mem _ hc)) hwf.2 hnn.2 live out' h'
        simp [removeListFields, h1, h2]

theorem removeFields_map_nilMap (c : GoMap) :
    removeFields (.map c) .nilMap = removeFields (.map c) (.map []) := rfl

theorem removeFields_list_nilList (c : List Value) :
    removeFields (.list c) .nilList = removeFields (.list c) (.list []) := rfl

/-- Idempotence of `removeFields` in its live argument, for a well-formed declared value in which
no sequence and no mapping is nil. -/
theorem removeFields_stable (c : Value) :
    c.wf = true → c.noNil = true →
      ∀ l r, removeFields c l = some r → removeFields c r = some r := by
  induction c using Value.induct with
  | list xs ih =>
    intro hwf hnn l r h
    simp only [Value.wf] at hwf
    simp only [Value.noNil] at hnn
    have key : ∀ ls, removeFields (.list xs) (.list ls) = some r →
        removeFields (.list xs) r = some r := by
      intro ls h
      simp only [removeFields, Option.map_eq_some'] at h
      obtain ⟨out, h', rfl⟩ := h
      simp [removeFields, removeListFields_stable xs ih hwf hnn ls out h']
    cases l with
    | list ls => exact key ls h
    | nilList => exact key [] (by rw [← removeFields_list_nilList]; exact h)
    | _ => simp only [removeFields, Option.some.injEq] at h; subst h; simp [removeFields]
  | map m ih =>
    intro hwf hnn l r h
    simp only [Value.wf] at hwf
    simp only [Value.noNil] at hnn
    have e : ∀ x, removeFields (.map m) (.map x) = (maskEntries x m).map Value.map := by
      intro x
      rw [← removeMapFields_eq_maskEntries x hwf]; rfl
    have key : ∀ lm, removeFields (.map m) (.map lm) = some r →
        removeFields (.map m) r = some r := by
      intro lm h
      rw [e, Option.map_eq_some'] at h
      obtain ⟨out, h', rfl⟩ := h
      rw [e, maskEntries_stable lm m ih hwf hnn out h' out (fun _ _ => rfl)]
      rfl
    cases l with
    | map lm => exact key lm h
    | nilMap => exact key [] (by rw [← removeFields_map_nilMap]; exact h)
    | _ => simp only [removeFields, Option.some.injEq] at h; subst h; simp [removeFields]
  | nilList => intro _ hnn; simp [Value.noNil] at hnn
  | nilMap => intro _ hnn; simp [Value.noNil] at hnn
  | _ =>
    intro _ _ l r h
    simp only [removeFields, Option.some.injEq] at h; subst h; simp [removeFields]

theorem removeListFields_isSome :
    ∀ (config : List Value),
      (∀ c ∈ config, c.recognized = true → ∀ l, ∃ r, removeFields c l = some r) →
      listRecognized config = true → ∀ live, ∃ out, removeListFields config live = some out := by
  intro config
  induction config with
  | nil => intro _ _ live; cases live <;> simp [removeListFields]
  | cons c config ih =>
    intro hP hrec live
    rw [listRecognized_cons] at hrec
    cases live with
    | nil => simp [removeListFields]
    | cons v2 live =>
      obtain ⟨r, hr⟩ := hP c (List.mem_cons_self _ _) hrec.1 v2
      obtain ⟨out, ho⟩ := ih (fun c hc => hP c (List.mem_cons_of_mem _ hc)) hrec.2 live
      exact ⟨r :: out, by simp [removeListFields, hr, ho]⟩

theorem removeMapFieldsRange_isSome (live : GoMap) :
    ∀ (config : GoMap),
      (∀ kv ∈ config, kv.2.recognized = true → ∀ l, ∃ r, removeFields kv.2 l = some r) →
      mapRecognized config = true →
      ∀ result, ∃ out, removeMapFieldsRange config live result = some out := by
  intro config
  induction config with
  | nil => intro _ _ result; exact ⟨result, rfl⟩
  | cons kv rest ih =>
    obtain ⟨k, v1⟩ := kv
    intro hP hrec result
    rw [mapRecognized_cons] at hrec
    have ih' := ih (fun kv hkv => hP kv (List.mem_cons_of_mem _ hkv)) hrec.2
    cases hl : live.lookup k with
    | none =>
      obtain ⟨b, he⟩ := isEmptyValue_isSome hrec.1
      cases b with
      | true =>
        obtain ⟨out, ho⟩ := ih' (mapSet result k v1)
        exact ⟨out, by simp [removeMapFieldsRange, hl, he, ho]⟩
      | false =>
        obtain ⟨out, ho⟩ := ih' result
        exact ⟨out, by simp [removeMapFieldsRange, hl, he, ho]⟩
    | some v2 =>
      obtain ⟨r, hr⟩ := hP (k, v1) (List.mem_cons_self _ _) hrec.1 v2
      obtain ⟨out, ho⟩ := ih' (mapSet result k r)
      exact ⟨out, by simp [removeMapFieldsRange, hl, hr, ho]⟩

/-- On a declared value of the recognized kinds `removeFields` returns: no `panic` is reached. -/
theorem removeFields_isSome (c : Value) :
    c.recognized = true → ∀ l, ∃ r, removeFields c l = some r := by
  induction c using Value.induct with
  | list xs ih =>
    intro hrec l
    simp only [Value.recognized] at hrec
    have key : ∀ ls, ∃ r, removeFields (.list xs) (.list ls) = some r := by
      intro ls
      obtain ⟨out, ho⟩ := removeListFields_isSome xs ih hrec ls
      exact ⟨.list out, by simp [removeFields, ho]⟩
    cases l with
    | list ls => exact key ls
    | nilList => exact key []
    | _ => simp [removeFields]
  | map m ih =>
    intro hrec l
    simp only [Value.recognized] at hrec
    have key : ∀ lm, ∃ r, removeFields (.map m) (.map lm) = some r := by
      intro lm
      obtain ⟨out, ho⟩ := removeMapFieldsRange_isSome lm m ih hrec []
      exact ⟨.map out, by simp [removeFields, ho]⟩
    cases l with
    | map lm => exact key lm
    | nilMap => exact key []
    | _ => simp [removeFields]
  | _ => intro _ l; cases l <;> simp [removeFields]

/-- On a declared mapping of the recognized kinds `removeMapFields` returns. -/
theorem removeMapFields_isSome {config : GoMap} (h : mapRecognized config = true)
    (live : GoMap) : ∃ out, removeMapFields config live = some out :=
  removeMapFieldsRange_isSome live config
    (fun kv _ hkv l => removeFields_isSome kv.2 hkv l) h []

theorem removeFields_map_map (c l : GoMap) :
    removeFields (.map c) (.map l) = (removeMapFields c l).map Value.map := rfl

theorem removeFields_list_list (c l : List Value) :
    removeFields (.list c) (.list l) = (removeListFields c l).map Value.list := by
  simp [removeFields]

/-! ## C1: masking is idempotent -/

/-- C1, amended: masking is idempotent when no sequence and no mapping in the declared value is
nil. For a declared mapping `D` (a Go map: each key once) holding no nil sequence and no nil
mapping, and any live mapping `L` (which may hold nil ones), whenever `removeMapFields D L`
returns `R`, masking `R` against `D` again returns `R`; and it does return when `D` is built from
the recognized kinds. Likewise for `removeFields` on any declared value `c` holding no nil
sequence and no nil mapping and any live value `l`. -/
theorem masking_idempotent (D L : GoMap) (c l : Value)
    (hD : mapWF D = true) (hDn : mapNoNil D = true) (hc : c.wf = true) (hcn : c.noNil = true) :
    ((mapRecognized D = true → ∃ R, removeMapFields D L = some R) ∧
      ∀ R, removeMapFields D L = some R → removeMapFields D R = some R) ∧
    ((c.recognized = true → ∃ r, removeFields c l = some r) ∧
      ∀ r, removeFields c l = some r → removeFields c r = some r) := by
  refine ⟨⟨fun h => removeMapFields_isSome h L, ?_⟩,
    ⟨fun h => removeFields_isSome c h l, removeFields_stable c hc hcn l⟩⟩
  intro R hR
  have h := removeFields_stable (.map D) (by simpa [Value.wf] using hD)
    (by simpa [Value.noNil] using hDn) (.map L) (.map R)
    (by rw [removeFields_map_map, hR]; rfl)
  rw [removeFields_map_map] at h
  cases h' : removeMapFields D R with
  | none => simp [h'] at h
  | some R' =>
    rw [h'] at h
    simp only [Option.map_some', Option.some.injEq, Value.map.injEq] at h
    rw [h]

/-- C1 at a concrete input: the masked live mapping of a declared mapping with an empty `a` and a
nested sequence is returned unchanged by a second masking. -/
theorem masking_idempotent_witness :
    mapWF [("a", .int64 0), ("b", .map [("c", .list [.str "x"])])] = true ∧
    mapNoNil [("a", .int64 0), ("b", .map [("c", .list [.str "x"])])] = true ∧
    removeMapFields [("a", .int64 0), ("b", .map [("c", .list [.str "x"])])]
      [("b", .map [("c", .list [.str "y", .null]), ("d", .null)]), ("z", .null)]
      = some [("a", .int64 0), ("b", .map [("c", .list [.str "y", .null])])] ∧
    removeMapFields [("a", .int64 0), ("b", .map [("c", .list [.str "x"])])]
      [("a", .int64 0), ("b", .map [("c", .list [.str "y", .null])])]
      = some [("a", .int64 0), ("b", .map [("c", .list [.str "y", .null])])] :=
  ⟨rfl, rfl, rfl,
    (masking_idempotent [("a", .int64 0), ("b", .map [("c", .list [.str "x"])])]
      [("b", .map [("c", .list [.str "y", .null]), ("d", .null)]), ("z", .null)]
      (.list [.str "x"]) (.list [.str "y", .null]) rfl rfl rfl rfl).1.2 _ rfl⟩

/-- C1 as stated fails where the declared mapping holds a nil sequence at a key the live mapping
lacks: for `D = {"a": []interface{}(nil)}` (a Go map of recognized kinds) and `L = {}` the first
masking copies the nil sequence, `{"a": nil}`, and masking that result again returns the allocated
sequence `make([]interface{}, 0, 0)` of `removeListFields` in its place, `{"a": []}`, which is
another value. `removeFields` does the same on the nil sequence and on the nil mapping. -/
theorem masking_idempotent_counterexample :
    mapWF [("a", .nilList)] = true ∧ mapRecognized [("a", .nilList)] = true ∧
    removeMapFields [("a", .nilList)] [] = some [("a", .nilList)] ∧
    removeMapFields [("a", .nilList)] [("a", .nilList)] = some [("a", .list [])] ∧
    removeMapFields [("a", .nilList)] [("a", .nilList)] ≠ some [("a", .nilList)] ∧
    removeFields (.map [("a", .nilMap)]) (.map []) = some (.map [("a", .nilMap)]) ∧
    removeFields (.map [("a", .nilMap)]) (.map [("a", .nilMap)]) =
      some (.map [("a", .map [])]) ∧
    removeFields (.map [("a", .nilMap)]) (.map [("a", .nilMap)]) ≠
      some (.map [("a", .nilMap)]) := by
  refine ⟨rfl, rfl, rfl, rfl, ?_, rfl, rfl, ?_⟩
  · intro h
    have h1 : removeMapFields [("a", .nilList)] [("a", .nilList)] = some [("a", .list [])] := rfl
    rw [h1] at h
    simp at h
  · intro h
    have h1 : removeFields (.map [("a", .nilMap)]) (.map [("a", .nilMap)]) =
        some (.map [("a", .map [])]) := rfl
    rw [h1] at h
    simp at h

/-! ## C2: empty-preservation -/

/-- Where `isEmptyValue` returns, it returns what the specification's list of empty values says. -/
theorem isEmptyValue_eq_isEmpty {v : Value} {b : Bool} (h : isEmptyValue v = some b) :
    b = v.isEmpty := by
  cases v with
  | other t => simp [isEmptyValue] at h
  | list xs =>
    simp only [isEmptyValue, Option.some.injEq] at h; subst h; cases xs <;> rfl
  | strList xs =>
    simp only [isEmptyValue, Option.some.injEq] at h; subst h; cases xs <;> rfl
  | map m =>
    simp only [isEmptyValue, Option.some.injEq] at h; subst h; cases m <;> rfl
  | bool x =>
    simp only [isEmptyValue, Option.some.injEq] at h; subst h; cases x <;> rfl
  | _ => simp only [isEmptyValue, Option.some.injEq] at h; subst h; rfl

theorem maskEntries_cons_inv {live rest out : GoMap} {k : String} {v1 : Value}
    (h : maskEntries live ((k, v1) :: rest) = some out) :
    ∃ out', maskEntries live rest = some out' ∧
      ((List.lookup k live = none ∧ isEmptyValue v1 = some true ∧ out = (k, v1) :: out') ∨
       (List.lookup k live = none ∧ isEmptyValue v1 = some false ∧ out = out') ∨
       (∃ v2 r, List.lookup k live = some v2 ∧ removeFields v1 v2 = some r ∧
          out = (k, r) :: out')) := by
  cases hl : live.lookup k with
  | none =>
    cases he : isEmptyValue v1 with
    | none => simp [maskEntries, hl, he] at h
    | some b =>
      cases b with
      | true =>
        simp only [maskEntries, hl, he, Option.map_eq_some'] at h
        obtain ⟨out', h', rfl⟩ := h
        exact ⟨out', h', Or.inl ⟨rfl, rfl, rfl⟩⟩
      | false =>
        simp only [maskEntries, hl, he] at h
        exact ⟨out, h, Or.inr (Or.inl ⟨rfl, rfl, rfl⟩)⟩
  | some v2 =>
    cases hr : removeFields v1 v2 with
    | none => simp [maskEntries, hl, hr] at h
    | some r =>
      simp only [maskEntries, hl, hr, Option.map_eq_some'] at h
      obtain ⟨out', h', rfl⟩ := h
      exact ⟨out', h', Or.inr (Or.inr ⟨v2, r, rfl, hr, rfl⟩)⟩

/-- What the masked mapping holds at a declared key `k`: the declared value when `live` lacks
`k` and the declared value is empty, nothing when `live` lacks `k` and the declared value is not
empty, and `removeFields` of the two values when `live` has `k`. -/
theorem maskEntries_lookup (live : GoMap) {k : String} {v : Value} :
    ∀ (config out : GoMap), mapWF config = true → maskEntries live config = some out →
      List.lookup k config = some v →
      (List.lookup k live = none ∧ isEmptyValue v = some true ∧ List.lookup k out = some v) ∨
      (List.lookup k live = none ∧ isEmptyValue v = some false ∧ List.lookup k out = none) ∨
      (∃ v2 r, List.lookup k live = some v2 ∧ removeFields v v2 = some r ∧
        List.lookup k out = some r) := by
  intro config
  induction config with
  | nil => intro out _ _ hk; simp [List.lookup] at hk
  | cons kv rest ih =>
    obtain ⟨k0, v0⟩ := kv
    intro out hwf h hk
    rw [mapWF_cons] at hwf
    obtain ⟨out', h', hcase⟩ := maskEntries_cons_inv h
    by_cases e : k = k0
    · subst e
      rw [lookup_cons_self, Option.some.injEq] at hk
      subst hk
      have hnone : List.lookup k out' = none :=
        lookup_eq_none_iff_not_mem_keys.2
          (fun hmem => hwf.1 (maskEntries_keys_subset live rest out' h' k hmem))
      rcases hcase with ⟨hl, he, rfl⟩ | ⟨hl, he, rfl⟩ | ⟨v2, r, hl, hr, rfl⟩
      · exact Or.inl ⟨hl, he, lookup_cons_self _ _ _⟩
      · exact Or.inr (Or.inl ⟨hl, he, hnone⟩)
      · exact Or.inr (Or.inr ⟨v2, r, hl, hr, lookup_cons_self _ _ _⟩)
    · rw [lookup_cons_ne _ _ e] at hk
      have hout : List.lookup k out = List.lookup k out' := by
        rcases hcase with ⟨_, _, rfl⟩ | ⟨_, _, rfl⟩ | ⟨v2, r, _, _, rfl⟩
        · exact lookup_cons_ne _ _ e
        · rfl
        · exact lookup_cons_ne _ _ e
      rw [hout]
      exact ih out' hwf.2.2 h' hk

/-- C2: empty-preservation. For a declared mapping `D` (a Go map: each key once), a live mapping
`L` and a key `k` with `D[k] = v` that `L` lacks: whenever `removeMapFields D L` returns `R`, `R`
holds `k` with value exactly `v` if `v` is empty, and `R` lacks `k` if `v` is not empty; and
`removeMapFields D L` does return when `D` is built from the recognized kinds. -/
theorem empty_preservation (D L : GoMap) (k : String) (v : Value)
    (hD : mapWF D = true) (hk : List.lookup k D = some v) (hL : List.lookup k L = none) :
    (mapRecognized D = true → ∃ R, removeMapFields D L = some R) ∧
    ∀ R, removeMapFields D L = some R →
      (v.isEmpty = true → List.lookup k R = some v) ∧
      (v.isEmpty = false → List.lookup k R = none) := by
  refine ⟨fun h => removeMapFields_isSome h L, ?_⟩
  intro R hR
  rw [removeMapFields_eq_maskEntries L hD] at hR
  rcases maskEntries_lookup L D R hD hR hk with ⟨_, he, hr⟩ | ⟨_, he, hr⟩ | ⟨v2, r, hl, _, _⟩
  · have := isEmptyValue_eq_isEmpty he
    exact ⟨fun _ => hr, fun h => (by rw [h] at this; cases this)⟩
  · have := isEmptyValue_eq_isEmpty he
    exact ⟨fun h => (by rw [h] at this; cases this), fun _ => hr⟩
  · rw [hL] at hl; cases hl

/-- C2 at a concrete input: the declared empty sequence under `args` is kept, the declared
non-empty `replicas` is not. -/
theorem empty_preservation_witness :
    mapWF [("args", .list []), ("replicas", .int64 3)] = true ∧
    List.lookup "args" [("args", Value.list [])] = some (.list []) ∧
    List.lookup "replicas" [("args", Value.list [])] = none :=
  ⟨rfl,
   ((empty_preservation [("args", .list []), ("replicas", .int64 3)] [] "args" (.list [])
      rfl rfl rfl).2 [("args", .list [])] rfl).1 rfl,
   ((empty_preservation [("args", .list []), ("replicas", .int64 3)] [] "replicas"
      (.int64 3) rfl rfl rfl).2 [("args", .list [])] rfl).2 rfl⟩

/-! ## C3: no false positives from server defaulting -/

theorem isEmptyValue_of_isEmpty {v : Value} (h : v.isEmpty = true) :
    isEmptyValue v = some true := by
  cases v with
  | list xs => cases xs <;> simp [Value.isEmpty, isEmptyValue] at h ⊢
  | strList xs => cases xs <;> simp [Value.isEmpty, isEmptyValue] at h ⊢
  | map m => cases m <;> simp [Value.isEmpty, isEmptyValue] at h ⊢
  | bool b => cases b <;> simp [Value.isEmpty, isEmptyValue] at h ⊢
  | other t => simp [Value.isEmpty] at h
  | null => rfl
  | _ => simpa [Value.isEmpty, isEmptyValue] using h

theorem maskEntries_of_agrees (live : GoMap) :
    ∀ (config : GoMap),
      (∀ kv ∈ config, kv.2.wf = true → kv.2.noNil = true →
        ∀ l, kv.2.Agrees l → removeFields kv.2 l = some kv.2) →
      mapWF config = true → mapNoNil config = true → mapAgrees config live →
      maskEntries live config = some config := by
  intro config
  induction config with
  | nil => intro _ _ _ _; rfl
  | cons kv rest ih =>
    obtain ⟨k, v⟩ := kv
    intro hP hwf hnn hag
    rw [mapWF_cons] at hwf
    rw [mapNoNil_cons] at hnn
    simp only [mapAgrees] at hag
    have hrest := ih (fun kv hkv => hP kv (List.mem_cons_of_mem _ hkv)) hwf.2.2 hnn.2 hag.2
    cases hl : live.lookup k with
    | none =>
      have h1 := hag.1
      simp only [hl] at h1
      simp [maskEntries, hl, isEmptyValue_of_isEmpty h1, hrest]
    | some v2 =>
      have h1 := hag.1
      simp only [hl] at h1
      have h2 := hP (k, v) (List.mem_cons_self _ _) hwf.2.1 hnn.1 v2 h1
      simp only [] at h2
      simp [maskEntries, hl, h2, hrest]

theorem removeListFields_of_agrees :
    ∀ (config : List Value),
      (∀ c ∈ config, c.wf = true → c.noNil = true →
        ∀ l, c.Agrees l → removeFields c l = some c) →
      listWF config = true → listNoNil config = true → ∀ live, listAgrees config live →
      removeListFields config live = some config := by
  intro config
  induction config with
  | nil =>
    intro _ _ _ live hag
    cases live with
    | nil => rfl
    | cons l ls => simp [listAgrees] at hag
  | cons c config ih =>
    intro hP hwf hnn live hag
    rw [listWF_cons] at hwf
    rw [listNoNil_cons] at hnn
    cases live with
    | nil => simp [listAgrees] at hag
    | cons l ls =>
      simp only [listAgrees] at hag
      have h1 := hP c (List.mem_cons_self _ _) hwf.1 hnn.1 l hag.1
      have h2 := ih (fun c hc => hP c (List.mem_cons_of_mem _ hc)) hwf.2 hnn.2 ls hag.2
      simp [removeListFields, h1, h2]

/-- Masking a live value that agrees with the declared one returns the declared value, when no
sequence and no mapping in the declared value is nil. -/
theorem removeFields_of_agrees (c : Value) :
    c.wf = true → c.noNil = true → ∀ l, c.Agrees l → removeFields c l = some c := by
  induction c using Value.induct with
  | list xs ih =>
    intro hwf hnn l hag
    simp only [Value.wf] at hwf
    simp only [Value.noNil] at hnn
    have key : ∀ ls, listAgrees xs ls → removeFields (.list xs) (.list ls) = some (.list xs) := by
      intro ls hag
      simp [removeFields, removeListFields_of_agrees xs ih hwf hnn ls hag]
    cases l with
    | list ls => exact key ls (by simpa only [Value.Agrees] using hag)
    | nilList =>
      rw [removeFields_list_nilList]
      exact key [] (by simpa only [Value.Agrees] using hag)
    | _ => simp [Value.Agrees] at hag
  | map m ih =>
    intro hwf hnn l hag
    simp only [Value.wf] at hwf
    simp only [Value.noNil] at hnn
    have key : ∀ lm, mapAgrees m lm → removeFields (.map m) (.map lm) = some (.map m) := by
      intro lm hag
      rw [removeFields_map_map, removeMapFields_eq_maskEntries lm hwf,
        maskEntries_of_agrees lm m ih hwf hnn hag]
      rfl
    cases l with
    | map lm => exact key lm (by simpa only [Value.Agrees] using hag)
    | nilMap =>
      rw [removeFields_map_nilMap]
      exact key [] (by simpa only [Value.Agrees] using hag)
    | _ => simp [Value.Agrees] at hag
  | nilList => intro _ hnn; simp [Value.noNil] at hnn
  | nilMap => intro _ hnn; simp [Value.noNil] at hnn
  | _ => intro _ _ l hag; simp only [Value.Agrees] at hag; subst hag; simp [removeFields]

theorem lookup_of_mem {m : GoMap} (h : mapWF m = true) {k : String} {v : Value}
    (hm : (k, v) ∈ m) : List.lookup k m = some v := by
  induction m with
  | nil => cases hm
  | cons kv rest ih =>
    obtain ⟨k0, v0⟩ := kv
    rw [mapWF_cons] at h
    rcases List.mem_cons.1 hm with e | hm'
    · cases e; exact lookup_cons_self _ _ _
    · have hne : k ≠ k0 := by
        intro e
        subst e
        exact h.1 (List.mem_map.2 ⟨(k, v), hm', rfl⟩)
      rw [lookup_cons_ne _ _ hne]
      exact ih h.2.2 hm'

theorem mapAgrees_of_lookup (live : GoMap) :
    ∀ (config : GoMap), (∀ kv ∈ config, kv.2.Agrees kv.2) →
      (∀ kv ∈ config, List.lookup kv.1 live = some kv.2) → mapAgrees config live := by
  intro config
  induction config with
  | nil => intro _ _; trivial
  | cons kv rest ih =>
    obtain ⟨k, v⟩ := kv
    intro hP hl
    simp only [mapAgrees]
    refine ⟨?_, ih (fun kv hkv => hP kv (List.mem_cons_of_mem _ hkv))
      (fun kv hkv => hl kv (List.mem_cons_of_mem _ hkv))⟩
    have h1 := hl (k, v) (List.mem_cons_self _ _)
    simp only [] at h1
    simp only [h1]
    exact hP (k, v) (List.mem_cons_self _ _)

theorem listAgrees_refl :
    ∀ (xs : List Value), (∀ x ∈ xs, x.Agrees x) → listAgrees xs xs := by
  intro xs
  induction xs with
  | nil => intro _; trivial
  | cons x xs ih =>
    intro hP
    simp only [listAgrees]
    exact ⟨hP x (List.mem_cons_self _ _), ih (fun y hy => hP y (List.mem_cons_of_mem _ hy))⟩

theorem mem_wf_of_mapWF {m : GoMap} (h : mapWF m = true) :
    ∀ kv ∈ m, kv.2.wf = true := by
  induction m with
  | nil => intro _ hkv; cases hkv
  | cons kv0 rest ih =>
    obtain ⟨k0, v0⟩ := kv0
    rw [mapWF_cons] at h
    intro kv hkv
    rcases List.mem_cons.1 hkv with e | hkv'
    · subst e; exact h.2.1
    · exact ih h.2.2 kv hkv'

theorem mem_wf_of_listWF {xs : List Value} (h : listWF xs = true) :
    ∀ x ∈ xs, x.wf = true := by
  induction xs with
  | nil => intro _ hx; cases hx
  | cons x0 rest ih =>
    rw [listWF_cons] at h
    intro x hx
    rcases List.mem_cons.1 hx with e | hx'
    · subst e; exact h.1
    · exact ih h.2 x hx'

/-- A well-formed value agrees with itself. -/
theorem agrees_refl (c : Value) : c.wf = true → c.Agrees c := by
  induction c using Value.induct with
  | list xs ih =>
    intro hwf
    simp only [Value.wf] at hwf
    simp only [Value.Agrees]
    exact listAgrees_refl xs (fun x hx => ih x hx (mem_wf_of_listWF hwf x hx))
  | map m ih =>
    intro hwf
    simp only [Value.wf] at hwf
    simp only [Value.Agrees]
    exact mapAgrees_of_lookup m m (fun kv hkv => ih kv hkv (mem_wf_of_mapWF hwf kv hkv))
      (fun kv hkv => lookup_of_mem hwf hkv)
  | _ => intro _; simp [Value.Agrees, Value.isMap]

/-- C3, amended: no false positives from server defaulting when no sequence and no mapping in the
declared structure is nil. For a declared mapping `D` (an allocated Go map: each key once) holding
no nil sequence and no nil mapping, and a live mapping `L` that agrees with `D` except for extra
live keys and omitted keys whose declared value is empty (`mapAgrees`; a nil sequence or mapping
in `L` counts as one of length zero), `removeMapFields D L` returns `D` itself; in particular
`removeMapFields D D` returns `D`. The same holds of `removeFields` on any declared value `c`
holding no nil sequence and no nil mapping and any live value `l` that agrees with it: the value
returned is `c`. -/
theorem no_false_positives (D L : GoMap) (hD : mapWF D = true) (hDn : mapNoNil D = true) :
    (mapAgrees D L → removeMapFields D L = some D) ∧ removeMapFields D D = some D ∧
    ∀ (c l : Value), c.wf = true → c.noNil = true → c.Agrees l → removeFields c l = some c := by
  have key : ∀ L', mapAgrees D L' → removeMapFields D L' = some D := by
    intro L' hag
    have h := removeFields_of_agrees (.map D) (by simpa [Value.wf] using hD)
      (by simpa [Value.noNil] using hDn) (.map L')
      (by simpa [Value.Agrees] using hag)
    rw [removeFields_map_map] at h
    cases h' : removeMapFields D L' with
    | none => simp [h'] at h
    | some R =>
      rw [h'] at h
      simp only [Option.map_some', Option.some.injEq, Value.map.injEq] at h
      rw [h]
  refine ⟨key L, key D ?_, fun c l hc hn hag => removeFields_of_agrees c hc hn l hag⟩
  have := agrees_refl (.map D) (by simpa [Value.wf] using hD)
  simpa [Value.Agrees] using this

/-- C3 at a concrete input: the live mapping omits the empty `args`, and has the extra keys
`status` and `uid`; masking it returns the declared mapping. -/
theorem no_false_positives_witness :
    mapWF [("args", .list []), ("meta", .map [("name", .str "x")])] = true ∧
    mapNoNil [("args", .list []), ("meta", .map [("name", .str "x")])] = true ∧
    removeMapFields [("args", .list []), ("meta", .map [("name", .str "x")])]
      [("status", .str "ok"), ("meta", .map [("uid", .int64 7), ("name", .str "x")])]
      = some [("args", .list []), ("meta", .map [("name", .str "x")])] :=
  ⟨rfl, rfl, (no_false_positives [("args", .list []), ("meta", .map [("name", .str "x")])]
      [("status", .str "ok"), ("meta", .map [("uid", .int64 7), ("name", .str "x")])] rfl rfl).1
      (by simp [mapAgrees, Value.Agrees, Value.isEmpty, List.lookup])⟩

/-- C3 as stated fails where the declared structure holds a nil sequence or is a nil mapping: for
`D = {"a": []interface{}(nil)}` (a Go map, which agrees with itself) `removeMapFields(D, D)`
returns `{"a": []}`, the allocated sequence `make([]interface{}, 0, 0)` of `removeListFields` in
the place of the nil one, which is not `D`; and for the nil mapping `removeFields` returns the
allocated mapping of `removeMapFields`. -/
theorem no_false_positives_counterexample :
    mapWF [("a", .nilList)] = true ∧
    mapAgrees [("a", .nilList)] [("a", .nilList)] ∧
    removeMapFields [("a", .nilList)] [("a", .nilList)] = some [("a", .list [])] ∧
    removeMapFields [("a", .nilList)] [("a", .nilList)] ≠ some [("a", .nilList)] ∧
    Value.nilMap.Agrees .nilMap ∧
    removeFields .nilMap .nilMap = some (.map []) ∧
    removeFields .nilMap .nilMap ≠ some .nilMap := by
  refine ⟨rfl, ?_, rfl, ?_, ?_, rfl, ?_⟩
  · simp [mapAgrees, Value.Agrees, List.lookup]
  · intro h
    have h1 : removeMapFields [("a", .nilList)] [("a", .nilList)] = some [("a", .list [])] := rfl
    rw [h1] at h
    simp at h
  · simp [Value.Agrees, Value.isMap]
  · intro h
    have h1 : removeFields .nilMap .nilMap = some (.map []) := rfl
    rw [h1] at h
    simp at h

/-! ## C4: list overflow -/

theorem removeListFields_spec :
    ∀ (config live out : List Value), removeListFields config live = some out →
      out.length = live.length ∧
      (∀ i, config.length ≤ i → out[i]? = live[i]?) ∧
      (∀ (i : Nat) (c l : Value), config[i]? = some c → live[i]? = some l →
        ∃ r, out[i]? = some r ∧ removeFields c l = some r) := by
  intro config
  induction config with
  | nil =>
    intro live out h
    have e : out = live := by
      cases live <;> simp only [removeListFields, Option.some.injEq] at h <;> exact h.symm
    subst e
    exact ⟨rfl, fun _ _ => rfl, fun i c l hc _ => by simp at hc⟩
  | cons c0 config ih =>
    intro live out h
    cases live with
    | nil =>
      simp only [removeListFields, Option.some.injEq] at h
      subst h
      exact ⟨rfl, fun _ _ => rfl, fun i c l _ hl => by simp at hl⟩
    | cons l0 live =>
      cases hr : removeFields c0 l0 with
      | none => simp [removeListFields, hr] at h
      | some r0 =>
        simp only [removeListFields, hr, Option.map_eq_some'] at h
        obtain ⟨out', h', rfl⟩ := h
        obtain ⟨hlen, hover, hin⟩ := ih live out' h'
        refine ⟨by simp [hlen], ?_, ?_⟩
        · intro i hi
          cases i with
          | zero => simp at hi
          | succ j =>
            simp only [List.length_cons, Nat.add_le_add_iff_right] at hi
            simpa using hover j hi
        · intro i c l hc hl
          cases i with
          | zero =>
            simp only [List.getElem?_cons_zero, Option.some.injEq] at hc hl
            subst hc hl
            exact ⟨r0, by simp, hr⟩
          | succ j =>
            simp only [List.getElem?_cons_succ] at hc hl
            simpa using hin j c l hc hl

/-- C4: list overflow. `removeListFields D L` returns when `D` is built from the recognized
kinds, and whenever it returns `R`: `R` is as long as `L`; at every index `i` with
`len(D) <= i` its element is the element of `L`, unchanged; and at every index `i` below both
lengths its element is `removeFields(D[i], L[i])`. -/
theorem list_overflow (D L : List Value) :
    (listRecognized D = true → ∃ R, removeListFields D L = some R) ∧
    ∀ R, removeListFields D L = some R →
      R.length = L.length ∧
      (∀ i, D.length ≤ i → i < L.length → R[i]? = L[i]?) ∧
      (∀ (i : Nat) (c l : Value), D[i]? = some c → L[i]? = some l →
        ∃ r, R[i]? = some r ∧ removeFields c l = some r) := by
  refine ⟨fun h => removeListFields_isSome D
    (fun c _ hc l => removeFields_isSome c hc l) h L, ?_⟩
  intro R hR
  obtain ⟨h1, h2, h3⟩ := removeListFields_spec D L R hR
  exact ⟨h1, fun i hi _ => h2 i hi, h3⟩

/-- C4 at a concrete input: the declared sequence has one element, the live one three; the two
trailing live elements are returned as they are, the first is masked. -/
theorem list_overflow_example :
    removeListFields [.map [("name", .str "a")]]
      [.map [("name", .str "a"), ("uid", .int64 1)], .map [("extra", .null)], .other "int"]
      = some [.map [("name", .str "a")], .map [("extra", .null)], .other "int"] := rfl

/-! ## C5: live-only keys are dropped -/

theorem mapKeys_mapSet (m : GoMap) (k : String) (v : Value) :
    ∀ k' ∈ mapKeys (mapSet m k v), k' ∈ mapKeys m ∨ k' = k := by
  induction m with
  | nil => intro k' h; simpa [mapSet, mapKeys] using h
  | cons kv rest ih =>
    obtain ⟨k0, v0⟩ := kv
    intro k' h
    cases e : (k0 == k) with
    | true =>
      simp only [mapSet, e, if_true, mapKeys_cons] at h
      exact Or.inl (by simpa [mapKeys_cons] using h)
    | false =>
      simp only [mapSet, e, Bool.false_eq_true, if_false, mapKeys_cons, List.mem_cons] at h
      rcases h with h | h
      · exact Or.inl (by simp [mapKeys_cons, h])
      · exact (ih k' h).imp (fun h1 => by simp [mapKeys_cons, h1]) id

/-- Every key of what the loop returns is a key of `result` or of `config`; no hypothesis on the
declared mapping is needed. -/
theorem removeMapFieldsRange_keys (live : GoMap) :
    ∀ (config result out : GoMap), removeMapFieldsRange config live result = some out →
      ∀ k ∈ mapKeys out, k ∈ mapKeys result ∨ k ∈ mapKeys config := by
  intro config
  induction config with
  | nil =>
    intro result out h k hk
    simp only [removeMapFieldsRange, Option.some.injEq] at h
    subst h
    exact Or.inl hk
  | cons kv rest ih =>
    obtain ⟨k0, v1⟩ := kv
    intro result out h k hk
    have step : ∀ v, removeMapFieldsRange rest live (mapSet result k0 v) = some out →
        k ∈ mapKeys result ∨ k ∈ mapKeys ((k0, v1) :: rest) := by
      intro v hv
      rcases ih _ out hv k hk with h1 | h1
      · rcases mapKeys_mapSet result k0 v k h1 with h2 | h2
        · exact Or.inl h2
        · exact Or.inr (by simp [mapKeys_cons, h2])
      · exact Or.inr (by simp [mapKeys_cons, h1])
    cases hl : live.lookup k0 with
    | none =>
      cases he : isEmptyValue v1 with
      | none => simp [removeMapFieldsRange, hl, he] at h
      | some b =>
        cases b with
        | true =>
          simp only [removeMapFieldsRange, hl, he] at h
          exact step v1 h
        | false =>
          simp only [removeMapFieldsRange, hl, he] at h
          exact (ih result out h k hk).imp id (fun h1 => by simp [mapKeys_cons, h1])
    | some v2 =>
      cases hr : removeFields v1 v2 with
      | none => simp [removeMapFieldsRange, hl, hr] at h
      | some r =>
        simp only [removeMapFieldsRange, hl, hr] at h
        exact step r h

theorem removeMapFields_keys {config live out : GoMap}
    (h : removeMapFields config live = some out) :
    ∀ k ∈ mapKeys out, k ∈ mapKeys config := by
  intro k hk
  rcases removeMapFieldsRange_keys live config [] out h k hk with h1 | h1
  · simp [mapKeys] at h1
  · exact h1

theorem mem_of_lookup {m : GoMap} {k : String} {v : Value} (h : List.lookup k m = some v) :
    (k, v) ∈ m := by
  induction m with
  | nil => simp [List.lookup] at h
  | cons kv rest ih =>
    obtain ⟨k0, v0⟩ := kv
    by_cases e : k = k0
    · subst e
      rw [lookup_cons_self, Option.some.injEq] at h
      subst h
      exact List.mem_cons_self _ _
    · rw [lookup_cons_ne _ _ e] at h
      exact List.mem_cons_of_mem _ (ih h)

/-- Masking commutes with going to a nested position that exists on both sides: the masked value
at the position is `removeFields` of the declared and the live value at the position. -/
theorem removeFields_get (path : List Step) :
    ∀ (c l r cv lv : Value), c.wf = true → removeFields c l = some r →
      c.get? path = some cv → l.get? path = some lv →
      ∃ rv, r.get? path = some rv ∧ removeFields cv lv = some rv ∧ cv.wf = true := by
  induction path with
  | nil =>
    intro c l r cv lv hwf h hc hl
    simp only [Value.get?, Option.some.injEq] at hc hl
    subst hc hl
    exact ⟨r, by simp [Value.get?], h, hwf⟩
  | cons s path ih =>
    intro c l r cv lv hwf h hc hl
    cases s with
    | key k =>
      cases c with
      | map m =>
        cases l with
        | map lm =>
          simp only [Value.wf] at hwf
          rw [removeFields_map_map, removeMapFields_eq_maskEntries lm hwf,
            Option.map_eq_some'] at h
          obtain ⟨out, ho, rfl⟩ := h
          cases hm : List.lookup k m with
          | none => simp [Value.get?, hm] at hc
          | some v1 =>
            cases hlm : List.lookup k lm with
            | none => simp [Value.get?, hlm] at hl
            | some v2 =>
              simp only [Value.get?, hm] at hc
              simp only [Value.get?, hlm] at hl
              rcases maskEntries_lookup lm m out hwf ho hm with
                ⟨h1, _, _⟩ | ⟨h1, _, _⟩ | ⟨v2', r', h1, h2, h3⟩
              · rw [hlm] at h1; cases h1
              · rw [hlm] at h1; cases h1
              · rw [hlm, Option.some.injEq] at h1
                subst h1
                obtain ⟨rv, hrv, hrest⟩ := ih v1 v2 r' cv lv
                  (mem_wf_of_mapWF hwf _ (mem_of_lookup hm)) h2 hc hl
                exact ⟨rv, by simp [Value.get?, h3, hrv], hrest⟩
        | _ => simp [Value.get?] at hl
      | _ => simp [Value.get?] at hc
    | index i =>
      cases c with
      | list xs =>
        cases l with
        | list ls =>
          simp only [Value.wf] at hwf
          rw [removeFields_list_list, Option.map_eq_some'] at h
          obtain ⟨out, ho, rfl⟩ := h
          cases hx : xs[i]? with
          | none => simp [Value.get?, hx] at hc
          | some v1 =>
            cases hls : ls[i]? with
            | none => simp [Value.get?, hls] at hl
            | some v2 =>
              simp only [Value.get?, hx] at hc
              simp only [Value.get?, hls] at hl
              obtain ⟨r', h3, h2⟩ := (removeListFields_spec xs ls out ho).2.2 i v1 v2 hx hls
              obtain ⟨rv, hrv, hrest⟩ := ih v1 v2 r' cv lv
                (mem_wf_of_listWF hwf _ (List.getElem?_mem hx)) h2 hc hl
              exact ⟨rv, by simp [Value.get?, h3, hrv], hrest⟩
        | _ => simp [Value.get?] at hl
      | _ => simp [Value.get?] at hc

/-- C5: live-only keys are dropped. `removeMapFields D L` returns when `D` is built from the
recognized kinds, and whenever it returns `R`: every key of `R` is a key of `D`; a key of `L` that
is not a key of `D` is not a key of `R`; and, `D` being a Go map (each key once at every level), at
every nested position where both `D` and `L` hold a mapping, `R` holds a mapping whose keys are
keys of the declared mapping at that position. -/
theorem live_only_keys_dropped (D L : GoMap) :
    (mapRecognized D = true → ∃ R, removeMapFields D L = some R) ∧
    ∀ R, removeMapFields D L = some R →
      (∀ k ∈ mapKeys R, k ∈ mapKeys D) ∧
      (∀ k ∈ mapKeys L, k ∉ mapKeys D → k ∉ mapKeys R) ∧
      (mapWF D = true → ∀ (path : List Step) (d l : GoMap),
        (Value.map D).get? path = some (.map d) → (Value.map L).get? path = some (.map l) →
        ∃ r, (Value.map R).get? path = some (.map r) ∧
          (∀ k ∈ mapKeys r, k ∈ mapKeys d) ∧ (∀ k ∈ mapKeys l, k ∉ mapKeys d → k ∉ mapKeys r)) := by
  refine ⟨fun h => removeMapFields_isSome h L, ?_⟩
  intro R hR
  refine ⟨removeMapFields_keys hR, fun k _ hk hkR => hk (removeMapFields_keys hR k hkR), ?_⟩
  intro hwf path d l hd hl
  obtain ⟨rv, hrv, hrf, _⟩ := removeFields_get path (.map D) (.map L) (.map R) (.map d) (.map l)
    (by simpa [Value.wf] using hwf) (by rw [removeFields_map_map, hR]; rfl) hd hl
  rw [removeFields_map_map, Option.map_eq_some'] at hrf
  obtain ⟨r, hr, rfl⟩ := hrf
  exact ⟨r, hrv, removeMapFields_keys hr, fun k _ hk hkr => hk (removeMapFields_keys hr k hkr)⟩

/-- C5 at a concrete input: the live-only `status` at the top and the live-only `uid` under
`meta` are not in the masked mapping. -/
theorem live_only_keys_dropped_example :
    removeMapFields [("meta", .map [("name", .str "x")])]
      [("status", .str "ok"), ("meta", .map [("uid", .int64 7), ("name", .str "y")])]
      = some [("meta", .map [("name", .str "y")])] := rfl

/-! ## C6: pass-through of leaves and type mismatches -/

/-- C6: pass-through of leaves and type mismatches. If the declared value `c` is neither a mapping
nor a sequence, or is a mapping while the live value `l` is not, or is a sequence while `l` is not,
then `removeFields c l` returns `l`. Hence, for a declared mapping `D` (a Go map: each key once)
with `D[k] = c` and a live mapping `L` with `L[k] = l`, `removeMapFields D L` returns when `D` is
built from the recognized kinds, and whatever it returns holds the live value `l` at `k`. -/
theorem pass_through (c l : Value) (D L : GoMap) (k : String)
    (hmis : (c.isMap = false ∧ c.isList = false) ∨ (c.isMap = true ∧ l.isMap = false) ∨
      (c.isList = true ∧ l.isList = false)) :
    removeFields c l = some l ∧
    (mapWF D = true → List.lookup k D = some c → List.lookup k L = some l →
      (mapRecognized D = true → ∃ R, removeMapFields D L = some R) ∧
      ∀ R, removeMapFields D L = some R → List.lookup k R = some l) := by
  have hrf : removeFields c l = some l := by
    cases c <;> cases l <;> simp [Value.isMap, Value.isList] at hmis <;> simp [removeFields]
  refine ⟨hrf, fun hwf hD hL => ⟨fun h => removeMapFields_isSome h L, ?_⟩⟩
  intro R hR
  rw [removeMapFields_eq_maskEntries L hwf] at hR
  rcases maskEntries_lookup L D R hwf hR hD with ⟨h1, _, _⟩ | ⟨h1, _, _⟩ | ⟨v2, r, h1, h2, h3⟩
  · rw [hL] at h1; cases h1
  · rw [hL] at h1; cases h1
  · rw [hL, Option.some.injEq] at h1
    subst h1
    rw [hrf, Option.some.injEq] at h2
    subst h2
    exact h3

/-- C6 at a concrete input: the declared `replicas` is 1, the live one 2; the masked mapping
holds the live 2. -/
theorem pass_through_witness :
    removeFields (.int64 1) (.int64 2) = some (.int64 2) ∧
    List.lookup "replicas" [("replicas", Value.int64 2)] = some (.int64 2) :=
  ⟨(pass_through (.int64 1) (.int64 2) [] [] "" (Or.inl ⟨rfl, rfl⟩)).1,
   ((pass_through (.int64 1) (.int64 2) [("replicas", .int64 1)] [("replicas", .int64 2)]
      "replicas" (Or.inl ⟨rfl, rfl⟩)).2 rfl rfl rfl).2 [("replicas", .int64 2)] rfl⟩

/-! ## C7: a declared-only key with a non-empty value under the Subset strategy -/

/-- When the segments are the single Equal segment, the two texts they concatenate to are the
same one. -/
theorem sides_of_single_equal (t : String) :
    liveSide [⟨.DiffEqual, t⟩] = t ∧ configSide [⟨.DiffEqual, t⟩] = t := by
  simp [liveSide, configSide]

/-- What `diffOne` returns once the live object is fetched and the live mapping to compare (the
fetched one, or the masked one under the Subset strategy) is `liveObjObject`. -/
theorem diffOne_of_fetched (w : World) (c : DiffCmd) (obj live : Unstructured)
    (client : ResourceClient) (liveObjObject : GoMap)
    (hclient : w.clientForResource obj c.DefaultNamespace = .ok client)
    (hname : obj.GetName ≠ "")
    (hget : client.Get obj.GetName = (some live, none))
    (hmask : (if c.DiffStrategy = "subset" then removeMapFields obj.Object live.Object
      else some live.Object) = some liveObjObject) :
    diffOne w c obj =
      match w.diffLines (w.marshalIndent liveObjObject) (w.marshalIndent obj.Object) with
      | [⟨.DiffEqual, _⟩] =>
        some ⟨w.resourceNameFor obj ++ " " ++ w.fqName obj, .differenceNone, "", none⟩
      | diff =>
        some ⟨w.resourceNameFor obj ++ " " ++ w.fqName obj, .differenceDifferent,
          formatDiff diff w.stdoutIsTerminal (c.OmitSecrets && obj.GetKind = "Secret"), none⟩ := by
  unfold diffOne
  simp only [hclient, hname, if_false, hget, hmask]
  split <;> rename_i h <;> simp [h]

/-- When every segment is an Equal segment, the two texts the segments concatenate to are the
same one. -/
theorem sides_eq_of_all_equal :
    ∀ (diffs : List Diff), (∀ d ∈ diffs, d.Typ = .DiffEqual) → liveSide diffs = configSide diffs := by
  intro diffs
  induction diffs with
  | nil => intro _; rfl
  | cons d ds ih =>
    intro h
    have hd := h d (List.mem_cons_self _ _)
    have hds := ih (fun x hx => h x (List.mem_cons_of_mem _ hx))
    simp [liveSide, configSide, hd, hds]

/-- C7, amended: under the Subset strategy, with the live object fetched and the declared mapping
`D` a Go map (each key once) built from the recognized kinds, a key `k` of `D` that the live
mapping lacks and whose declared value is not empty is left out of the masked mapping
`R = removeMapFields D L`, while `D` has it. The key is not hidden by that: provided the canonical
text of `R` is the text of `D` only if the two have `k` alike (JSON text shows every key of a
mapping) and the segments of the line diff concatenate to the two texts, the two texts differ, the
segments hold a segment that is not Equal, and `diffOne` returns `differenceDifferent` with the
rendering of the segments as details. -/
theorem subset_declared_only_key_is_reported (w : World) (c : DiffCmd) (obj live : Unstructured)
    (client : ResourceClient) (k : String) (v : Value)
    (hstrategy : c.DiffStrategy = "subset")
    (hclient : w.clientForResource obj c.DefaultNamespace = .ok client)
    (hname : obj.GetName ≠ "")
    (hget : client.Get obj.GetName = (some live, none))
    (hwf : mapWF obj.Object = true) (hrec : mapRecognized obj.Object = true)
    (hk : List.lookup k obj.Object = some v) (hl : List.lookup k live.Object = none)
    (hv : v.isEmpty = false) :
    ∃ R, removeMapFields obj.Object live.Object = some R ∧ List.lookup k R = none ∧
      k ∉ mapKeys R ∧ k ∈ mapKeys obj.Object ∧
      ((w.marshalIndent R = w.marshalIndent obj.Object →
          (k ∈ mapKeys R ↔ k ∈ mapKeys obj.Object)) →
        liveSide (w.diffLines (w.marshalIndent R) (w.marshalIndent obj.Object))
          = w.marshalIndent R →
        configSide (w.diffLines (w.marshalIndent R) (w.marshalIndent obj.Object))
          = w.marshalIndent obj.Object →
        w.marshalIndent R ≠ w.marshalIndent obj.Object ∧
        (∃ d ∈ w.diffLines (w.marshalIndent R) (w.marshalIndent obj.Object),
          d.Typ ≠ .DiffEqual) ∧
        diffOne w c obj =
          some ⟨w.resourceNameFor obj ++ " " ++ w.fqName obj, .differenceDifferent,
            formatDiff (w.diffLines (w.marshalIndent R) (w.marshalIndent obj.Object))
              w.stdoutIsTerminal (c.OmitSecrets && obj.GetKind = "Secret"), none⟩) := by
  obtain ⟨R, hR⟩ := removeMapFields_isSome hrec live.Object
  have hnone : List.lookup k R = none := by
    have hR' := hR
    rw [removeMapFields_eq_maskEntries live.Object hwf] at hR'
    rcases maskEntries_lookup live.Object obj.Object R hwf hR' hk with
      ⟨_, he, _⟩ | ⟨_, _, hr⟩ | ⟨v2, r, h1, _, _⟩
    · have := isEmptyValue_eq_isEmpty he
      rw [hv] at this; cases this
    · exact hr
    · rw [hl] at h1; cases h1
  have hnot : k ∉ mapKeys R := lookup_eq_none_iff_not_mem_keys.1 hnone
  have hmem : k ∈ mapKeys obj.Object := by
    by_contra hcon
    rw [lookup_eq_none_iff_not_mem_keys.2 hcon] at hk
    cases hk
  refine ⟨R, hR, hnone, hnot, hmem, ?_⟩
  intro henc hlive hconfig
  have hne : w.marshalIndent R ≠ w.marshalIndent obj.Object :=
    fun e => hnot ((henc e).2 hmem)
  refine ⟨hne, ?_, ?_⟩
  · by_contra hcon
    have hall : ∀ d ∈ w.diffLines (w.marshalIndent R) (w.marshalIndent obj.Object),
        d.Typ = .DiffEqual := by
      intro d hd
      by_contra hd'
      exact hcon ⟨d, hd, hd'⟩
    exact hne (hlive.symm.trans ((sides_eq_of_all_equal _ hall).trans hconfig))
  · rw [diffOne_of_fetched w c obj live client R hclient hname hget (by simp [hstrategy, hR])]
    split
    · rename_i t heq
      rw [heq] at hlive hconfig
      exact absurd (hlive.symm.trans ((sides_of_single_equal t).1.trans
        ((sides_of_single_equal t).2.symm.trans hconfig))) hne
    · rfl

/-- C7, the claim as stated fails: the declared mapping has `a: 1`, the live one is the declared
one without `a`; under the Subset strategy the masked live mapping lacks `a`, and `diffOne`
classifies the resource `differenceDifferent`, its details showing `a` as an inserted line. -/
theorem subset_declared_only_key_counterexample :
    removeMapFields
      [("a", .int64 1), ("kind", .str "ConfigMap"), ("metadata", .map [("name", .str "x")])]
      [("kind", .str "ConfigMap"), ("metadata", .map [("name", .str "x")])]
      = some [("kind", .str "ConfigMap"), ("metadata", .map [("name", .str "x")])] ∧
    diffOne
      (exampleWorld
        [("x", [("kind", .str "ConfigMap"), ("metadata", .map [("name", .str "x")])])] none)
      ⟨"", false, false, "subset"⟩
      ⟨[("a", .int64 1), ("kind", .str "ConfigMap"), ("metadata", .map [("name", .str "x")])]⟩
      = some ⟨"ConfigMap x", .differenceDifferent,
          "  \x7b\n+   \"a\": 1,\n    \"kind\": \"ConfigMap\",\n    \"metadata\": \x7b\n" ++
          "      \"name\": \"x\"\n    \x7d\n  \x7d", none⟩ := by
  constructor
  · rfl
  · decide

/-- C7 (amended) at a concrete input: the same declared and live mappings, in the world of the
examples. -/
theorem subset_declared_only_key_is_reported_witness :
    ∃ R, removeMapFields
        [("a", .int64 1), ("kind", .str "ConfigMap"), ("metadata", .map [("name", .str "x")])]
        [("kind", .str "ConfigMap"), ("metadata", .map [("name", .str "x")])] = some R ∧
      List.lookup "a" R = none ∧
      ∃ o, diffOne
        (exampleWorld
          [("x", [("kind", .str "ConfigMap"), ("metadata", .map [("name", .str "x")])])] none)
        ⟨"", false, false, "subset"⟩
        ⟨[("a", .int64 1), ("kind", .str "ConfigMap"), ("metadata", .map [("name", .str "x")])]⟩
        = some o ∧ o.diff = .differenceDifferent ∧ o.err = none := by
  obtain ⟨R, hR, hk, _, _, h⟩ := subset_declared_only_key_is_reported
    (exampleWorld
      [("x", [("kind", .str "ConfigMap"), ("metadata", .map [("name", .str "x")])])] none)
    ⟨"", false, false, "subset"⟩
    ⟨[("a", .int64 1), ("kind", .str "ConfigMap"), ("metadata", .map [("name", .str "x")])]⟩
    ⟨[("kind", .str "ConfigMap"), ("metadata", .map [("name", .str "x")])]⟩
    ⟨fun name =>
      match List.lookup name
          [("x", [("kind", Value.str "ConfigMap"),
            ("metadata", Value.map [("name", Value.str "x")])])] with
      | some live => (some ⟨live⟩, none)
      | none => (none, some ⟨name ++ " not found", true⟩)⟩
    "a" (.int64 1) rfl rfl (by decide) rfl rfl rfl rfl rfl rfl
  have e : R = [("kind", .str "ConfigMap"), ("metadata", .map [("name", .str "x")])] := by
    have h0 : removeMapFields
        [("a", .int64 1), ("kind", .str "ConfigMap"), ("metadata", .map [("name", .str "x")])]
        [("kind", .str "ConfigMap"), ("metadata", .map [("name", .str "x")])]
        = some [("kind", .str "ConfigMap"), ("metadata", .map [("name", .str "x")])] := rfl
    rw [h0, Option.some.injEq] at hR
    exact hR.symm
  subst e
  exact ⟨_, hR, hk, _,
    (h (fun e => absurd e (by decide)) (by decide) (by decide)).2.2, rfl, rfl⟩

/-! ## The orchestrator: what the loop writes and returns -/

theorem runSwitch_eq (omitSame : Bool) (o : diffRes) (st : String × Bool) :
    runSwitch omitSame o st = (st.1 ++ resourceBlock omitSame o, st.2 || isDifference o) := by
  obtain ⟨out, found⟩ := st
  obtain ⟨desc, diff, details, err⟩ := o
  cases diff <;> cases omitSame <;>
    simp [runSwitch, resourceBlock, isDifference, printObjectHeader, objectHeader,
      String.append_assoc]

/-- The loop, when every comparison returns: the blocks of the resources are written one after
the other, in the order of the list, and the flag is raised by every difference. -/
theorem runLoop_eq (omitSame : Bool) (compare : Unstructured → Option diffRes) :
    ∀ (objs : List Unstructured) (results : List diffRes) (st : String × Bool),
      List.Forall₂ (fun obj o => compare obj = some o) objs results →
      runLoop omitSame compare objs st =
        some (st.1 ++ concatTexts (results.map (resourceBlock omitSame)),
          st.2 || results.any isDifference) := by
  intro objs results st h
  induction h generalizing st with
  | nil => simp [runLoop, concatTexts]
  | cons h1 _ ih =>
    simp only [runLoop, h1, ih, runSwitch_eq, List.map_cons, concatTexts, List.any_cons,
      String.append_assoc, Bool.or_assoc]

theorem exists_results (compare : Unstructured → Option diffRes) :
    ∀ (objs : List Unstructured), (∀ obj ∈ objs, ∃ o, compare obj = some o) →
      ∃ results, List.Forall₂ (fun obj o => compare obj = some o) objs results := by
  intro objs
  induction objs with
  | nil => intro _; exact ⟨[], List.Forall₂.nil⟩
  | cons obj rest ih =>
    intro h
    obtain ⟨o, ho⟩ := h obj (List.mem_cons_self _ _)
    obtain ⟨results, hr⟩ := ih (fun x hx => h x (List.mem_cons_of_mem _ hx))
    exact ⟨o :: results, List.Forall₂.cons ho hr⟩

theorem any_isDifference_iff (compare : Unstructured → Option diffRes)
    {objs : List Unstructured} {results : List diffRes}
    (h : List.Forall₂ (fun obj o => compare obj = some o) objs results) :
    results.any isDifference = true ↔
      ∃ obj ∈ objs, ∃ o, compare obj = some o ∧
        (o.diff = .differenceDifferent ∨ o.diff = .differenceOnlyLocal) := by
  induction h with
  | nil => simp
  | @cons obj o objs' results' h1 _ ih =>
    rw [List.any_cons, Bool.or_eq_true, ih]
    constructor
    · rintro (hd | ⟨x, hx, o', ho', hd⟩)
      · refine ⟨obj, List.mem_cons_self _ _, o, h1, ?_⟩
        simp only [isDifference, Bool.or_eq_true, decide_eq_true_eq] at hd
        exact hd.symm
      · exact ⟨x, List.mem_cons_of_mem _ hx, o', ho', hd⟩
    · rintro ⟨x, hx, o', ho', hd⟩
      rcases List.mem_cons.1 hx with e | hx'
      · subst e
        rw [h1, Option.some.injEq] at ho'
        subst ho'
        left
        simp only [isDifference, Bool.or_eq_true, decide_eq_true_eq]
        exact hd.symm
      · exact Or.inr ⟨x, hx', o', ho', hd⟩

/-- What `Run` writes and returns, when every comparison returns. -/
theorem Run_eq (w : World) (c : DiffCmd) (objs : List Unstructured) (out : String)
    (results : List diffRes)
    (h : List.Forall₂ (fun obj o => diffOne w c obj = some o)
      (w.sort alphabeticalLess objs) results) :
    Run w c objs out =
      some (out ++ concatTexts (results.map (resourceBlock c.OmitSame)),
        if results.any isDifference then some ErrDiffFound else none) := by
  unfold Run
  rw [runLoop_eq c.OmitSame (diffOne w c) _ results (out, false) h]
  simp

/-! ## C8: the differences-found signal -/

/-- C8: the differences-found signal. When `sort.Sort` rearranges the slice and every comparison
returns (none panics), `Run` returns; it returns `ErrDiffFound` if and only if some resource is classified
`differenceDifferent` or `differenceOnlyLocal`, and `nil` if and only if every resource is
classified `differenceNone` or `differenceError`. -/
theorem differences_found_signal (w : World) (c : DiffCmd) (objs : List Unstructured)
    (out : String)
    (hsort : (w.sort alphabeticalLess objs).Perm objs)
    (hret : ∀ obj ∈ objs, ∃ o, diffOne w c obj = some o) :
    ∃ text err, Run w c objs out = some (text, err) ∧
      (err = some ErrDiffFound ↔
        ∃ obj ∈ objs, ∃ o, diffOne w c obj = some o ∧
          (o.diff = .differenceDifferent ∨ o.diff = .differenceOnlyLocal)) ∧
      (err = none ↔
        ∀ obj ∈ objs, ∀ o, diffOne w c obj = some o →
          (o.diff = .differenceNone ∨ o.diff = .differenceError)) := by
  have hmem : ∀ obj, obj ∈ w.sort alphabeticalLess objs ↔ obj ∈ objs :=
    fun obj => hsort.mem_iff
  obtain ⟨results, hres⟩ := exists_results (diffOne w c) (w.sort alphabeticalLess objs)
    (fun obj hobj => hret obj ((hmem obj).1 hobj))
  have hany := any_isDifference_iff (diffOne w c) hres
  have hiff : results.any isDifference = true ↔
      ∃ obj ∈ objs, ∃ o, diffOne w c obj = some o ∧
        (o.diff = .differenceDifferent ∨ o.diff = .differenceOnlyLocal) := by
    rw [hany]
    constructor
    · rintro ⟨x, hx, rest⟩; exact ⟨x, (hmem x).1 hx, rest⟩
    · rintro ⟨x, hx, rest⟩; exact ⟨x, (hmem x).2 hx, rest⟩
  refine ⟨_, _, Run_eq w c objs out results hres, ?_, ?_⟩
  · rw [← hiff]
    cases results.any isDifference <;> simp
  · have hnot : (if results.any isDifference = true then some ErrDiffFound else none) = none ↔
        ¬ (results.any isDifference = true) := by
      cases results.any isDifference <;> simp
    rw [hnot, hiff]
    constructor
    · intro hno obj hobj o ho
      have : ¬ (o.diff = .differenceDifferent ∨ o.diff = .differenceOnlyLocal) :=
        fun hd => hno ⟨obj, hobj, o, ho, hd⟩
      cases hd : o.diff <;> simp [hd] at this ⊢
    · rintro hall ⟨obj, hobj, o, ho, hd⟩
      rcases hall obj hobj o ho with h1 | h1 <;> rcases hd with h2 | h2 <;>
        rw [h1] at h2 <;> cases h2

/-- C8 at a concrete input: the server holds no object, so the declared `ConfigMap x` is only
local, and `Run` returns `ErrDiffFound`. -/
theorem differences_found_signal_witness :
    ∃ text, Run (exampleWorld [] none) ⟨"", false, false, "all"⟩
      [⟨[("kind", .str "ConfigMap"), ("metadata", .map [("name", .str "x")])]⟩] ""
      = some (text, some ErrDiffFound) := by
  obtain ⟨text, err, hrun, h1, _⟩ := differences_found_signal (exampleWorld [] none)
    ⟨"", false, false, "all"⟩
    [⟨[("kind", .str "ConfigMap"), ("metadata", .map [("name", .str "x")])]⟩] ""
    (List.Perm.refl _)
    (fun obj hobj => by
      rw [List.mem_singleton] at hobj
      subst hobj
      exact ⟨_, rfl⟩)
  have herr : err = some ErrDiffFound :=
    h1.2 ⟨_, List.mem_singleton.2 rfl, _, rfl, Or.inr rfl⟩
  subst herr
  exact ⟨text, hrun⟩

/-! ## C9: header emission -/

/-- C9, the claim as stated fails: the fetch of the one declared resource fails with `boom`, the
resource is classified `differenceError`, and all that `Run` writes is the line of the error; no
header is written. -/
theorem header_emission_counterexample :
    (diffOne (exampleWorld [] (some ⟨"boom", false⟩)) ⟨"", false, false, "all"⟩
      ⟨[("kind", .str "ConfigMap"), ("metadata", .map [("name", .str "x")])]⟩).map diffRes.diff
      = some .differenceError ∧
    Run (exampleWorld [] (some ⟨"boom", false⟩)) ⟨"", false, false, "all"⟩
      [⟨[("kind", .str "ConfigMap"), ("metadata", .map [("name", .str "x")])]⟩] ""
      = some ("Error fetching ConfigMap x: boom\n", none) := by
  constructor <;> decide

/-- C9 (amended): when every comparison returns, `Run` writes, after what the writer held, the
blocks of the resources in sorted order. The block of a resource starts with its header (the line
`---`, then `- live <label>` and `+ config <label>`) when the resource is classified
`differenceOnlyLocal` or `differenceDifferent`, and is the header alone when it is classified
`differenceNone` and `OmitSame` is not set; it is empty when the resource is classified
`differenceNone` and `OmitSame` is set; and for a resource classified `differenceError` it is the
line of the error message alone, with no header. -/
theorem header_emission (w : World) (c : DiffCmd) (objs : List Unstructured) (out : String)
    (hret : ∀ obj ∈ w.sort alphabeticalLess objs, ∃ o, diffOne w c obj = some o) :
    ∃ results, List.Forall₂ (fun obj o => diffOne w c obj = some o)
        (w.sort alphabeticalLess objs) results ∧
      (∃ err, Run w c objs out =
        some (out ++ concatTexts (results.map (resourceBlock c.OmitSame)), err)) ∧
      ∀ o ∈ results,
        objectHeader o = "---\n- live " ++ o.desc ++ "\n+ config " ++ o.desc ++ "\n" ∧
        (o.diff = .differenceNone →
          resourceBlock c.OmitSame o = if c.OmitSame then "" else objectHeader o) ∧
        (o.diff = .differenceOnlyLocal →
          resourceBlock c.OmitSame o = objectHeader o ++ o.desc ++ " doesn't exist on server\n") ∧
        (o.diff = .differenceDifferent →
          resourceBlock c.OmitSame o = objectHeader o ++ o.details ++ "\n") ∧
        (o.diff = .differenceError →
          resourceBlock c.OmitSame o = errorText o.err ++ "\n") := by
  obtain ⟨results, hres⟩ := exists_results (diffOne w c) (w.sort alphabeticalLess objs) hret
  refine ⟨results, hres, ⟨_, Run_eq w c objs out results hres⟩, ?_⟩
  intro o _
  have hlit : ("---\n- live " : String) = "---\n" ++ "- live " := by decide
  refine ⟨by rw [objectHeader, hlit]; simp only [String.append_assoc], ?_, ?_, ?_, ?_⟩ <;>
    intro h <;> simp [resourceBlock, h, String.append_assoc]

/-- C9 (amended) at a concrete input: the declared `ConfigMap x` is on the server as declared;
`Run` writes its header and nothing else. -/
theorem header_emission_witness :
    ∃ err, Run
      (exampleWorld
        [("x", [("kind", .str "ConfigMap"), ("metadata", .map [("name", .str "x")])])] none)
      ⟨"", false, false, "all"⟩
      [⟨[("kind", .str "ConfigMap"), ("metadata", .map [("name", .str "x")])]⟩] ""
      = some ("---\n- live ConfigMap x\n+ config ConfigMap x\n", err) := by
  obtain ⟨results, hres, ⟨err, hrun⟩, _⟩ := header_emission
    (exampleWorld
      [("x", [("kind", .str "ConfigMap"), ("metadata", .map [("name", .str "x")])])] none)
    ⟨"", false, false, "all"⟩
    [⟨[("kind", .str "ConfigMap"), ("metadata", .map [("name", .str "x")])]⟩] ""
    (fun obj hobj => by
      have hobj' : obj ∈
          [(⟨[("kind", .str "ConfigMap"), ("metadata", .map [("name", .str "x")])]⟩ :
            Unstructured)] := hobj
      rw [List.mem_singleton] at hobj'
      subst hobj'
      exact ⟨_, rfl⟩)
  refine ⟨err, ?_⟩
  rw [hrun]
  have hres' : List.Forall₂ (fun obj o =>
      diffOne
        (exampleWorld
          [("x", [("kind", .str "ConfigMap"), ("metadata", .map [("name", .str "x")])])] none)
        ⟨"", false, false, "all"⟩ obj = some o)
      [(⟨[("kind", .str "ConfigMap"), ("metadata", .map [("name", .str "x")])]⟩ :
        Unstructured)] results := hres
  cases hres' with
  | cons h1 h2 =>
    cases h2
    have e : some _ = some _ := (Eq.symm h1).trans
      (show diffOne _ _ _ = some ⟨"ConfigMap x", .differenceNone, "", none⟩ by decide)
    rw [Option.some.injEq] at e
    subst e
    rfl

/-! ## C10: sorting determinism -/

theorem charsLess_trichotomy :
    ∀ (a b : List Char), charsLess a b = false → charsLess b a = false → a = b := by
  intro a
  induction a with
  | nil =>
    intro b h1 _
    cases b with
    | nil => rfl
    | cons y ys => simp [charsLess] at h1
  | cons x xs ih =>
    intro b h1 h2
    cases b with
    | nil => simp [charsLess] at h2
    | cons y ys =>
      simp only [charsLess] at h1 h2
      by_cases hxy : x.toNat < y.toNat
      · simp [hxy] at h1
      · by_cases hyx : y.toNat < x.toNat
        · simp [hyx] at h2
        · simp only [hxy, hyx, if_false] at h1 h2
          have hn : x.toNat = y.toNat := by omega
          have hc : x = y := by
            rw [← Char.ofNat_toNat x, ← Char.ofNat_toNat y, hn]
          rw [hc, ih ys h1 h2]

theorem stringLess_trichotomy {a b : String} (h1 : stringLess a b = false)
    (h2 : stringLess b a = false) : a = b :=
  String.ext (charsLess_trichotomy a.data b.data h1 h2)

/-- Two resources neither of which is `Less` than the other have the same key. -/
theorem sortKey_eq_of_not_less {a b : Unstructured} (h1 : alphabeticalLess b a = false)
    (h2 : alphabeticalLess a b = false) : sortKey a = sortKey b := by
  unfold alphabeticalLess at h1 h2
  by_cases hk : a.GetKind = b.GetKind
  · by_cases hn : a.GetNamespace = b.GetNamespace
    · simp only [hk, hn, ne_eq, not_true_eq_false, if_false] at h1 h2
      simp [sortKey, hk, hn, stringLess_trichotomy h2 h1]
    · have hn' : ¬ b.GetNamespace = a.GetNamespace := fun e => hn e.symm
      simp only [hk, ne_eq, not_true_eq_false, if_false, hn, hn', not_false_eq_true,
        if_true] at h1 h2
      exact absurd (stringLess_trichotomy h2 h1) hn
  · have hk' : ¬ b.GetKind = a.GetKind := fun e => hk e.symm
    simp only [ne_eq, hk, hk', not_false_eq_true, if_true] at h1 h2
    exact absurd (stringLess_trichotomy h2 h1) hk

/-- Two sorted rearrangements of one another are the same list, when the order is antisymmetric
on the elements. -/
theorem eq_of_perm_of_pairwise {r : Unstructured → Unstructured → Prop} :
    ∀ (l₁ l₂ : List Unstructured), (∀ a ∈ l₁, ∀ b ∈ l₁, r a b → r b a → a = b) →
      l₁.Perm l₂ → l₁.Pairwise r → l₂.Pairwise r → l₁ = l₂ := by
  intro l₁
  induction l₁ with
  | nil => intro l₂ _ hp _ _; exact hp.nil_eq
  | cons a t₁ ih =>
    intro l₂ hanti hp h₁ h₂
    cases l₂ with
    | nil => exact absurd hp.symm.nil_eq (by simp)
    | cons b t₂ =>
      have hab : a = b := by
        by_contra hne
        have ha : a ∈ t₂ := by
          have := hp.subset (List.mem_cons_self a t₁)
          rcases List.mem_cons.1 this with e | e
          · exact absurd e hne
          · exact e
        have hb : b ∈ t₁ := by
          have := hp.symm.subset (List.mem_cons_self b t₂)
          rcases List.mem_cons.1 this with e | e
          · exact absurd e.symm hne
          · exact e
        exact hne (hanti a (List.mem_cons_self _ _) b (List.mem_cons_of_mem _ hb)
          ((List.pairwise_cons.1 h₁).1 b hb) ((List.pairwise_cons.1 h₂).1 a ha))
      subst hab
      rw [ih t₂ (fun x hx y hy => hanti x (List.mem_cons_of_mem _ hx) y
        (List.mem_cons_of_mem _ hy)) (List.Perm.cons_inv hp) (List.pairwise_cons.1 h₁).2
        (List.pairwise_cons.1 h₂).2]

/-- C10 (amended): sorting determinism for resources told apart by their keys. When `sort.Sort`
keeps its contract on the two slices and no two different resources of the list have the same
(kind, namespace, name), `Run` on the list and `Run` on any rearrangement of it (same world, same
configuration) write the same text and return the same value. -/
theorem sorting_determinism (w : World) (c : DiffCmd) (objs₁ objs₂ : List Unstructured)
    (out : String)
    (hsort₁ : IsSortOf alphabeticalLess objs₁ (w.sort alphabeticalLess objs₁))
    (hsort₂ : IsSortOf alphabeticalLess objs₂ (w.sort alphabeticalLess objs₂))
    (hperm : objs₁.Perm objs₂)
    (hkeys : ∀ a ∈ objs₁, ∀ b ∈ objs₁, sortKey a = sortKey b → a = b) :
    Run w c objs₁ out = Run w c objs₂ out := by
  have hs : w.sort alphabeticalLess objs₁ = w.sort alphabeticalLess objs₂ := by
    refine eq_of_perm_of_pairwise _ _ ?_
      ((hsort₁.1.trans hperm).trans hsort₂.1.symm) hsort₁.2 hsort₂.2
    intro a ha b hb h1 h2
    exact hkeys a (hsort₁.1.subset ha) b (hsort₁.1.subset hb) (sortKey_eq_of_not_less h1 h2)
  unfold Run
  rw [hs]

/-- C10, the claim as stated fails: two declarations of `ConfigMap x`, one as the server holds
it and one with `a: 1` added, have the same (kind, namespace, name); `sort.Sort` (on two elements,
Go's `insertionSort`) leaves them in the order given, and `Run` on the two orders writes two
different texts. -/
theorem sorting_determinism_counterexample :
    Run (exampleWorld
        [("x", [("kind", .str "ConfigMap"), ("metadata", .map [("name", .str "x")])])] none)
      ⟨"", false, false, "all"⟩
      [⟨[("kind", .str "ConfigMap"), ("metadata", .map [("name", .str "x")])]⟩,
       ⟨[("a", .int64 1), ("kind", .str "ConfigMap"), ("metadata", .map [("name", .str "x")])]⟩]
      "" ≠
    Run (exampleWorld
        [("x", [("kind", .str "ConfigMap"), ("metadata", .map [("name", .str "x")])])] none)
      ⟨"", false, false, "all"⟩
      [⟨[("a", .int64 1), ("kind", .str "ConfigMap"), ("metadata", .map [("name", .str "x")])]⟩,
       ⟨[("kind", .str "ConfigMap"), ("metadata", .map [("name", .str "x")])]⟩]
      "" := by
  decide

/-- C10 (amended) at a concrete input: a `Pod y` and a `ConfigMap x`, given in the two orders;
`sort.Sort` (on two elements, Go's `insertionSort`) puts the `ConfigMap` first in both. -/
theorem sorting_determinism_witness :
    Run (exampleWorld
        [("x", [("kind", .str "ConfigMap"), ("metadata", .map [("name", .str "x")])])] none)
      ⟨"", false, false, "all"⟩
      [⟨[("kind", .str "Pod"), ("metadata", .map [("name", .str "y")])]⟩,
       ⟨[("kind", .str "ConfigMap"), ("metadata", .map [("name", .str "x")])]⟩] "" =
    Run (exampleWorld
        [("x", [("kind", .str "ConfigMap"), ("metadata", .map [("name", .str "x")])])] none)
      ⟨"", false, false, "all"⟩
      [⟨[("kind", .str "ConfigMap"), ("metadata", .map [("name", .str "x")])]⟩,
       ⟨[("kind", .str "Pod"), ("metadata", .map [("name", .str "y")])]⟩] "" :=
  sorting_determinism _ _ _ _ _
    ⟨List.Perm.swap _ _ _, by decide⟩
    ⟨List.Perm.refl _, by decide⟩
    (List.Perm.swap _ _ _)
    (by
      intro a ha b hb hab
      simp only [List.mem_cons, List.mem_singleton, List.not_mem_nil, or_false] at ha hb
      rcases ha with rfl | rfl <;> rcases hb with rfl | rfl
      · rfl
      · exact absurd hab (by decide)
      · exact absurd hab (by decide)
      · rfl)

/-! ## The renderer: segment by segment -/

theorem formatDiff_nil (color omitchanges : Bool) : formatDiff [] color omitchanges = "" := rfl

/-- The loop of `formatDiff` started on a buffer that already holds `buff`. -/
theorem formatDiff_foldl (color omitchanges : Bool) :
    ∀ (diffs : List Diff) (buff : String) (f : String → Diff → String),
      (∀ b d, f b d = b ++ formatDiff [d] color omitchanges) →
      diffs.foldl f buff = buff ++ concatTexts (diffs.map (fun d => formatDiff [d] color omitchanges))
  := by
  intro diffs
  induction diffs with
  | nil => intro buff f _; simp [concatTexts]
  | cons d rest ih =>
    intro buff f hf
    simp only [List.foldl_cons, List.map_cons, concatTexts]
    rw [ih _ f hf, hf, String.append_assoc]

/-- What one segment adds to the buffer is the rendering of that segment alone. -/
theorem formatDiff_step (color omitchanges : Bool) (buff : String) (d : Diff) :
    [d].foldl (fun buff diff =>
      let text := if omitchanges then String.mk (keyValueReplace 0 diff.Text.data) else diff.Text
      match diff.Typ with
      | .DiffInsert =>
        let buff := if color then buff ++ "\x1b[32m" else buff
        let buff := buff ++ String.mk (lineStartReplace "+ ".data true text.data)
        if color then buff ++ "\x1b[0m" else buff
      | .DiffDelete =>
        let buff := if color then buff ++ "\x1b[31m" else buff
        let buff := buff ++ String.mk (lineStartReplace "- ".data true text.data)
        if color then buff ++ "\x1b[0m" else buff
      | .DiffEqual =>
        if !omitchanges then buff ++ String.mk (lineStartReplace "  ".data true text.data)
        else buff) buff = buff ++ formatDiff [d] color omitchanges := by
  obtain ⟨typ, text⟩ := d
  cases typ <;> cases color <;> cases omitchanges <;>
    simp [formatDiff, String.append_assoc]

/-- The rendering of a sequence is the renderings of its segments one after the other. -/
theorem formatDiff_eq_concat (diffs : List Diff) (color omitchanges : Bool) :
    formatDiff diffs color omitchanges =
      concatTexts (diffs.map (fun d => formatDiff [d] color omitchanges)) := by
  have h := formatDiff_foldl color omitchanges diffs "" _
    (fun b d => formatDiff_step color omitchanges b d)
  exact (show formatDiff diffs color omitchanges = "" ++ concatTexts _ from h).trans (by simp)

theorem formatDiff_cons (d : Diff) (diffs : List Diff) (color omitchanges : Bool) :
    formatDiff (d :: diffs) color omitchanges =
      formatDiff [d] color omitchanges ++ formatDiff diffs color omitchanges := by
  rw [formatDiff_eq_concat (d :: diffs), formatDiff_eq_concat diffs]
  simp [concatTexts]

theorem formatDiff_equal (t : String) (color : Bool) :
    formatDiff [⟨.DiffEqual, t⟩] color true = "" ∧
    formatDiff [⟨.DiffEqual, t⟩] color false = String.mk (lineStartReplace "  ".data true t.data) := by
  constructor <;> simp [formatDiff]

/-- Dropping the first two characters of every line undoes the marking of `lineStartReplace`,
for a marker of two characters neither of which is a newline. -/
theorem stripMarkers_lineStartReplace (a b : Char) (ha : a ≠ '\n') (hb : b ≠ '\n') :
    ∀ (t : List Char), stripMarkers 2 (lineStartReplace [a, b] true t) = t ∧
      stripMarkers 0 (lineStartReplace [a, b] false t) = t := by
  intro t
  induction t with
  | nil => simp [lineStartReplace, stripMarkers]
  | cons ch rest ih =>
    by_cases h : ch = '\n'
    · subst h
      simp [lineStartReplace, stripMarkers, ih.1]
    · simp [lineStartReplace, stripMarkers, h, ha, hb, ih.2]

/-! ## C14: context suppression under redaction -/

/-- C14: context suppression under redaction. For every segment sequence `s` and color flag,
`formatDiff s color true` is `formatDiff` of `s` without its Equal segments; a sequence of Equal
segments only renders as the empty string; whereas with `omitchanges = false` the rendering is
the renderings of all segments one after the other, where an Equal segment renders as its text
with the two-space marker at the line starts, from which dropping the markers gives the text
back. -/
theorem context_suppression (s : List Diff) (color : Bool) :
    formatDiff s color true = formatDiff (s.filter (fun d => d.Typ ≠ .DiffEqual)) color true ∧
    ((∀ d ∈ s, d.Typ = .DiffEqual) → formatDiff s color true = "") ∧
    formatDiff s color false = concatTexts (s.map (fun d => formatDiff [d] color false)) ∧
    ∀ d ∈ s, d.Typ = .DiffEqual →
      formatDiff [d] color false = String.mk (lineStartReplace "  ".data true d.Text.data) ∧
      stripMarkers 2 (formatDiff [d] color false).data = d.Text.data := by
  have hfilter : ∀ (l : List Diff), formatDiff l color true =
      formatDiff (l.filter (fun d => d.Typ ≠ .DiffEqual)) color true := by
    intro l
    induction l with
    | nil => rfl
    | cons d rest ih =>
      obtain ⟨typ, text⟩ := d
      rw [formatDiff_cons]
      cases typ
      · rw [List.filter_cons_of_pos (by simp), formatDiff_cons _ (List.filter _ rest), ih]
      · rw [List.filter_cons_of_pos (by simp), formatDiff_cons _ (List.filter _ rest), ih]
      · rw [List.filter_cons_of_neg (by simp), (formatDiff_equal text color).1, ih]
        simp
  refine ⟨hfilter s, ?_, formatDiff_eq_concat s color false, ?_⟩
  · intro hall
    rw [hfilter s]
    have : s.filter (fun d => d.Typ ≠ .DiffEqual) = [] := by
      rw [List.filter_eq_nil_iff]
      intro d hd
      simp [hall d hd]
    rw [this]
    rfl
  · intro d _ hd
    obtain ⟨typ, text⟩ := d
    simp only at hd
    subst hd
    rw [(formatDiff_equal text color).2]
    exact ⟨rfl, (stripMarkers_lineStartReplace ' ' ' ' (by decide) (by decide) text.data).1⟩

/-- C14 at a concrete input: under redaction the two Equal segments around the Insert are not
rendered; without it they are. -/
theorem context_suppression_example :
    formatDiff [⟨.DiffEqual, "\x7b\n"⟩, ⟨.DiffInsert, "  \"a\": 1\n"⟩, ⟨.DiffEqual, "\x7d"⟩]
      false true = "+   \"a\": 1\n" ∧
    formatDiff [⟨.DiffEqual, "\x7b\n"⟩, ⟨.DiffInsert, "  \"a\": 1\n"⟩, ⟨.DiffEqual, "\x7d"⟩]
      false false = "  \x7b\n+   \"a\": 1\n  \x7d" := by
  constructor <;> decide

/-! ## C15: classification of the two texts -/

/-- C15, amended: classification. With the live object fetched and `liveObjObject` the live
mapping that is compared (masked under the Subset strategy), let the line diff return, for the
two canonical texts, segments that concatenate to the live text (Delete and Equal) and to the
declared text (Insert and Equal), and the one Equal segment when the two texts are equal and not
empty. Then `diffOne` returns, with `differenceNone` or `differenceDifferent`: `differenceNone`
exactly when the segments are one Equal segment, in which case the two texts are equal;
`differenceDifferent` whenever the two texts differ; for texts that are not empty,
`differenceNone` if and only if the two texts are equal and `differenceDifferent` if and only if
they are not; and `differenceDifferent`, with empty details, when the line diff returns no
segment, as it does for two empty texts. -/
theorem classification_totality (w : World) (c : DiffCmd) (obj live : Unstructured)
    (client : ResourceClient) (liveObjObject : GoMap)
    (hclient : w.clientForResource obj c.DefaultNamespace = .ok client)
    (hname : obj.GetName ≠ "")
    (hget : client.Get obj.GetName = (some live, none))
    (hmask : (if c.DiffStrategy = "subset" then removeMapFields obj.Object live.Object
      else some live.Object) = some liveObjObject)
    (hlive : liveSide (w.diffLines (w.marshalIndent liveObjObject) (w.marshalIndent obj.Object))
      = w.marshalIndent liveObjObject)
    (hconfig : configSide
      (w.diffLines (w.marshalIndent liveObjObject) (w.marshalIndent obj.Object))
      = w.marshalIndent obj.Object)
    (hequal : w.marshalIndent liveObjObject = w.marshalIndent obj.Object →
      w.marshalIndent liveObjObject ≠ "" →
      w.diffLines (w.marshalIndent liveObjObject) (w.marshalIndent obj.Object)
        = [⟨.DiffEqual, w.marshalIndent liveObjObject⟩]) :
    ∃ o, diffOne w c obj = some o ∧
      (o.diff = .differenceNone ∨ o.diff = .differenceDifferent) ∧
      (o.diff = .differenceNone ↔
        ∃ t, w.diffLines (w.marshalIndent liveObjObject) (w.marshalIndent obj.Object)
          = [⟨.DiffEqual, t⟩]) ∧
      (o.diff = .differenceNone → w.marshalIndent liveObjObject = w.marshalIndent obj.Object) ∧
      (w.marshalIndent liveObjObject ≠ w.marshalIndent obj.Object →
        o.diff = .differenceDifferent) ∧
      (w.marshalIndent liveObjObject ≠ "" →
        (o.diff = .differenceNone ↔
          w.marshalIndent liveObjObject = w.marshalIndent obj.Object) ∧
        (o.diff = .differenceDifferent ↔
          w.marshalIndent liveObjObject ≠ w.marshalIndent obj.Object)) ∧
      (w.diffLines (w.marshalIndent liveObjObject) (w.marshalIndent obj.Object) = [] →
        o.diff = .differenceDifferent ∧ o.details = "") := by
  rw [diffOne_of_fetched w c obj live client liveObjObject hclient hname hget hmask]
  by_cases hsingle : ∃ t, w.diffLines (w.marshalIndent liveObjObject) (w.marshalIndent obj.Object)
      = [⟨.DiffEqual, t⟩]
  · obtain ⟨t, ht⟩ := hsingle
    have heq : w.marshalIndent liveObjObject = w.marshalIndent obj.Object := by
      rw [ht] at hlive hconfig
      exact hlive.symm.trans ((sides_of_single_equal t).1.trans
        ((sides_of_single_equal t).2.symm.trans hconfig))
    rw [ht]
    refine ⟨_, rfl, Or.inl rfl, ⟨fun _ => ⟨t, rfl⟩, fun _ => rfl⟩, fun _ => heq,
      fun hne => absurd heq hne, fun _ => ⟨⟨fun _ => heq, fun _ => rfl⟩, ?_⟩, ?_⟩
    · exact ⟨fun h => (by cases h), fun hne => absurd heq hne⟩
    · intro h; cases h
  · have hdiff : (match w.diffLines (w.marshalIndent liveObjObject)
          (w.marshalIndent obj.Object) with
        | [⟨.DiffEqual, _⟩] =>
          some (⟨w.resourceNameFor obj ++ " " ++ w.fqName obj, .differenceNone, "", none⟩ :
            diffRes)
        | diff =>
          some ⟨w.resourceNameFor obj ++ " " ++ w.fqName obj, .differenceDifferent,
            formatDiff diff w.stdoutIsTerminal (c.OmitSecrets && obj.GetKind = "Secret"), none⟩)
        = some ⟨w.resourceNameFor obj ++ " " ++ w.fqName obj, .differenceDifferent,
            formatDiff (w.diffLines (w.marshalIndent liveObjObject) (w.marshalIndent obj.Object))
              w.stdoutIsTerminal (c.OmitSecrets && obj.GetKind = "Secret"), none⟩ := by
      split
      · rename_i t hd
        exact absurd ⟨t, hd⟩ hsingle
      · rfl
    rw [hdiff]
    refine ⟨_, rfl, Or.inr rfl, ⟨fun h => (by cases h), fun h => absurd h hsingle⟩,
      fun h => (by cases h), fun _ => rfl, fun hne => ?_, fun h0 => ⟨rfl, (by rw [h0]; rfl)⟩⟩
    have hneq : w.marshalIndent liveObjObject ≠ w.marshalIndent obj.Object :=
      fun heq => hsingle ⟨_, hequal heq hne⟩
    exact ⟨⟨fun h => (by cases h), fun heq => absurd heq hneq⟩, fun _ => hneq, fun _ => rfl⟩

/-- C15 at a concrete input: the declared `ConfigMap x` is on the server as declared, the two
canonical texts are the same and not empty, and the resource is classified `differenceNone`. -/
theorem classification_totality_witness :
    ∃ o, diffOne
        (exampleWorld
          [("x", [("kind", .str "ConfigMap"), ("metadata", .map [("name", .str "x")])])] none)
        ⟨"", false, false, "all"⟩
        ⟨[("kind", .str "ConfigMap"), ("metadata", .map [("name", .str "x")])]⟩ = some o ∧
      o.diff = .differenceNone := by
  obtain ⟨o, ho, _, _, _, _, h1, _⟩ := classification_totality
    (exampleWorld
      [("x", [("kind", .str "ConfigMap"), ("metadata", .map [("name", .str "x")])])] none)
    ⟨"", false, false, "all"⟩
    ⟨[("kind", .str "ConfigMap"), ("metadata", .map [("name", .str "x")])]⟩
    ⟨[("kind", .str "ConfigMap"), ("metadata", .map [("name", .str "x")])]⟩
    ⟨fun name =>
      match List.lookup name
          [("x", [("kind", Value.str "ConfigMap"),
            ("metadata", Value.map [("name", Value.str "x")])])] with
      | some live => (some ⟨live⟩, none)
      | none => (none, some ⟨name ++ " not found", true⟩)⟩
    [("kind", .str "ConfigMap"), ("metadata", .map [("name", .str "x")])]
    rfl (by decide) rfl rfl (by decide) (by decide) (fun _ _ => by decide)
  exact ⟨o, ho, (h1 (by decide)).1.2 rfl⟩

/-- C15 as stated fails for two empty texts. The declared `ConfigMap x` holds a `float64` NaN, on
which `json.MarshalIndent` fails, and the server holds the same object: `diffOne` drops the error
of the encoder and compares two empty texts. For them the line diff returns no segment (which
concatenates to the two empty texts), `len(diff) == 1` is false, and the resource is classified
`differenceDifferent`, with empty details, although the two texts are equal. -/
theorem classification_totality_counterexample :
    float64IsFinite 0x7FF8000000000001 = false ∧
    exampleMarshalIndent [("data", .map [("ratio", .float64 0x7FF8000000000001)]),
      ("kind", .str "ConfigMap"), ("metadata", .map [("name", .str "x")])] = "" ∧
    exampleDiffLines "" "" = [] ∧ liveSide [] = "" ∧ configSide [] = "" ∧
    diffOne
      (exampleWorld
        [("x", [("data", .map [("ratio", .float64 0x7FF8000000000001)]),
          ("kind", .str "ConfigMap"), ("metadata", .map [("name", .str "x")])])] none)
      ⟨"", false, false, "all"⟩
      ⟨[("data", .map [("ratio", .float64 0x7FF8000000000001)]),
        ("kind", .str "ConfigMap"), ("metadata", .map [("name", .str "x")])]⟩
      = some ⟨"ConfigMap x", .differenceDifferent, "", none⟩ := by
  refine ⟨?_, ?_, ?_, ?_, ?_, ?_⟩ <;> decide

/-! ## C16: classification of the fetch outcome -/

/-- C16: classification of the fetch outcome. For a resource with a name whose client is
resolved, when the fetch answers with an error: if the error is not-found, `diffOne` returns the
classification `differenceOnlyLocal` with no error value; otherwise it returns `differenceError`
with an error whose message is `Error fetching <label>: ` followed by the message of the
underlying failure. In both cases the result is the same whatever the encoder, the line diff and
the strategy are: no masking and no diffing enters it. -/
theorem fetch_outcome (w : World) (c : DiffCmd) (obj : Unstructured) (client : ResourceClient)
    (liveObj : Option Unstructured) (err : GoError)
    (hclient : w.clientForResource obj c.DefaultNamespace = .ok client)
    (hname : obj.GetName ≠ "")
    (hget : client.Get obj.GetName = (liveObj, some err)) :
    (err.isNotFound = true →
      diffOne w c obj =
        some ⟨w.resourceNameFor obj ++ " " ++ w.fqName obj, .differenceOnlyLocal, "", none⟩) ∧
    (err.isNotFound = false →
      diffOne w c obj =
        some ⟨w.resourceNameFor obj ++ " " ++ w.fqName obj, .differenceError, "",
          some ⟨"Error fetching " ++ (w.resourceNameFor obj ++ " " ++ w.fqName obj) ++ ": " ++
            err.msg, false⟩⟩) ∧
    (∀ (marshal : GoMap → String) (diffLines : String → String → List Diff)
        (strategy : String),
      diffOne ⟨w.resourceNameFor, w.fqName, w.clientForResource, marshal, diffLines,
          w.stdoutIsTerminal, w.sort⟩
        ⟨c.DefaultNamespace, c.OmitSecrets, c.OmitSame, strategy⟩ obj = diffOne w c obj) := by
  refine ⟨?_, ?_, ?_⟩
  · intro h
    unfold diffOne
    simp [hclient, hname, hget, h]
  · intro h
    unfold diffOne
    simp [hclient, hname, hget, h]
  · intro marshal diffLines strategy
    unfold diffOne
    simp only [hclient, hname, hget]

/-- C16 at a concrete input: the server holds no `ConfigMap x`, and answers not-found in one
world and `boom` in the other. -/
theorem fetch_outcome_witness :
    diffOne (exampleWorld [] none) ⟨"", false, false, "subset"⟩
      ⟨[("kind", .str "ConfigMap"), ("metadata", .map [("name", .str "x")])]⟩
      = some ⟨"ConfigMap x", .differenceOnlyLocal, "", none⟩ ∧
    diffOne (exampleWorld [] (some ⟨"boom", false⟩)) ⟨"", false, false, "subset"⟩
      ⟨[("kind", .str "ConfigMap"), ("metadata", .map [("name", .str "x")])]⟩
      = some ⟨"ConfigMap x", .differenceError, "",
          some ⟨"Error fetching ConfigMap x: boom", false⟩⟩ :=
  ⟨(fetch_outcome (exampleWorld [] none) ⟨"", false, false, "subset"⟩
      ⟨[("kind", .str "ConfigMap"), ("metadata", .map [("name", .str "x")])]⟩
      ⟨fun name => (none, some ⟨name ++ " not found", true⟩)⟩ none ⟨"x not found", true⟩
      rfl (by decide) rfl).1 rfl,
   (fetch_outcome (exampleWorld [] (some ⟨"boom", false⟩)) ⟨"", false, false, "subset"⟩
      ⟨[("kind", .str "ConfigMap"), ("metadata", .map [("name", .str "x")])]⟩
      ⟨fun _ => (none, some ⟨"boom", false⟩)⟩ none ⟨"boom", false⟩
      rfl (by decide) rfl).2.1 rfl⟩

/-! ## C17: unknown value kinds fail loudly -/

/-- The loop panics when the declared mapping has an entry of an unrecognized kind whose key the
live mapping lacks, whatever the other entries are. -/
theorem removeMapFieldsRange_none_of_other (live : GoMap) {k t : String}
    (hl : List.lookup k live = none) :
    ∀ (config result : GoMap), (k, Value.other t) ∈ config →
      removeMapFieldsRange config live result = none := by
  intro config
  induction config with
  | nil => intro _ h; cases h
  | cons kv rest ih =>
    obtain ⟨k0, v1⟩ := kv
    intro result hmem
    rcases List.mem_cons.1 hmem with e | hrest
    · cases e
      simp [removeMapFieldsRange, hl, isEmptyValue]
    · cases hl0 : live.lookup k0 with
      | none =>
        cases he : isEmptyValue v1 with
        | none => simp [removeMapFieldsRange, hl0, he]
        | some b =>
          cases b with
          | true => simp only [removeMapFieldsRange, hl0, he]; exact ih _ hrest
          | false => simp only [removeMapFieldsRange, hl0, he]; exact ih _ hrest
      | some v2 =>
        cases hr : removeFields v1 v2 with
        | none => simp [removeMapFieldsRange, hl0, hr]
        | some r => simp only [removeMapFieldsRange, hl0, hr]; exact ih _ hrest

/-- C17: unknown value kinds fail loudly. `isEmptyValue` returns a boolean for a sequence, a
string list, a mapping (each of the three nil or allocated), a bool, a float64, an int64, a string
and null, and panics if and only if the value is of any other kind; consequently
`removeMapFields D L` panics whenever `D` holds, at a key that `L` lacks, a value of another
kind. -/
theorem fail_loudly (v : Value) (D L : GoMap) (k t : String) :
    (isEmptyValue v = none ↔ ∃ typeName, v = .other typeName) ∧
    ((∀ typeName, v ≠ .other typeName) → ∃ b, isEmptyValue v = some b) ∧
    (((∃ xs, v = .list xs) ∨ v = .nilList) ∨ ((∃ xs, v = .strList xs) ∨ v = .nilStrList) ∨
      ((∃ m, v = .map m) ∨ v = .nilMap) ∨ (∃ b, v = .bool b) ∨
      (∃ bits, v = .float64 bits) ∨ (∃ i, v = .int64 i) ∨ (∃ s, v = .str s) ∨ v = .null ∨
      (∃ typeName, v = .other typeName)) ∧
    (List.lookup k D = some (.other t) → List.lookup k L = none →
      removeMapFields D L = none) := by
  refine ⟨?_, ?_, ?_, ?_⟩
  · cases v <;> simp [isEmptyValue]
  · intro h
    cases v <;> simp [isEmptyValue] at h ⊢
  · cases v <;> simp
  · intro hD hL
    exact removeMapFieldsRange_none_of_other L hL D [] (mem_of_lookup hD)

/-- C17 at a concrete input: the declared `port` is a Go `int`, which the type switch does not
list, and the live mapping has no `port`; `removeMapFields` panics. With `port` live it does
not. -/
theorem fail_loudly_example :
    isEmptyValue (.other "int") = none ∧
    removeMapFields [("name", .str "x"), ("port", .other "int")] [("name", .str "x")] = none ∧
    removeMapFields [("name", .str "x"), ("port", .other "int")]
      [("name", .str "x"), ("port", .int64 80)]
      = some [("name", .str "x"), ("port", .int64 80)] :=
  ⟨rfl, rfl, rfl⟩

/-! ## C18: unchanged resources and OmitSame -/

/-- C18: unchanged resources and OmitSame. For a resource classified `differenceNone` that is
the only resource, `Run` with `OmitSame = false` writes exactly the three header lines (`---`,
`- live <label>`, `+ config <label>`) and nothing after them, `Run` with `OmitSame = true` writes
nothing, and `Run` returns `nil` in both cases. In any list of resources, the block of a resource
classified `differenceNone` is those three lines without `OmitSame` and empty with it. -/
theorem unchanged_omit_same (w : World) (c : DiffCmd) (obj : Unstructured) (out : String)
    (o : diffRes)
    (hsort : (w.sort alphabeticalLess [obj]).Perm [obj])
    (ho : diffOne w c obj = some o) (hnone : o.diff = .differenceNone) :
    (c.OmitSame = false →
      Run w c [obj] out =
        some (out ++ "---\n" ++ "- live " ++ o.desc ++ "\n" ++ "+ config " ++ o.desc ++ "\n",
          none)) ∧
    (c.OmitSame = true → Run w c [obj] out = some (out, none)) ∧
    resourceBlock false o = "---\n" ++ "- live " ++ o.desc ++ "\n" ++ "+ config " ++ o.desc ++ "\n" ∧
    resourceBlock true o = "" := by
  have hs : w.sort alphabeticalLess [obj] = [obj] := List.perm_singleton.1 hsort
  have hrun := Run_eq w c [obj] out [o] (by rw [hs]; exact List.Forall₂.cons ho List.Forall₂.nil)
  have hlit : ("\n+ config " : String) = "\n" ++ "+ config " := by decide
  have hblock : resourceBlock false o =
      "---\n" ++ "- live " ++ o.desc ++ "\n" ++ "+ config " ++ o.desc ++ "\n" := by
    simp only [resourceBlock, hnone, objectHeader, hlit, String.append_assoc,
      Bool.false_eq_true, if_false]
  refine ⟨?_, ?_, hblock, by simp [resourceBlock, hnone]⟩
  · intro hf
    rw [hrun, hf]
    simp only [List.map_cons, List.map_nil, concatTexts, hblock, List.any_cons, List.any_nil,
      isDifference, hnone, String.append_assoc]
    simp
  · intro ht
    rw [hrun, ht]
    simp [concatTexts, resourceBlock, hnone, isDifference]

/-- C18 at a concrete input: the declared `ConfigMap x` is on the server as declared; without
`OmitSame` the header is written, with it nothing is. -/
theorem unchanged_omit_same_witness :
    Run (exampleWorld
        [("x", [("kind", .str "ConfigMap"), ("metadata", .map [("name", .str "x")])])] none)
      ⟨"", false, false, "all"⟩
      [⟨[("kind", .str "ConfigMap"), ("metadata", .map [("name", .str "x")])]⟩] ""
      = some ("---\n- live ConfigMap x\n+ config ConfigMap x\n", none) ∧
    Run (exampleWorld
        [("x", [("kind", .str "ConfigMap"), ("metadata", .map [("name", .str "x")])])] none)
      ⟨"", false, true, "all"⟩
      [⟨[("kind", .str "ConfigMap"), ("metadata", .map [("name", .str "x")])]⟩] ""
      = some ("", none) :=
  ⟨(unchanged_omit_same _ ⟨"", false, false, "all"⟩ _ "" ⟨"ConfigMap x", .differenceNone, "", none⟩
      (List.Perm.refl _) (by decide) rfl).1 rfl,
   (unchanged_omit_same _ ⟨"", false, true, "all"⟩ _ "" ⟨"ConfigMap x", .differenceNone, "", none⟩
      (List.Perm.refl _) (by decide) rfl).2.1 rfl⟩

/-! ## C19: per-resource independence -/

theorem concatTexts_append (a b : List String) :
    concatTexts (a ++ b) = concatTexts a ++ concatTexts b := by
  induction a with
  | nil => simp [concatTexts]
  | cons t ts ih => simp [concatTexts, ih, String.append_assoc]

/-- The loop over two lists one after the other is the loop over the second started where the
loop over the first ended; a panic in the first stops it. -/
theorem runLoop_append (omitSame : Bool) (compare : Unstructured → Option diffRes) :
    ∀ (xs ys : List Unstructured) (st : String × Bool),
      runLoop omitSame compare (xs ++ ys) st =
        (runLoop omitSame compare xs st).bind (runLoop omitSame compare ys) := by
  intro xs
  induction xs with
  | nil => intro ys st; simp [runLoop]
  | cons x rest ih =>
    intro ys st
    cases hx : compare x with
    | none => simp [runLoop, hx]
    | some o => simp [runLoop, hx, ih]

/-- C19: per-resource independence. When no comparison panics, the text `Run` writes is, after
what the writer held, the blocks of the resources in sorted order, the block of a resource being
`resourceBlock` of the `OmitSame` flag and of the comparison result of that resource alone: for a
sorted order `xs ++ ys` it is the blocks of `xs` followed by the blocks of `ys`, and
`ErrDiffFound` is returned exactly when `xs` or `ys` holds a difference. A resource classified
`differenceError` adds its error line between the blocks of the resources before and after it,
which are what they are without it, and does not count as a difference. The loop itself over
`xs ++ ys` is the loop over `ys` started where the loop over `xs` ended. -/
theorem per_resource_independence (w : World) (c : DiffCmd) (objs xs ys : List Unstructured)
    (out : String) (rx ry : List diffRes)
    (hs : w.sort alphabeticalLess objs = xs ++ ys)
    (hx : List.Forall₂ (fun obj o => diffOne w c obj = some o) xs rx)
    (hy : List.Forall₂ (fun obj o => diffOne w c obj = some o) ys ry) :
    Run w c objs out =
      some (out ++ concatTexts (rx.map (resourceBlock c.OmitSame)) ++
          concatTexts (ry.map (resourceBlock c.OmitSame)),
        if (rx.any isDifference || ry.any isDifference) = true then some ErrDiffFound
        else none) ∧
    (∀ (pre post : List diffRes) (e : diffRes), e.diff = .differenceError →
      concatTexts ((pre ++ e :: post).map (resourceBlock c.OmitSame)) =
        concatTexts (pre.map (resourceBlock c.OmitSame)) ++ (errorText e.err ++ "\n") ++
          concatTexts (post.map (resourceBlock c.OmitSame)) ∧
      (pre ++ e :: post).any isDifference = (pre ++ post).any isDifference) ∧
    (∀ st, runLoop c.OmitSame (diffOne w c) (xs ++ ys) st =
      (runLoop c.OmitSame (diffOne w c) xs st).bind (runLoop c.OmitSame (diffOne w c) ys)) := by
  refine ⟨?_, ?_, runLoop_append c.OmitSame (diffOne w c) xs ys⟩
  · rw [Run_eq w c objs out (rx ++ ry) (by rw [hs]; exact List.rel_append hx hy)]
    simp [concatTexts_append, String.append_assoc]
  · intro pre post e he
    constructor
    · simp [concatTexts_append, concatTexts, resourceBlock, he, String.append_assoc]
    · simp [isDifference, he]

/-- C19 at a concrete input: a `ConfigMap x` that the server holds as declared and a `Pod y`
that it does not hold; the text is the header of the first followed by the block of the
second. -/
theorem per_resource_independence_witness :
    Run (exampleWorld
        [("x", [("kind", .str "ConfigMap"), ("metadata", .map [("name", .str "x")])])] none)
      ⟨"", false, false, "all"⟩
      [⟨[("kind", .str "Pod"), ("metadata", .map [("name", .str "y")])]⟩,
       ⟨[("kind", .str "ConfigMap"), ("metadata", .map [("name", .str "x")])]⟩] ""
      = some ("---\n- live ConfigMap x\n+ config ConfigMap x\n" ++
          "---\n- live Pod y\n+ config Pod y\nPod y doesn't exist on server\n",
          some ErrDiffFound) := by
  have h := (per_resource_independence
    (exampleWorld
      [("x", [("kind", .str "ConfigMap"), ("metadata", .map [("name", .str "x")])])] none)
    ⟨"", false, false, "all"⟩
    [⟨[("kind", .str "Pod"), ("metadata", .map [("name", .str "y")])]⟩,
     ⟨[("kind", .str "ConfigMap"), ("metadata", .map [("name", .str "x")])]⟩]
    [⟨[("kind", .str "ConfigMap"), ("metadata", .map [("name", .str "x")])]⟩]
    [⟨[("kind", .str "Pod"), ("metadata", .map [("name", .str "y")])]⟩] ""
    [⟨"ConfigMap x", .differenceNone, "", none⟩] [⟨"Pod y", .differenceOnlyLocal, "", none⟩]
    rfl
    (List.Forall₂.cons (by decide) List.Forall₂.nil)
    (List.Forall₂.cons (by decide) List.Forall₂.nil)).1
  rw [h]
  decide

/-! ## C11: line prefixing -/

theorem splitNL_ne_nil (t : List Char) : ∃ line lines, splitNL t = line :: lines := by
  induction t with
  | nil => exact ⟨[], [], rfl⟩
  | cons ch rest ih =>
    obtain ⟨line, lines, h⟩ := ih
    by_cases hc : ch = '\n'
    · exact ⟨[], splitNL rest, by simp [splitNL, hc]⟩
    · exact ⟨ch :: line, lines, by simp [splitNL, hc, h]⟩

theorem joinNL_append_cons (x y : List Char) (lines : List (List Char)) :
    joinNL ((x ++ y) :: lines) = x ++ joinNL (y :: lines) := by
  cases lines <;> simp [joinNL]

theorem joinNL_splitNL (t : List Char) : joinNL (splitNL t) = t := by
  induction t with
  | nil => rfl
  | cons ch rest ih =>
    obtain ⟨line, lines, h⟩ := splitNL_ne_nil rest
    by_cases hc : ch = '\n'
    · rw [show splitNL (ch :: rest) = [] :: line :: lines by simp [splitNL, hc, h],
        show joinNL ([] :: line :: lines) = '\n' :: joinNL (line :: lines) from rfl, ← h, ih, hc]
    · rw [show splitNL (ch :: rest) = ([ch] ++ line) :: lines by simp [splitNL, hc, h],
        joinNL_append_cons, ← h, ih]
      rfl

/-- The replacement for `DiffLineStart`, line by line: every line that has a character gets the
marker, and right after a character of a line (`pending = false`) the rest of that line gets
none. -/
theorem lineStartReplace_eq_lines (marker : List Char) :
    ∀ (t : List Char),
      lineStartReplace marker true t = joinNL ((splitNL t).map (markLine marker)) ∧
      ∀ line lines, splitNL t = line :: lines →
        lineStartReplace marker false t = joinNL (line :: lines.map (markLine marker)) := by
  intro t
  induction t with
  | nil =>
    refine ⟨rfl, ?_⟩
    intro line lines h
    simp only [splitNL, List.cons.injEq] at h
    obtain ⟨rfl, rfl⟩ := h
    rfl
  | cons ch rest ih =>
    obtain ⟨line0, lines0, h0⟩ := splitNL_ne_nil rest
    by_cases hc : ch = '\n'
    · have hsplit : splitNL (ch :: rest) = [] :: line0 :: lines0 := by simp [splitNL, hc, h0]
      have hrest : lineStartReplace marker true rest
          = joinNL (markLine marker line0 :: lines0.map (markLine marker)) := by
        rw [ih.1, h0]; rfl
      refine ⟨?_, ?_⟩
      · rw [hsplit]
        simp [lineStartReplace, hc, hrest, joinNL, markLine]
      · intro line lines h
        rw [hsplit, List.cons.injEq] at h
        obtain ⟨rfl, rfl⟩ := h
        simp [lineStartReplace, hc, hrest, joinNL]
    · have hsplit : splitNL (ch :: rest) = (ch :: line0) :: lines0 := by
        simp [splitNL, hc, h0]
      have hrest := ih.2 line0 lines0 h0
      refine ⟨?_, ?_⟩
      · rw [hsplit]
        simp only [lineStartReplace, hc, if_false, if_true, hrest, List.map_cons, markLine,
          List.isEmpty_cons, Bool.false_eq_true]
        rw [show marker ++ ch :: line0 = (marker ++ [ch]) ++ line0 by simp,
          joinNL_append_cons]
        simp
      · intro line lines h
        rw [hsplit, List.cons.injEq] at h
        obtain ⟨rfl, rfl⟩ := h
        simp only [lineStartReplace, hc, if_false, hrest, Bool.false_eq_true]
        rw [show ch :: line0 = [ch] ++ line0 from rfl, joinNL_append_cons]
        rfl

theorem formatDiff_single (t : String) :
    formatDiff [⟨.DiffInsert, t⟩] false false = String.mk (lineStartReplace "+ ".data true t.data) ∧
    formatDiff [⟨.DiffDelete, t⟩] false false = String.mk (lineStartReplace "- ".data true t.data) ∧
    formatDiff [⟨.DiffEqual, t⟩] false false = String.mk (lineStartReplace "  ".data true t.data)
    := by
  refine ⟨?_, ?_, ?_⟩ <;> simp [formatDiff]

/-- What `formatDiff` does with the lines of one segment, color and redaction off: the lines of
the text `t` are put together with the newlines of `t`, a line that has a character with the
marker before it and a line that has none as it is. -/
theorem formatDiff_single_lines (t : String) :
    formatDiff [⟨.DiffInsert, t⟩] false false =
      String.mk (joinNL ((splitNL t.data).map (markLine "+ ".data))) ∧
    formatDiff [⟨.DiffDelete, t⟩] false false =
      String.mk (joinNL ((splitNL t.data).map (markLine "- ".data))) ∧
    formatDiff [⟨.DiffEqual, t⟩] false false =
      String.mk (joinNL ((splitNL t.data).map (markLine "  ".data))) ∧
    joinNL (splitNL t.data) = t.data ∧
    ((∀ line ∈ splitNL t.data, line ≠ []) →
      formatDiff [⟨.DiffInsert, t⟩] false false = String.mk (markEveryLine "+ ".data t.data) ∧
      formatDiff [⟨.DiffDelete, t⟩] false false = String.mk (markEveryLine "- ".data t.data) ∧
      formatDiff [⟨.DiffEqual, t⟩] false false = String.mk (markEveryLine "  ".data t.data)) := by
  obtain ⟨h1, h2, h3⟩ := formatDiff_single t
  rw [h1, h2, h3, (lineStartReplace_eq_lines _ _).1, (lineStartReplace_eq_lines _ _).1,
    (lineStartReplace_eq_lines _ _).1]
  refine ⟨rfl, rfl, rfl, joinNL_splitNL _, ?_⟩
  intro hall
  have hmap : ∀ (marker : List Char),
      (splitNL t.data).map (markLine marker) = (splitNL t.data).map (marker ++ ·) := by
    intro marker
    apply List.map_congr_left
    intro line hline
    have := hall line hline
    cases line with
    | nil => exact absurd rfl this
    | cons a l => simp [markLine]
  simp [markEveryLine, hmap]

/-- C11 at the input `a\n\nb\n`, a text whose second line has no character. The claim, and the
comment on `DiffLineStart` ("matches all the line starts on a diff text, which is where we put
diff markers and indent"), have the marker at the start of every line, the empty one included:
`+ a\n+ \n+ b\n` and whatever follows the last newline. `formatDiff` renders the Insert segment
as `+ a\n\n+ b\n`: the expression `(^|\n)(.)` asks for a character other than a newline after the
line start, and the empty line is left without marker. Likewise for Delete and Equal. -/
theorem line_prefixing_empty_line :
    splitNL "a\n\nb\n".data = ["a".data, [], "b".data, []] ∧
    formatDiff [⟨.DiffInsert, "a\n\nb\n"⟩] false false = "+ a\n\n+ b\n" ∧
    formatDiff [⟨.DiffDelete, "a\n\nb\n"⟩] false false = "- a\n\n- b\n" ∧
    formatDiff [⟨.DiffEqual, "a\n\nb\n"⟩] false false = "  a\n\n  b\n" ∧
    String.mk (markEveryLine "+ ".data "a\n\nb\n".data) = "+ a\n+ \n+ b\n+ " ∧
    ¬ ("+ a\n+ \n+ b\n".data <+: (formatDiff [⟨.DiffInsert, "a\n\nb\n"⟩] false false).data) := by
  refine ⟨?_, ?_, ?_, ?_, ?_, ?_⟩ <;> decide

/-! ## C12: renderer round-trip -/

theorem linesOf_eq_nil {t : List Char} (h : linesOf t = []) : t = [] := by
  cases t with
  | nil => rfl
  | cons ch rest =>
    by_cases hc : ch = '\n'
    · simp [linesOf, hc] at h
    · simp only [linesOf, hc, if_false] at h
      cases hr : linesOf rest <;> simp [hr] at h

theorem linesOf_cons_of_ne {ch : Char} (hc : ch ≠ '\n') (rest : List Char) :
    linesOf (ch :: rest) =
      match linesOf rest with
      | [] => [[ch]]
      | line :: lines => (ch :: line) :: lines := by
  simp [linesOf, hc]

theorem linesOf_newline_cons (rest : List Char) :
    linesOf ('\n' :: rest) = ['\n'] :: linesOf rest := by
  simp [linesOf]

theorem flatten_linesOf (t : List Char) : (linesOf t).flatten = t := by
  induction t with
  | nil => rfl
  | cons ch rest ih =>
    by_cases hc : ch = '\n'
    · subst hc
      rw [linesOf_newline_cons]
      simp [ih]
    · rw [linesOf_cons_of_ne hc]
      cases hr : linesOf rest with
      | nil =>
        rw [linesOf_eq_nil hr]
        rfl
      | cons line lines =>
        rw [hr] at ih
        simp only [List.flatten_cons] at ih ⊢
        rw [List.cons_append, ih]

theorem endsLine_cons_cons (a b : Char) (rest : List Char) :
    endsLine (a :: b :: rest) = endsLine (b :: rest) := rfl

/-- Lines do not run across the end of a text that ends where a line ends. -/
theorem linesOf_append (y : List Char) :
    ∀ (x : List Char), endsLine x = true → linesOf (x ++ y) = linesOf x ++ linesOf y := by
  intro x
  induction x with
  | nil => intro _; rfl
  | cons ch rest ih =>
    intro h
    by_cases hc : ch = '\n'
    · subst hc
      have hrest : endsLine rest = true := by
        cases rest with
        | nil => rfl
        | cons b more => rw [endsLine_cons_cons] at h; exact h
      rw [List.cons_append, linesOf_newline_cons, linesOf_newline_cons, ih hrest]
      rfl
    · cases rest with
      | nil => simp [endsLine, hc] at h
      | cons b more =>
        rw [endsLine_cons_cons] at h
        rw [List.cons_append, linesOf_cons_of_ne hc, linesOf_cons_of_ne hc, ih h]
        cases hr : linesOf (b :: more) with
        | nil => cases linesOf_eq_nil hr
        | cons line lines => rfl

theorem linesOf_lineStartReplace (a : Char) (ha : a ≠ '\n') :
    ∀ (t : List Char),
      (noEmptyLine t = true →
        linesOf (lineStartReplace [a, ' '] true t) = (linesOf t).map ([a, ' '] ++ ·)) ∧
      (∀ line lines, linesOf t = line :: lines → (∀ x ∈ lines, x ≠ ['\n']) →
        linesOf (lineStartReplace [a, ' '] false t) = line :: lines.map ([a, ' '] ++ ·)) := by
  have hsp : ' ' ≠ '\n' := by decide
  intro t
  induction t with
  | nil =>
    refine ⟨fun _ => rfl, ?_⟩
    intro line lines h
    simp [linesOf] at h
  | cons ch rest ih =>
    by_cases hc : ch = '\n'
    · subst hc
      refine ⟨?_, ?_⟩
      · intro h
        simp [noEmptyLine, linesOf_newline_cons] at h
      · intro line lines h hlines
        rw [linesOf_newline_cons, List.cons.injEq] at h
        obtain ⟨rfl, rfl⟩ := h
        have hrest : noEmptyLine rest = true := by
          simp only [noEmptyLine, List.all_eq_true]
          intro x hx
          simpa using hlines x hx
        have := ih.1 hrest
        simp only [lineStartReplace, if_true]
        rw [linesOf_newline_cons, this]
    · cases hr : linesOf rest with
      | nil =>
        have hnil := linesOf_eq_nil hr
        subst hnil
        refine ⟨?_, ?_⟩
        · intro _
          simp [lineStartReplace, hc, linesOf, ha]
        · intro line lines h _
          rw [linesOf_cons_of_ne hc, hr, List.cons.injEq] at h
          obtain ⟨rfl, rfl⟩ := h
          simp [lineStartReplace, hc, linesOf]
      | cons l ls =>
        refine ⟨?_, ?_⟩
        · intro h
          have hls : ∀ x ∈ ls, x ≠ ['\n'] := by
            simp only [noEmptyLine, linesOf_cons_of_ne hc, hr, List.all_eq_true] at h
            intro x hx
            simpa using h x (List.mem_cons_of_mem _ hx)
          have h2 := ih.2 l ls hr hls
          simp only [lineStartReplace, hc, if_false, if_true, List.cons_append, List.nil_append]
          rw [linesOf_cons_of_ne ha, linesOf_cons_of_ne hsp, linesOf_cons_of_ne hc, h2,
            linesOf_cons_of_ne hc, hr]
          rfl
        · intro line lines h hlines
          rw [linesOf_cons_of_ne hc, hr, List.cons.injEq] at h
          obtain ⟨rfl, rfl⟩ := h
          have h2 := ih.2 l ls hr hlines
          simp only [lineStartReplace, hc, if_false, Bool.false_eq_true]
          rw [linesOf_cons_of_ne hc, h2]

theorem endsLine_append_of_ne_nil :
    ∀ (x y : List Char), y ≠ [] → endsLine (x ++ y) = endsLine y := by
  intro x
  induction x with
  | nil => intro y _; rfl
  | cons a rest ih =>
    intro y hy
    cases hxy : rest ++ y with
    | nil =>
      have := List.append_eq_nil.1 hxy
      exact absurd this.2 hy
    | cons b more =>
      rw [List.cons_append, hxy, endsLine_cons_cons, ← hxy]
      exact ih y hy

theorem lineStartReplace_ne_nil (marker : List Char) (pending : Bool) (ch : Char)
    (rest : List Char) : lineStartReplace marker pending (ch :: rest) ≠ [] := by
  simp only [lineStartReplace]
  split
  · simp
  · split <;> simp

/-- The rendering of a text that ends where a line ends does so too. -/
theorem endsLine_lineStartReplace (marker : List Char) :
    ∀ (t : List Char) (pending : Bool), endsLine t = true →
      endsLine (lineStartReplace marker pending t) = true := by
  intro t
  induction t with
  | nil => intro _ _; rfl
  | cons ch rest ih =>
    intro pending h
    cases rest with
    | nil =>
      have hc : ch = '\n' := by simpa [endsLine] using h
      subst hc
      simp [lineStartReplace, endsLine]
    | cons b more =>
      rw [endsLine_cons_cons] at h
      have step : ∀ (pre : List Char) (p : Bool),
          endsLine (pre ++ lineStartReplace marker p (b :: more)) = true := by
        intro pre p
        rw [endsLine_append_of_ne_nil _ _ (lineStartReplace_ne_nil marker p b more)]
        exact ih p h
      by_cases hc : ch = '\n'
      · have := step [ch] true
        simpa [lineStartReplace, hc] using this
      · cases pending with
        | true =>
          have := step (marker ++ [ch]) false
          simpa [lineStartReplace, hc] using this
        | false =>
          have := step [ch] false
          simpa [lineStartReplace, hc] using this

theorem readSide_append (mark : Char) (x y : List Char) (h : endsLine x = true ∨ y = []) :
    readSide mark (x ++ y) = readSide mark x ++ readSide mark y := by
  rcases h with h | h
  · simp [readSide, linesOf_append y x h]
  · subst h
    simp [readSide, linesOf]

/-- The lines of the rendering of one segment, read back: the text of the segment when its
marker is the one of the side or the blank, and nothing otherwise. -/
theorem readSide_lineStartReplace (mark a : Char) (ha : a ≠ '\n') (t : List Char)
    (h : noEmptyLine t = true) :
    readSide mark (lineStartReplace [a, ' '] true t) = if a = mark ∨ a = ' ' then t else [] := by
  unfold readSide
  rw [(linesOf_lineStartReplace a ha t).1 h, List.filter_map]
  by_cases hk : a = mark ∨ a = ' '
  · have hall : (linesOf t).filter
        ((fun line => decide (line.head? = some mark) || decide (line.head? = some ' ')) ∘
          ([a, ' '] ++ ·)) = linesOf t := by
      rw [List.filter_eq_self]
      intro line _
      rcases hk with hk | hk <;> simp [hk]
    rw [hall, if_pos hk, List.map_map]
    have hid : (List.drop 2 ∘ fun (x : List Char) => [a, ' '] ++ x) = id := by
      funext x; rfl
    rw [hid, List.map_id, flatten_linesOf]
  · have hnone : (linesOf t).filter
        ((fun line => decide (line.head? = some mark) || decide (line.head? = some ' ')) ∘
          ([a, ' '] ++ ·)) = [] := by
      rw [List.filter_eq_nil_iff]
      intro line _
      simp only [not_or] at hk
      simp [hk.1, hk.2]
    rw [hnone, if_neg hk]
    rfl

theorem readSide_formatDiff_single (d : Diff) (h : noEmptyLine d.Text.data = true) :
    readSide '+' (formatDiff [d] false false).data
      = (if d.Typ = .DiffDelete then [] else d.Text.data) ∧
    readSide '-' (formatDiff [d] false false).data
      = (if d.Typ = .DiffInsert then [] else d.Text.data) := by
  obtain ⟨typ, text⟩ := d
  obtain ⟨h1, h2, h3⟩ := formatDiff_single text
  simp only at h
  cases typ
  · rw [h2]
    exact ⟨(readSide_lineStartReplace '+' '-' (by decide) text.data h).trans (by simp),
      (readSide_lineStartReplace '-' '-' (by decide) text.data h).trans (by simp)⟩
  · rw [h1]
    exact ⟨(readSide_lineStartReplace '+' '+' (by decide) text.data h).trans (by simp),
      (readSide_lineStartReplace '-' '+' (by decide) text.data h).trans (by simp)⟩
  · rw [h3]
    exact ⟨(readSide_lineStartReplace '+' ' ' (by decide) text.data h).trans (by simp),
      (readSide_lineStartReplace '-' ' ' (by decide) text.data h).trans (by simp)⟩

theorem endsLine_formatDiff_single (d : Diff) (h : endsLine d.Text.data = true) :
    endsLine (formatDiff [d] false false).data = true := by
  obtain ⟨typ, text⟩ := d
  obtain ⟨h1, h2, h3⟩ := formatDiff_single text
  cases typ
  · rw [h2]; exact endsLine_lineStartReplace _ _ _ h
  · rw [h1]; exact endsLine_lineStartReplace _ _ _ h
  · rw [h3]; exact endsLine_lineStartReplace _ _ _ h

/-- The two sides read back from the rendering of segments made of whole lines, none of them
without a character. -/
theorem readSide_formatDiff :
    ∀ (diffs : List Diff), wholeLines diffs = true →
      (∀ d ∈ diffs, noEmptyLine d.Text.data = true) →
      readSide '+' (formatDiff diffs false false).data = (configSide diffs).data ∧
      readSide '-' (formatDiff diffs false false).data = (liveSide diffs).data := by
  intro diffs
  induction diffs with
  | nil => intro _ _; exact ⟨rfl, rfl⟩
  | cons d rest ih =>
    intro hwhole hlines
    have hrest : wholeLines rest = true := by
      cases rest with
      | nil => rfl
      | cons d' rest' =>
        simp only [wholeLines, Bool.and_eq_true] at hwhole
        exact hwhole.2
    have hsplit : endsLine (formatDiff [d] false false).data = true ∨
        (formatDiff rest false false).data = [] := by
      cases rest with
      | nil => exact Or.inr rfl
      | cons d' rest' =>
        simp only [wholeLines, Bool.and_eq_true] at hwhole
        exact Or.inl (endsLine_formatDiff_single d hwhole.1)
    obtain ⟨ih1, ih2⟩ := ih hrest (fun x hx => hlines x (List.mem_cons_of_mem _ hx))
    obtain ⟨hd1, hd2⟩ := readSide_formatDiff_single d (hlines d (List.mem_cons_self _ _))
    rw [formatDiff_cons, String.data_append, readSide_append _ _ _ hsplit,
      readSide_append _ _ _ hsplit, ih1, ih2, hd1, hd2]
    constructor
    · by_cases hd : d.Typ = .DiffDelete <;> simp [configSide, hd]
    · by_cases hd : d.Typ = .DiffInsert <;> simp [liveSide, hd]

/-- C12, amended: renderer round-trip for segments made of whole lines. For every sequence of
diff segments in which the text of every segment that has a segment after it ends where a line
ends (it is empty or ends with a newline) and no line of a segment text is without a character,
rendered by `formatDiff` with color off and redaction off: the lines of the rendering that start
with `+` or with a blank, each without the two characters of its marker, concatenate to the
Insert and Equal texts (the declared text), and the lines that start with `-` or with a blank,
each without its marker, concatenate to the Delete and Equal texts (the live text). -/
theorem renderer_round_trip (diffs : List Diff) (hwhole : wholeLines diffs = true)
    (hlines : ∀ d ∈ diffs, noEmptyLine d.Text.data = true) :
    String.mk (readSide '+' (formatDiff diffs false false).data) = configSide diffs ∧
    String.mk (readSide '-' (formatDiff diffs false false).data) = liveSide diffs := by
  obtain ⟨h1, h2⟩ := readSide_formatDiff diffs hwhole hlines
  rw [h1, h2]
  exact ⟨rfl, rfl⟩

/-- C12, amended, at a concrete input: the segments of the line diff of `{"b": 2}` (live) and
`{"a": 1}` (declared), whose last segment is the closing line without a newline; the two texts
are read back from the lines of the rendering. -/
theorem renderer_round_trip_witness :
    formatDiff [⟨.DiffEqual, "\x7b\n"⟩, ⟨.DiffDelete, "  \"b\": 2\n"⟩,
      ⟨.DiffInsert, "  \"a\": 1\n"⟩, ⟨.DiffEqual, "\x7d"⟩] false false
      = "  \x7b\n-   \"b\": 2\n+   \"a\": 1\n  \x7d" ∧
    String.mk (readSide '+' "  \x7b\n-   \"b\": 2\n+   \"a\": 1\n  \x7d".data)
      = "\x7b\n  \"a\": 1\n\x7d" ∧
    String.mk (readSide '-' "  \x7b\n-   \"b\": 2\n+   \"a\": 1\n  \x7d".data)
      = "\x7b\n  \"b\": 2\n\x7d" :=
  ⟨by decide,
    (renderer_round_trip [⟨.DiffEqual, "\x7b\n"⟩, ⟨.DiffDelete, "  \"b\": 2\n"⟩,
      ⟨.DiffInsert, "  \"a\": 1\n"⟩, ⟨.DiffEqual, "\x7d"⟩] (by decide) (by decide)).1,
    (renderer_round_trip [⟨.DiffEqual, "\x7b\n"⟩, ⟨.DiffDelete, "  \"b\": 2\n"⟩,
      ⟨.DiffInsert, "  \"a\": 1\n"⟩, ⟨.DiffEqual, "\x7d"⟩] (by decide) (by decide)).2⟩

/-- C12 as stated fails where a segment that has a segment after it does not end with a newline.
The line diff of the live text `{}` and the declared text `{`, `  "a": 1`, `}` is a Delete of the
first and an Insert of the second; the rendering is `- {}+ {`, `+   "a": 1`, `+ }`, whose first
line holds the Delete text and the first Insert line, under the marker of the Delete. Read back
by lines, the declared side misses its first line and the live side has it. No way of reading
can do better: a Delete of `{}` followed by an Insert of `{`, and the single Delete of `{}+ {`,
have the same rendering and different declared texts. -/
theorem renderer_round_trip_counterexample :
    exampleDiffLines "\x7b\x7d" "\x7b\n  \"a\": 1\n\x7d"
      = [⟨.DiffDelete, "\x7b\x7d"⟩, ⟨.DiffInsert, "\x7b\n  \"a\": 1\n\x7d"⟩] ∧
    formatDiff [⟨.DiffDelete, "\x7b\x7d"⟩, ⟨.DiffInsert, "\x7b\n  \"a\": 1\n\x7d"⟩] false false
      = "- \x7b\x7d+ \x7b\n+   \"a\": 1\n+ \x7d" ∧
    configSide [⟨.DiffDelete, "\x7b\x7d"⟩, ⟨.DiffInsert, "\x7b\n  \"a\": 1\n\x7d"⟩]
      = "\x7b\n  \"a\": 1\n\x7d" ∧
    liveSide [⟨.DiffDelete, "\x7b\x7d"⟩, ⟨.DiffInsert, "\x7b\n  \"a\": 1\n\x7d"⟩] = "\x7b\x7d" ∧
    String.mk (readSide '+' (formatDiff
      [⟨.DiffDelete, "\x7b\x7d"⟩, ⟨.DiffInsert, "\x7b\n  \"a\": 1\n\x7d"⟩] false false).data)
      = "  \"a\": 1\n\x7d" ∧
    String.mk (readSide '-' (formatDiff
      [⟨.DiffDelete, "\x7b\x7d"⟩, ⟨.DiffInsert, "\x7b\n  \"a\": 1\n\x7d"⟩] false false).data)
      = "\x7b\x7d+ \x7b\n" ∧
    formatDiff [⟨.DiffDelete, "\x7b\x7d"⟩, ⟨.DiffInsert, "\x7b"⟩] false false
      = formatDiff [⟨.DiffDelete, "\x7b\x7d+ \x7b"⟩] false false ∧
    configSide [⟨.DiffDelete, "\x7b\x7d"⟩, ⟨.DiffInsert, "\x7b"⟩]
      ≠ configSide [⟨.DiffDelete, "\x7b\x7d+ \x7b"⟩] := by
  refine ⟨?_, ?_, ?_, ?_, ?_, ?_, ?_, ?_⟩ <;> decide

/-! ## C20: redaction is limited to the values of the pattern -/

/-- A text no substring of which matches `DiffKeyValue` is left as it is by the replacement. -/
theorem keyValueReplace_of_no_match :
    ∀ (t : List Char), hasKeyValueMatch t = false → keyValueReplace 0 t = t := by
  intro t
  induction t with
  | nil => intro _; rfl
  | cons ch rest ih =>
    intro h
    simp only [hasKeyValueMatch, Bool.or_eq_false_iff] at h
    cases hm : matchKeyValue (ch :: rest) with
    | none => simp [keyValueReplace, hm, ih h.2]
    | some r => simp [hm] at h

theorem formatDiff_single_of_no_match (d : Diff) (color : Bool)
    (h : hasKeyValueMatch d.Text.data = false) (hd : d.Typ ≠ .DiffEqual) :
    formatDiff [d] color true = formatDiff [d] color false := by
  obtain ⟨typ, text⟩ := d
  cases typ
  · simp [formatDiff, keyValueReplace_of_no_match _ h]
  · simp [formatDiff, keyValueReplace_of_no_match _ h]
  · exact absurd rfl hd

/-- C20: redaction is limited to the values of the pattern. For a segment sequence whose Insert
and Delete texts have no substring matching `DiffKeyValue`, `formatDiff` with `omitchanges = true`
renders the Insert and Delete segments exactly as with `omitchanges = false` (the Equal segments
it leaves out). -/
theorem redaction_limited (diffs : List Diff) (color : Bool)
    (h : ∀ d ∈ diffs, d.Typ ≠ .DiffEqual → hasKeyValueMatch d.Text.data = false) :
    formatDiff diffs color true =
      formatDiff (diffs.filter (fun d => d.Typ ≠ .DiffEqual)) color false := by
  induction diffs with
  | nil => rfl
  | cons d rest ih =>
    have ih' := ih (fun x hx => h x (List.mem_cons_of_mem _ hx))
    rw [formatDiff_cons]
    by_cases hd : d.Typ = .DiffEqual
    · obtain ⟨typ, text⟩ := d
      simp only at hd
      subst hd
      rw [List.filter_cons_of_neg (by simp), (formatDiff_equal text color).1, ih']
      simp
    · rw [List.filter_cons_of_pos (by simp [hd]), formatDiff_cons _ (List.filter _ rest), ih',
        formatDiff_single_of_no_match d color (h d (List.mem_cons_self _ _) hd) hd]

/-- C20 at a concrete input: the value of `token` has a `/`, which is outside of the class of
the pattern, so the line is rendered with its value under redaction, and two such lines that
differ in the value only are rendered differently. -/
theorem redaction_limited_witness :
    hasKeyValueMatch "  \"token\": \"ab/c\"\n".data = false ∧
    formatDiff [⟨.DiffEqual, "\x7b\n"⟩, ⟨.DiffInsert, "  \"token\": \"ab/c\"\n"⟩] false true
      = "+   \"token\": \"ab/c\"\n" ∧
    formatDiff [⟨.DiffEqual, "\x7b\n"⟩, ⟨.DiffInsert, "  \"token\": \"ab/d\"\n"⟩] false true
      = "+   \"token\": \"ab/d\"\n" ∧
    ("+   \"token\": \"ab/c\"\n" : String) ≠ "+   \"token\": \"ab/d\"\n" := by
  refine ⟨by decide, ?_, ?_, by decide⟩
  · rw [redaction_limited [⟨.DiffEqual, "\x7b\n"⟩, ⟨.DiffInsert, "  \"token\": \"ab/c\"\n"⟩] false
      (by
        intro d hd hne
        simp only [List.mem_cons, List.mem_singleton, List.not_mem_nil, or_false] at hd
        rcases hd with rfl | rfl
        · exact absurd rfl hne
        · decide)]
    decide
  · decide

/-! ## The matcher of `DiffKeyValue` and the form it matches -/

theorem isKeyChar_dquote : isKeyChar dquote = false := by decide

theorem isValueChar_dquote : isValueChar dquote = false := by decide

/-- A match starts with the quote. -/
theorem matchKeyValue_head {ch : Char} {rest : List Char} {r : List Char × Nat}
    (h : matchKeyValue (ch :: rest) = some r) : ch = dquote := by
  simp only [matchKeyValue] at h
  split at h
  · split at h
    · split at h
      · rename_i hc
        exact hc.1
      · cases h
    · cases h
  · cases h

/-- What the matcher accepts has the form of `DiffKeyValue`. -/
theorem matchKeyValue_sound {text : List Char} {key : List Char} {n : Nat}
    (h : matchKeyValue text = some (key, n)) :
    ∃ sp value rest, IsKeyValue key sp value ∧ text = keyValueCore key sp value ++ rest ∧
      n = (keyValueCore key sp value).length + (if rest.head? = some ',' then 1 else 0) := by
  cases text with
  | nil => simp [matchKeyValue] at h
  | cons q1 t1 =>
    simp only [matchKeyValue] at h
    split at h
    · rename_i q2 colon sp q3 t2 hk
      split at h
      · rename_i q4 t3 hv
        split at h
        · rename_i hc
          obtain ⟨h1, h2, h3, h4, h5, h6, h7, h8⟩ := hc
          simp only [Option.some.injEq, Prod.mk.injEq] at h
          obtain ⟨hkey, hn⟩ := h
          have ht1 : t1 = key ++ q2 :: colon :: sp :: q3 :: t2 := by
            rw [← hkey, ← hk]; exact (List.takeWhile_append_dropWhile _ _).symm
          have ht2 : t2 = List.takeWhile isValueChar t2 ++ q4 :: t3 := by
            rw [← hv]; exact (List.takeWhile_append_dropWhile _ _).symm
          refine ⟨sp, List.takeWhile isValueChar t2, t3, ⟨?_, ?_, h5, h7, ?_⟩, ?_, ?_⟩
          · rw [← hkey]; exact h2
          · intro ch hch
            rw [← hkey] at hch
            exact List.mem_takeWhile_imp hch
          · intro ch hch
            exact List.mem_takeWhile_imp hch
          · rw [ht1, h1, h3, h4, h6]
            conv_lhs => rw [ht2]
            rw [h8]
            simp [keyValueCore]
          · rw [← hn, ← hkey]
            simp [keyValueCore]
            omega
        · cases h
      · cases h
    · cases h

/-- A text that starts with the form of `DiffKeyValue` is accepted by the matcher, with the key
of the form and the length of the form, a comma after it counted in. -/
theorem matchKeyValue_complete {key value : List Char} {sp : Char}
    (h : IsKeyValue key sp value) (rest : List Char) :
    matchKeyValue (keyValueCore key sp value ++ rest) =
      some (key, (keyValueCore key sp value).length +
        (if rest.head? = some ',' then 1 else 0)) := by
  obtain ⟨hk, hkall, hsp, hv, hvall⟩ := h
  have e1 : ∀ (tl : List Char), List.takeWhile isKeyChar (key ++ dquote :: tl) = key := by
    intro tl
    rw [List.takeWhile_append_of_pos hkall]
    simp [isKeyChar_dquote]
  have e2 : ∀ (tl : List Char), List.dropWhile isKeyChar (key ++ dquote :: tl) = dquote :: tl := by
    intro tl
    rw [List.dropWhile_append_of_pos hkall]
    simp [isKeyChar_dquote]
  have e3 : ∀ (tl : List Char), List.takeWhile isValueChar (value ++ dquote :: tl) = value := by
    intro tl
    rw [List.takeWhile_append_of_pos hvall]
    simp [isValueChar_dquote]
  have e4 : ∀ (tl : List Char),
      List.dropWhile isValueChar (value ++ dquote :: tl) = dquote :: tl := by
    intro tl
    rw [List.dropWhile_append_of_pos hvall]
    simp [isValueChar_dquote]
  have hshape : keyValueCore key sp value ++ rest =
      dquote :: (key ++ dquote :: ':' :: sp :: dquote :: (value ++ dquote :: rest)) := by
    simp [keyValueCore]
  rw [hshape]
  simp only [matchKeyValue, e1, e2, e3, e4]
  simp [hk, hv, hsp, keyValueCore]
  omega

/-! ## Texts that can be the rest of a match -/

theorem unbroken_cons_cons (x y : Char) (rest : List Char) :
    unbroken (x :: y :: rest) = (okPair x y && unbroken (y :: rest)) := rfl

theorem unbroken_tail {x : Char} {rest : List Char} (h : unbroken (x :: rest) = true) :
    unbroken rest = true := by
  cases rest with
  | nil => rfl
  | cons y more =>
    simp only [unbroken, Bool.and_eq_true] at h
    exact h.2

theorem unbroken_single {x : Char} (h : unbroken [x] = true) : x = dquote := by
  simpa [unbroken] using h

theorem unbroken_pair {x y : Char} {rest : List Char} (h : unbroken (x :: y :: rest) = true) :
    okPair x y = true := by
  simp only [unbroken, Bool.and_eq_true] at h
  exact h.1

theorem isSpaceChar_cases {ch : Char} (h : isSpaceChar ch = true) :
    ch = '\t' ∨ ch = '\n' ∨ ch = Char.ofNat 12 ∨ ch = '\r' ∨ ch = ' ' := by
  simpa [isSpaceChar, or_assoc] using h

theorem isKeyChar_not_space {ch : Char} (h : isKeyChar ch = true) : isSpaceChar ch = false := by
  cases hs : isSpaceChar ch with
  | false => rfl
  | true =>
    rcases isSpaceChar_cases hs with e | e | e | e | e <;> subst e <;> revert h <;> decide

theorem isValueChar_not_space {ch : Char} (h : isValueChar ch = true) :
    isSpaceChar ch = false := by
  cases hs : isSpaceChar ch with
  | false => rfl
  | true =>
    rcases isSpaceChar_cases hs with e | e | e | e | e <;> subst e <;> revert h <;> decide

theorem okPair_of_key {x y : Char} (hx : isKeyChar x = true) (hy : y ≠ ' ') :
    okPair x y = true := by
  have h1 : x ≠ escChar := by intro e; subst e; revert hx; decide
  simp [okPair, h1, isKeyChar_not_space hx, hy]

theorem okPair_of_value {x y : Char} (hx : isValueChar x = true) (hy : y ≠ ' ') :
    okPair x y = true := by
  have h1 : x ≠ escChar := by intro e; subst e; revert hx; decide
  simp [okPair, h1, isValueChar_not_space hx, hy]

theorem okPair_of_space {x : Char} (hx : isSpaceChar x = true) : okPair x dquote = true := by
  have h1 : x ≠ escChar := by intro e; subst e; revert hx; decide
  have h2 : dquote ≠ ' ' := by decide
  simp [okPair, h1, h2]

theorem okPair_dquote (y : Char) : okPair dquote y = true := by
  have h1 : dquote ≠ escChar := by decide
  have h2 : isSpaceChar dquote = false := by decide
  have h3 : dquote ≠ '+' := by decide
  have h4 : dquote ≠ '-' := by decide
  simp [okPair, h1, h2, h3, h4]

theorem okPair_colon (y : Char) : okPair ':' y = true := by
  have h1 : ':' ≠ escChar := by decide
  have h2 : isSpaceChar ':' = false := by decide
  simp [okPair, h1, h2]

/-- A run of characters that go well with each other and with the quote, before a text that
starts with the quote and can be the rest of a match. -/
theorem unbroken_run_append (P : Char → Bool)
    (hpair : ∀ x y, P x = true → y ≠ ' ' → okPair x y = true)
    (hblank : P ' ' = false) (tl : List Char) (htl : unbroken (dquote :: tl) = true) :
    ∀ (run : List Char), (∀ ch ∈ run, P ch = true) → unbroken (run ++ dquote :: tl) = true := by
  intro run
  induction run with
  | nil => intro _; exact htl
  | cons a r ih =>
    intro hall
    have ha := hall a (List.mem_cons_self _ _)
    have hr := ih (fun ch hch => hall ch (List.mem_cons_of_mem _ hch))
    cases r with
    | nil =>
      have : okPair a dquote = true := hpair a dquote ha (by decide)
      show unbroken (a :: dquote :: tl) = true
      rw [unbroken_cons_cons, this, htl]
      rfl
    | cons b r' =>
      have hb := hall b (List.mem_cons_of_mem _ (List.mem_cons_self _ _))
      have hne : b ≠ ' ' := by intro e; subst e; rw [hblank] at hb; cases hb
      have : okPair a b = true := hpair a b ha hne
      have hr' : unbroken (b :: (r' ++ dquote :: tl)) = true := hr
      show unbroken (a :: b :: (r' ++ dquote :: tl)) = true
      rw [unbroken_cons_cons, this, hr']
      rfl

/-- What follows the first quote of a text of the form of `DiffKeyValue` can be the rest of a
match. -/
theorem unbroken_core_tail {key value : List Char} {sp : Char} (h : IsKeyValue key sp value) :
    unbroken (key ++ dquote :: ':' :: sp :: dquote :: (value ++ [dquote])) = true := by
  obtain ⟨_, hkall, hsp, hv, hvall⟩ := h
  have hvalue : unbroken (value ++ [dquote]) = true :=
    unbroken_run_append isValueChar (fun x y hx hy => okPair_of_value hx hy) (by decide) []
      (by simp [unbroken]) value hvall
  have htl : unbroken (dquote :: ':' :: sp :: dquote :: (value ++ [dquote])) = true := by
    cases value with
    | nil => exact absurd rfl hv
    | cons v vs =>
      have hvalue' : unbroken (v :: (vs ++ [dquote])) = true := hvalue
      show unbroken (dquote :: ':' :: sp :: dquote :: v :: (vs ++ [dquote])) = true
      rw [unbroken_cons_cons, unbroken_cons_cons, unbroken_cons_cons, unbroken_cons_cons,
        okPair_dquote, okPair_colon, okPair_of_space hsp, okPair_dquote, hvalue']
      rfl
  exact unbroken_run_append isKeyChar (fun x y hx hy => okPair_of_key hx hy) (by decide) _ htl
    key hkall

theorem blocks_nil : Blocks [] := by
  intro rest _ h
  exact List.prefix_nil.1 h

/-- A text that starts with the escape character stops every match begun before it. -/
theorem blocks_esc (text : List Char) : Blocks (escChar :: text) := by
  intro rest hu hp
  rcases List.prefix_cons_iff.1 hp with e | ⟨t, e, _⟩
  · exact e
  · subst e
    cases t with
    | nil => exact absurd (unbroken_single hu) (by decide)
    | cons y more =>
      have := unbroken_pair hu
      simp [okPair] at this

/-- A text that starts with a `+` or a `-` and a blank stops every match begun before it. -/
theorem blocks_marker {m : Char} (hm : m = '+' ∨ m = '-') (text : List Char) :
    Blocks (m :: ' ' :: text) := by
  intro rest hu hp
  rcases List.prefix_cons_iff.1 hp with e | ⟨t, e, ht⟩
  · exact e
  · subst e
    rcases List.prefix_cons_iff.1 ht with e | ⟨t', e, _⟩
    · subst e
      have := unbroken_single hu
      rcases hm with h | h <;> subst h <;> exact absurd this (by decide)
    · subst e
      have := unbroken_pair hu
      rcases hm with h | h <;> subst h <;> simp [okPair] at this

/-- A newline before a text that stops every match stops every match. -/
theorem blocks_newline {text : List Char} (h : Blocks text) : Blocks ('\n' :: text) := by
  intro rest hu hp
  rcases List.prefix_cons_iff.1 hp with e | ⟨t, e, ht⟩
  · exact e
  · subst e
    have ht0 := h t (unbroken_tail hu) ht
    subst ht0
    exact absurd (unbroken_single hu) (by decide)

/-! ## No match of `DiffKeyValue` is left in the redacted text -/

theorem isKeyChar_ne_dquote {ch : Char} (h : isKeyChar ch = true) : ch ≠ dquote := by
  intro e; subst e; rw [isKeyChar_dquote] at h; cases h

theorem matchKeyValue_none_of_head {ch : Char} (h : ch ≠ dquote) (rest : List Char) :
    matchKeyValue (ch :: rest) = none := by
  cases hm : matchKeyValue (ch :: rest) with
  | none => rfl
  | some r => exact absurd (matchKeyValue_head hm) h

/-- The replacement text `<key>: <omitted>` stops every match begun before it. -/
theorem blocks_replacement (text : List Char) :
    ∀ (key : List Char), (∀ ch ∈ key, isKeyChar ch = true) →
      Blocks (key ++ ':' :: ' ' :: '<' :: text) := by
  intro key
  induction key with
  | nil =>
    intro _ rest hu hp
    rcases List.prefix_cons_iff.1 hp with e | ⟨t, e, ht⟩
    · exact e
    · subst e
      rcases List.prefix_cons_iff.1 ht with e | ⟨t', e, ht'⟩
      · subst e
        exact absurd (unbroken_single hu) (by decide)
      · subst e
        have hu' := unbroken_tail hu
        rcases List.prefix_cons_iff.1 ht' with e | ⟨t'', e, _⟩
        · subst e
          exact absurd (unbroken_single hu') (by decide)
        · subst e
          exact absurd (unbroken_pair hu') (by decide)
  | cons k ks ih =>
    intro hall rest hu hp
    rcases List.prefix_cons_iff.1 hp with e | ⟨t, e, ht⟩
    · exact e
    · subst e
      have ht0 := ih (fun ch hch => hall ch (List.mem_cons_of_mem _ hch)) t (unbroken_tail hu) ht
      subst ht0
      exact absurd (unbroken_single hu) (isKeyChar_ne_dquote (hall k (List.mem_cons_self _ _)))

/-- A text that can be the rest of a match and starts the redacted text starts the text
itself: it lies before the first replacement. -/
theorem keyValueReplace_transfer :
    ∀ (text rest : List Char), unbroken rest = true → rest <+: keyValueReplace 0 text →
      rest <+: text := by
  intro text
  induction text with
  | nil => intro rest _ h; simpa [keyValueReplace] using h
  | cons ch more ih =>
    intro rest hu hp
    cases hm : matchKeyValue (ch :: more) with
    | none =>
      simp only [keyValueReplace, hm] at hp
      rcases List.prefix_cons_iff.1 hp with e | ⟨t, e, ht⟩
      · subst e; exact List.nil_prefix
      · subst e
        exact (List.prefix_cons_inj ch).2 (ih t (unbroken_tail hu) ht)
    | some r =>
      obtain ⟨key, n⟩ := r
      obtain ⟨sp, value, tl, hkv, _, _⟩ := matchKeyValue_sound hm
      simp only [keyValueReplace, hm] at hp
      have hb := blocks_replacement ("omitted>".data ++ keyValueReplace (n - 1) more) key hkv.2.1
      have e := hb rest hu (by
        have : key ++ ": <omitted>".data ++ keyValueReplace (n - 1) more =
            key ++ ':' :: ' ' :: '<' :: ("omitted>".data ++ keyValueReplace (n - 1) more) := by
          simp
        rw [← this]; exact hp)
      subst e
      exact List.nil_prefix

/-- When no match starts a text, none starts the text made of its first character and of another
rest, if every possible rest of a match that starts the other rest starts the rest of the text. -/
theorem matchKeyValue_none_of_transfer {ch : Char} {more other : List Char}
    (hm : matchKeyValue (ch :: more) = none)
    (htr : ∀ rest, unbroken rest = true → rest <+: other → rest <+: more) :
    matchKeyValue (ch :: other) = none := by
  cases hm' : matchKeyValue (ch :: other) with
  | none => rfl
  | some r =>
    obtain ⟨key, n⟩ := r
    obtain ⟨sp, value, tl, hkv, htext, _⟩ := matchKeyValue_sound hm'
    have hch : ch = dquote := matchKeyValue_head hm'
    have hother : other = (key ++ dquote :: ':' :: sp :: dquote :: (value ++ [dquote])) ++ tl := by
      have : ch :: other =
          dquote :: ((key ++ dquote :: ':' :: sp :: dquote :: (value ++ [dquote])) ++ tl) := by
        rw [htext]; simp [keyValueCore]
      exact (List.cons.inj this).2
    obtain ⟨tl', htl'⟩ := htr _ (unbroken_core_tail hkv) ⟨tl, hother.symm⟩
    have hfull : ch :: more = keyValueCore key sp value ++ tl' := by
      rw [hch, ← htl']; simp [keyValueCore]
    rw [hfull, matchKeyValue_complete hkv] at hm
    cases hm

theorem hasKeyValueMatch_append_of_no_dquote (text : List Char) :
    ∀ (pre : List Char), (∀ ch ∈ pre, ch ≠ dquote) →
      hasKeyValueMatch (pre ++ text) = hasKeyValueMatch text := by
  intro pre
  induction pre with
  | nil => intro _; rfl
  | cons ch more ih =>
    intro hall
    have h1 := matchKeyValue_none_of_head (hall ch (List.mem_cons_self _ _)) (more ++ text)
    have h2 := ih (fun x hx => hall x (List.mem_cons_of_mem _ hx))
    simp [hasKeyValueMatch, h1, h2]

/-- No substring of the redacted text matches `DiffKeyValue`. -/
theorem hasKeyValueMatch_keyValueReplace :
    ∀ (text : List Char) (skip : Nat), hasKeyValueMatch (keyValueReplace skip text) = false := by
  intro text
  induction text with
  | nil => intro skip; cases skip <;> rfl
  | cons ch more ih =>
    intro skip
    cases skip with
    | succ k => simpa [keyValueReplace] using ih k
    | zero =>
      cases hm : matchKeyValue (ch :: more) with
      | none =>
        have h1 := matchKeyValue_none_of_transfer hm
          (fun rest hu hp => keyValueReplace_transfer more rest hu hp)
        simp [keyValueReplace, hm, hasKeyValueMatch, h1, ih 0]
      | some r =>
        obtain ⟨key, n⟩ := r
        obtain ⟨sp, value, tl, hkv, _, _⟩ := matchKeyValue_sound hm
        have hlit : ∀ x ∈ ": <omitted>".data, x ≠ dquote := by decide
        simp only [keyValueReplace, hm]
        rw [hasKeyValueMatch_append_of_no_dquote]
        · exact ih (n - 1)
        · intro x hx
          rcases List.mem_append.1 hx with h | h
          · exact isKeyChar_ne_dquote (hkv.2.1 x h)
          · exact hlit x h

/-! ## No match of `DiffKeyValue` is made by the markers and the colors -/

/-- The marked text, before a text that stops every match, stops every match: it starts with a
newline or with the marker. -/
theorem blocks_lineStartReplace {m : Char} (hm : m = '+' ∨ m = '-') {tail : List Char}
    (htail : Blocks tail) :
    ∀ (t : List Char), Blocks (lineStartReplace [m, ' '] true t ++ tail) := by
  intro t
  induction t with
  | nil => simpa [lineStartReplace] using htail
  | cons ch rest ih =>
    by_cases hc : ch = '\n'
    · subst hc
      have : lineStartReplace [m, ' '] true ('\n' :: rest) ++ tail =
          '\n' :: (lineStartReplace [m, ' '] true rest ++ tail) := by
        simp [lineStartReplace]
      rw [this]
      exact blocks_newline ih
    · have : lineStartReplace [m, ' '] true (ch :: rest) ++ tail =
          m :: ' ' :: (ch :: lineStartReplace [m, ' '] false rest ++ tail) := by
        simp [lineStartReplace, hc]
      rw [this]
      exact blocks_marker hm _

/-- A text that can be the rest of a match and starts the marked rest of a line, followed by a
text that stops every match, starts the unmarked text: it ends on the line. -/
theorem lineStartReplace_transfer {m : Char} (hm : m = '+' ∨ m = '-') {tail : List Char}
    (htail : Blocks tail) :
    ∀ (t rest : List Char), unbroken rest = true →
      rest <+: lineStartReplace [m, ' '] false t ++ tail → rest <+: t := by
  intro t
  induction t with
  | nil =>
    intro rest hu hp
    have : rest = [] := htail rest hu (by simpa [lineStartReplace] using hp)
    subst this
    exact List.nil_prefix
  | cons ch more ih =>
    intro rest hu hp
    by_cases hc : ch = '\n'
    · subst hc
      have hx : lineStartReplace [m, ' '] false ('\n' :: more) ++ tail =
          '\n' :: (lineStartReplace [m, ' '] true more ++ tail) := by
        simp [lineStartReplace]
      rw [hx] at hp
      have : rest = [] := blocks_newline (blocks_lineStartReplace hm htail more) rest hu hp
      subst this
      exact List.nil_prefix
    · have hx : lineStartReplace [m, ' '] false (ch :: more) ++ tail =
          ch :: (lineStartReplace [m, ' '] false more ++ tail) := by
        simp [lineStartReplace, hc]
      rw [hx] at hp
      rcases List.prefix_cons_iff.1 hp with e | ⟨t', e, ht'⟩
      · subst e; exact List.nil_prefix
      · subst e
        exact (List.prefix_cons_inj ch).2 (ih t' (unbroken_tail hu) ht')

/-- Marking a text that has no match, before a text that has none and stops every match, makes
no match. -/
theorem hasKeyValueMatch_lineStartReplace {m : Char} (hm : m = '+' ∨ m = '-')
    {tail : List Char} (htail : Blocks tail) (hno : hasKeyValueMatch tail = false) :
    ∀ (t : List Char), hasKeyValueMatch t = false → ∀ (pending : Bool),
      hasKeyValueMatch (lineStartReplace [m, ' '] pending t ++ tail) = false := by
  have hmq : m ≠ dquote := by rcases hm with h | h <;> subst h <;> decide
  intro t
  induction t with
  | nil => intro _ pending; simpa [lineStartReplace] using hno
  | cons ch more ih =>
    intro h pending
    simp only [hasKeyValueMatch, Bool.or_eq_false_iff] at h
    have hnone : matchKeyValue (ch :: more) = none := by
      cases hm' : matchKeyValue (ch :: more) with
      | none => rfl
      | some r => rw [hm'] at h; exact absurd h.1 (by simp)
    by_cases hc : ch = '\n'
    · subst hc
      have hx : lineStartReplace [m, ' '] pending ('\n' :: more) ++ tail =
          '\n' :: (lineStartReplace [m, ' '] true more ++ tail) := by
        simp [lineStartReplace]
      rw [hx]
      simp [hasKeyValueMatch, matchKeyValue_none_of_head (show '\n' ≠ dquote by decide),
        ih h.2 true]
    · have hcore : hasKeyValueMatch (ch :: (lineStartReplace [m, ' '] false more ++ tail))
          = false := by
        have h1 := matchKeyValue_none_of_transfer hnone
          (fun rest hu hp => lineStartReplace_transfer hm htail more rest hu hp)
        simp [hasKeyValueMatch, h1, ih h.2 false]
      cases pending with
      | false =>
        have hx : lineStartReplace [m, ' '] false (ch :: more) ++ tail =
            ch :: (lineStartReplace [m, ' '] false more ++ tail) := by
          simp [lineStartReplace, hc]
        rw [hx]
        exact hcore
      | true =>
        have hx : lineStartReplace [m, ' '] true (ch :: more) ++ tail =
            m :: ' ' :: ch :: (lineStartReplace [m, ' '] false more ++ tail) := by
          simp [lineStartReplace, hc]
        rw [hx]
        simp only [hasKeyValueMatch] at hcore ⊢
        simp [matchKeyValue_none_of_head hmq,
          matchKeyValue_none_of_head (show ' ' ≠ dquote by decide), hcore]

/-- The rendering of one Insert or Delete segment under redaction: the color code when color is
on, the redacted text with the marker at its line starts, the reset code when color is on. -/
theorem formatDiff_single_redacted (t : String) (color : Bool) :
    (formatDiff [⟨.DiffInsert, t⟩] color true).data =
      (if color then "\x1b[32m".data else []) ++
        (lineStartReplace ['+', ' '] true (keyValueReplace 0 t.data) ++
          (if color then "\x1b[0m".data else [])) ∧
    (formatDiff [⟨.DiffDelete, t⟩] color true).data =
      (if color then "\x1b[31m".data else []) ++
        (lineStartReplace ['-', ' '] true (keyValueReplace 0 t.data) ++
          (if color then "\x1b[0m".data else [])) := by
  cases color <;> simp [formatDiff]

/-- A color code has no quote and, before any text, stops every match. -/
theorem color_code_facts :
    (∀ ch ∈ "\x1b[32m".data, ch ≠ dquote) ∧ (∀ ch ∈ "\x1b[31m".data, ch ≠ dquote) ∧
    (∀ ch ∈ "\x1b[0m".data, ch ≠ dquote) ∧
    "\x1b[32m".data = escChar :: "[32m".data ∧ "\x1b[31m".data = escChar :: "[31m".data ∧
    "\x1b[0m".data = escChar :: "[0m".data := by
  refine ⟨by decide, by decide, by decide, by decide, by decide, by decide⟩

/-- The rendering of one marked and redacted text, with or without color, before a text that
has no match and stops every match, has no match and stops every match. -/
theorem piece_no_match {m : Char} (hm : m = '+' ∨ m = '-') (code : List Char)
    (hcode : ∃ more, code = escChar :: more) (hcodeq : ∀ ch ∈ code, ch ≠ dquote)
    (color : Bool) (t tail : List Char) (htail : Blocks tail)
    (hno : hasKeyValueMatch tail = false) :
    Blocks ((if color then code else []) ++
      (lineStartReplace [m, ' '] true (keyValueReplace 0 t) ++
        ((if color then "\x1b[0m".data else []) ++ tail))) ∧
    hasKeyValueMatch ((if color then code else []) ++
      (lineStartReplace [m, ' '] true (keyValueReplace 0 t) ++
        ((if color then "\x1b[0m".data else []) ++ tail))) = false := by
  obtain ⟨_, _, hreset, _, _, hresetEsc⟩ := color_code_facts
  cases color with
  | false =>
    simp only [Bool.false_eq_true, if_false, List.nil_append]
    exact ⟨blocks_lineStartReplace hm htail _,
      hasKeyValueMatch_lineStartReplace hm htail hno _ (hasKeyValueMatch_keyValueReplace t 0) true⟩
  | true =>
    simp only [if_true]
    have htail' : Blocks ("\x1b[0m".data ++ tail) := by
      rw [hresetEsc]; exact blocks_esc _
    have hno' : hasKeyValueMatch ("\x1b[0m".data ++ tail) = false := by
      rw [hasKeyValueMatch_append_of_no_dquote tail _ hreset]; exact hno
    obtain ⟨more, hmore⟩ := hcode
    refine ⟨?_, ?_⟩
    · rw [hmore]; exact blocks_esc _
    · rw [hasKeyValueMatch_append_of_no_dquote _ _ hcodeq]
      exact hasKeyValueMatch_lineStartReplace hm htail' hno' _
        (hasKeyValueMatch_keyValueReplace t 0) true

/-- No substring of what `formatDiff` renders under redaction matches `DiffKeyValue`, and the
rendering stops every match begun before it. -/
theorem formatDiff_no_match (color : Bool) :
    ∀ (diffs : List Diff), Blocks (formatDiff diffs color true).data ∧
      hasKeyValueMatch (formatDiff diffs color true).data = false := by
  obtain ⟨h32, h31, _, e32, e31, _⟩ := color_code_facts
  intro diffs
  induction diffs with
  | nil => exact ⟨blocks_nil, rfl⟩
  | cons d rest ih =>
    obtain ⟨typ, text⟩ := d
    rw [formatDiff_cons, String.data_append]
    cases typ with
    | DiffEqual =>
      rw [(formatDiff_equal text color).1]
      exact ih
    | DiffInsert =>
      rw [(formatDiff_single_redacted text color).1]
      simp only [List.append_assoc]
      exact piece_no_match (Or.inl rfl) _ ⟨_, e32⟩ h32 color _ _ ih.1 ih.2
    | DiffDelete =>
      rw [(formatDiff_single_redacted text color).2]
      simp only [List.append_assoc]
      exact piece_no_match (Or.inr rfl) _ ⟨_, e31⟩ h31 color _ _ ih.1 ih.2

/-! ## C13: redaction -/

/-- Passing `skip` characters and scanning on is scanning the text without them. -/
theorem keyValueReplace_skip :
    ∀ (text : List Char) (skip : Nat),
      keyValueReplace skip text = keyValueReplace 0 (text.drop skip) := by
  intro text
  induction text with
  | nil => intro skip; cases skip <;> rfl
  | cons ch more ih =>
    intro skip
    cases skip with
    | zero => rfl
    | succ k => simpa [keyValueReplace] using ih k

/-- Where the scan stands at a text of the form of `DiffKeyValue`, the form, with a comma that
follows it, is replaced by the key and `: <omitted>`, and the scan goes on after it. -/
theorem keyValueReplace_of_form {key value : List Char} {sp : Char}
    (h : IsKeyValue key sp value) (rest : List Char) :
    keyValueReplace 0 (keyValueCore key sp value ++ rest) =
      key ++ ": <omitted>".data ++
        keyValueReplace 0 (if rest.head? = some ',' then rest.tail else rest) := by
  have hdrop : ∀ (pre tl : List Char) (k : Nat),
      List.drop (pre.length + k) (pre ++ tl) = List.drop k tl := by
    intro pre tl k
    induction pre with
    | nil => simp
    | cons a l ih =>
      rw [List.length_cons, Nat.add_right_comm]
      exact ih
  have hm := matchKeyValue_complete h rest
  have hcore : ∃ pre, keyValueCore key sp value = dquote :: pre :=
    ⟨_, rfl⟩
  obtain ⟨pre, hpre⟩ := hcore
  rw [hpre] at hm ⊢
  rw [List.cons_append] at hm ⊢
  simp only [keyValueReplace, hm]
  rw [keyValueReplace_skip]
  congr 2
  by_cases hr : rest.head? = some ','
  · rw [if_pos hr, if_pos hr]
    have e : (dquote :: pre).length + 1 - 1 = pre.length + 1 := by simp
    rw [e, hdrop]
    cases rest <;> rfl
  · rw [if_neg hr, if_neg hr]
    have e : (dquote :: pre).length + 0 - 1 = pre.length + 0 := by simp
    rw [e, hdrop]
    rfl

/-- C13 (amended): redaction. Under `omitchanges = true` the text of an Insert or Delete segment
goes through the replacement for `DiffKeyValue` before it is marked: scanning from the left,
where the text at the scan position has the form `"<key>": "<value>"` (key over `[-._a-zA-Z0-9]`,
one space character, value over `[[:alnum:]=+]`) the form and a comma that follows it are replaced
by `<key>: <omitted>` and the scan goes on after what was replaced, so that the matches replaced
do not overlap; where it has not, the character is copied. What `formatDiff` renders then has no
substring that matches the pattern. For the input `"password": "abc123",` the rendering is
`+ password: <omitted>`, which does not contain `abc123`. -/
theorem redaction (diffs : List Diff) (color : Bool) (t : String) (key value : List Char)
    (sp : Char) (rest : List Char) :
    hasKeyValueMatch (formatDiff diffs color true).data = false ∧
    ((formatDiff [⟨.DiffInsert, t⟩] color true).data =
        (if color then "\x1b[32m".data else []) ++
          (lineStartReplace ['+', ' '] true (keyValueReplace 0 t.data) ++
            (if color then "\x1b[0m".data else [])) ∧
      (formatDiff [⟨.DiffDelete, t⟩] color true).data =
        (if color then "\x1b[31m".data else []) ++
          (lineStartReplace ['-', ' '] true (keyValueReplace 0 t.data) ++
            (if color then "\x1b[0m".data else []))) ∧
    (IsKeyValue key sp value →
      keyValueReplace 0 (keyValueCore key sp value ++ rest) =
        key ++ ": <omitted>".data ++
          keyValueReplace 0 (if rest.head? = some ',' then rest.tail else rest)) ∧
    ((∀ k s v tl, IsKeyValue k s v → rest ≠ keyValueCore k s v ++ tl) →
      keyValueReplace 0 rest = match rest with
        | [] => []
        | ch :: more => ch :: keyValueReplace 0 more) ∧
    formatDiff [⟨.DiffInsert, "\"password\": \"abc123\","⟩] false true
      = "+ password: <omitted>" ∧
    ¬ ("abc123".data <:+:
      (formatDiff [⟨.DiffInsert, "\"password\": \"abc123\","⟩] false true).data) := by
  refine ⟨(formatDiff_no_match color diffs).2, formatDiff_single_redacted t color,
    fun h => keyValueReplace_of_form h rest, ?_, by decide, by decide⟩
  intro hnone
  cases rest with
  | nil => rfl
  | cons ch more =>
    cases hm : matchKeyValue (ch :: more) with
    | none => simp [keyValueReplace, hm]
    | some r =>
      obtain ⟨k, n⟩ := r
      obtain ⟨s, v, tl, hkv, htext, _⟩ := matchKeyValue_sound hm
      exact absurd htext (hnone k s v tl hkv)

/-- C13, the claim as stated fails: in the text `"a": "b": "c"` the substring `"b": "c"` has the
form of the pattern, but it starts inside the match `"a": "b"` that the scan replaces first; it
is not replaced by `b: <omitted>`, and its value `c` stays in the rendering. -/
theorem redaction_counterexample :
    matchKeyValue "\"b\": \"c\"".data = some ("b".data, 8) ∧
    "\"b\": \"c\"".data <:+: "\"a\": \"b\": \"c\"".data ∧
    formatDiff [⟨.DiffInsert, "\"a\": \"b\": \"c\""⟩] false true = "+ a: <omitted>: \"c\"" ∧
    ¬ ("b: <omitted>".data <:+: "+ a: <omitted>: \"c\"".data) := by
  refine ⟨by decide, by decide, by decide, by decide⟩

end Kubecfg
